import Mathlib

/-!
Verification development for the multiway-powersort-experiments repository.

The Rust sources under src/src/algorithms are shallowly embedded here:
slices become `List` values, `usize` becomes `Nat` (with explicit `% 2 ^ 64`
wherever the source can overflow), the generic `T : Ord` element type becomes
a type `α` together with a boolean comparator `le : α → α → Bool` (Rust's
`a <= b`; the derived `a < b` of a lawful `Ord` is `!(le b a)`), and fallible
code (assertion failures, possible non-termination) returns `Option`.
-/

set_option maxHeartbeats 1000000

namespace MPE

/-- Lawfulness of a Rust `Ord` comparator: `le` is transitive and total.
This is exactly what the `Ord` contract guarantees about `<=` (antisymmetry is
deliberately not assumed, so that stability is expressible). -/
structure LawfulCmp {α : Type} (le : α → α → Bool) : Prop where
  trans : ∀ a b c, le a b = true → le b c = true → le a c = true
  total : ∀ a b, (le a b || le b a) = true

theorem LawfulCmp.le_of_not_le {α : Type} {le : α → α → Bool} (h : LawfulCmp le)
    {a b : α} (hab : ¬ le a b = true) : le b a = true := by
  have := h.total a b
  cases hba : le b a <;> cases hab2 : le a b <;> simp [hba, hab2] at this hab ⊢

theorem LawfulCmp.refl {α : Type} {le : α → α → Bool} (h : LawfulCmp le) (a : α) :
    le a a = true := by
  have := h.total a a
  simpa using this

/-- Sortedness with respect to a boolean comparator (weakly increasing). -/
def SortedLe {α : Type} (le : α → α → Bool) (l : List α) : Prop :=
  List.Pairwise (fun a b => le a b = true) l

theorem SortedLe.nil {α : Type} (le : α → α → Bool) : SortedLe le [] :=
  List.Pairwise.nil

theorem SortedLe.tail {α : Type} {le : α → α → Bool} {a : α} {l : List α}
    (h : SortedLe le (a :: l)) : SortedLe le l :=
  (List.pairwise_cons.mp h).2

/- ## Run scanner (src/src/algorithms/merging.rs lines 12-87)

`find_first_sequentially` walks an iterator and returns the first element
whose successor breaks the sequence; `Err` when the iterator is empty. -/

/-- Loop of `find_first_sequentially`: `current` is the element in hand,
`rest` the remaining iterator. -/
def ffs_loop {α : Type} (f : α → α → Bool) : α → List α → Option α
  | _, [] => none
  | current, next :: rest =>
    if f current next then some current else ffs_loop f next rest

/-- Embedding of `find_first_sequentially` (merging.rs lines 12-27). -/
def find_first_sequentially {α : Type} (l : List α) (f : α → α → Bool) :
    Except Unit (Option α) :=
  match l with
  | [] => Except.error ()
  | x :: xs => Except.ok (ffs_loop f x xs)

/-- Embedding of `weakly_increasing_prefix_index` (merging.rs lines 30-42): the
iterator runs over `slice.iter().enumerate()` and the closure tests
`current > next`, i.e. `!(le current next)`. -/
def weakly_increasing_prefix_index {α : Type} (le : α → α → Bool) (slice : List α) : Nat :=
  match find_first_sequentially slice.enum (fun current next => !(le current.2 next.2)) with
  | Except.ok (some (index, _)) => index + 1
  | Except.ok none => slice.length
  | Except.error () => 0

/-- Embedding of `strictly_decreasing_prefix_index` (merging.rs lines 60-72):
the closure tests `current <= next`. -/
def strictly_decreasing_prefix_index {α : Type} (le : α → α → Bool) (slice : List α) : Nat :=
  match find_first_sequentially slice.enum (fun current next => le current.2 next.2) with
  | Except.ok (some (index, _)) => index + 1
  | Except.ok none => slice.length
  | Except.error () => 0

/-- Embedding of `TimSort::count_run_and_make_ascending`
(src/src/algorithms/timsort.rs lines 107-121).  It returns the new slice
contents (after the possible in-place reversal of a decreasing prefix)
together with the returned end index. -/
def count_run_and_make_ascending {α : Type} (le : α → α → Bool) (slice : List α) :
    List α × Nat :=
  if h : slice.length < 2 then (slice, slice.length)
  else
    have h0 : 0 < slice.length := by omega
    have h1 : 1 < slice.length := by omega
    if !(le (slice.get ⟨0, h0⟩) (slice.get ⟨1, h1⟩)) then
      let run_end := strictly_decreasing_prefix_index le slice
      ((slice.take run_end).reverse ++ slice.drop run_end, run_end)
    else
      (slice, weakly_increasing_prefix_index le slice)

/- ### Characterisation of the scanner -/

/-- Specification-side measure: the length of the longest weakly-increasing
prefix, written directly as a recursion. -/
def wiLen {α : Type} (le : α → α → Bool) : List α → Nat
  | [] => 0
  | [_] => 1
  | x :: y :: t => if le x y then wiLen le (y :: t) + 1 else 1

/-- Specification-side measure: the length of the longest strictly-decreasing
prefix. -/
def sdLen {α : Type} (le : α → α → Bool) : List α → Nat
  | [] => 0
  | [_] => 1
  | x :: y :: t => if le x y then 1 else sdLen le (y :: t) + 1

theorem ffs_loop_enumFrom_shift {α : Type} (p : α → α → Bool) :
    ∀ (xs : List α) (x : α) (i : Nat),
      (ffs_loop (fun c n => p c.2 n.2) (i, x) (List.enumFrom (i + 1) xs)).map Prod.fst
        = ((ffs_loop (fun c n => p c.2 n.2) (0, x) (List.enumFrom 1 xs)).map
            Prod.fst).map (· + i)
  | [], _, _ => rfl
  | y :: t, x, i => by
    simp only [List.enumFrom, ffs_loop]
    by_cases h : p x y
    · simp [h]
    · simp only [h, if_false, Bool.false_eq_true]
      have h1 := ffs_loop_enumFrom_shift p t y (i + 1)
      have h2 := ffs_loop_enumFrom_shift p t y 1
      rw [h1, h2]
      simp only [Option.map_map]
      congr 1
      funext k
      simp only [Function.comp_apply]
      omega

/-- Value of the first-break search as a plain recursion: the index `j` of the
first adjacent pair `(l[j], l[j+1])` satisfying `p`, if any. -/
def firstBreak {α : Type} (p : α → α → Bool) : α → List α → Option Nat
  | _, [] => none
  | x, y :: t => if p x y then some 0 else (firstBreak p y t).map (· + 1)

theorem ffs_loop_enum_eq_firstBreak {α : Type} (p : α → α → Bool) :
    ∀ (xs : List α) (x : α),
      (ffs_loop (fun c n => p c.2 n.2) (0, x) (List.enumFrom 1 xs)).map Prod.fst
        = firstBreak p x xs
  | [], _ => rfl
  | y :: t, x => by
    simp only [List.enumFrom, ffs_loop, firstBreak]
    by_cases h : p x y
    · simp [h]
    · simp only [h, if_false, Bool.false_eq_true]
      rw [ffs_loop_enumFrom_shift p t y 1, ffs_loop_enum_eq_firstBreak p t y]

/-- Reading of the prefix-index functions through `firstBreak`: the result is
the first break position plus one, or the length when no break occurs. -/
def breakIndex {α : Type} (p : α → α → Bool) (x : α) (xs : List α) : Nat :=
  match firstBreak p x xs with
  | some j => j + 1
  | none => xs.length + 1

theorem prefix_index_cons {α : Type} (p : α → α → Bool) (x : α) (xs : List α) :
    (match find_first_sequentially (x :: xs).enum (fun c n => p c.2 n.2) with
      | Except.ok (some (index, _)) => index + 1
      | Except.ok none => (x :: xs).length
      | Except.error () => 0) = breakIndex p x xs := by
  have henum : (x :: xs).enum = (0, x) :: List.enumFrom 1 xs := by
    simp [List.enum]
  simp only [find_first_sequentially, henum]
  have hkey := ffs_loop_enum_eq_firstBreak p xs x
  cases hres : ffs_loop (fun c n => p c.2 n.2) (0, x) (List.enumFrom 1 xs) with
  | none =>
    have hfb : firstBreak p x xs = none := by rw [← hkey, hres]; rfl
    simp [breakIndex, hfb]
  | some pr =>
    obtain ⟨j, v⟩ := pr
    have hfb : firstBreak p x xs = some j := by rw [← hkey, hres]; rfl
    simp [breakIndex, hfb]

theorem weakly_increasing_prefix_index_cons {α : Type} (le : α → α → Bool)
    (x : α) (xs : List α) :
    weakly_increasing_prefix_index le (x :: xs)
      = breakIndex (fun a b => !(le a b)) x xs := by
  unfold weakly_increasing_prefix_index
  exact prefix_index_cons (fun a b => !(le a b)) x xs

theorem strictly_decreasing_prefix_index_cons {α : Type} (le : α → α → Bool)
    (x : α) (xs : List α) :
    strictly_decreasing_prefix_index le (x :: xs)
      = breakIndex (fun a b => le a b) x xs := by
  unfold strictly_decreasing_prefix_index
  exact prefix_index_cons (fun a b => le a b) x xs

theorem breakIndex_not_le_eq_wiLen {α : Type} (le : α → α → Bool) :
    ∀ (xs : List α) (x : α), breakIndex (fun a b => !(le a b)) x xs = wiLen le (x :: xs)
  | [], x => by simp [breakIndex, firstBreak, wiLen]
  | y :: t, x => by
    by_cases h : le x y
    · have ih := breakIndex_not_le_eq_wiLen le t y
      simp only [breakIndex, firstBreak, h, Bool.not_true, if_false, Bool.false_eq_true,
        wiLen, if_true] at ih ⊢
      cases hfb : firstBreak (fun a b => !(le a b)) y t with
      | none => rw [hfb] at ih; simp at ih; simp [← ih]
      | some k => rw [hfb] at ih; simp at ih; simp [← ih]
    · simp [breakIndex, firstBreak, h, wiLen]

theorem breakIndex_le_eq_sdLen {α : Type} (le : α → α → Bool) :
    ∀ (xs : List α) (x : α), breakIndex (fun a b => le a b) x xs = sdLen le (x :: xs)
  | [], x => by simp [breakIndex, firstBreak, sdLen]
  | y :: t, x => by
    by_cases h : le x y
    · simp [breakIndex, firstBreak, h, sdLen]
    · have ih := breakIndex_le_eq_sdLen le t y
      simp only [breakIndex, firstBreak, h, if_false, Bool.false_eq_true,
        sdLen, if_true] at ih ⊢
      cases hfb : firstBreak (fun a b => le a b) y t with
      | none => rw [hfb] at ih; simp at ih; simp [← ih]
      | some k => rw [hfb] at ih; simp at ih; simp [← ih]

theorem weakly_increasing_prefix_index_eq_wiLen {α : Type} (le : α → α → Bool) :
    ∀ slice : List α, weakly_increasing_prefix_index le slice = wiLen le slice
  | [] => rfl
  | x :: xs => by
    rw [weakly_increasing_prefix_index_cons, breakIndex_not_le_eq_wiLen]

theorem strictly_decreasing_prefix_index_eq_sdLen {α : Type} (le : α → α → Bool) :
    ∀ slice : List α, strictly_decreasing_prefix_index le slice = sdLen le slice
  | [] => rfl
  | x :: xs => by
    rw [strictly_decreasing_prefix_index_cons, breakIndex_le_eq_sdLen]

/-- Generic prefix-chain length; `wiLen` and `sdLen` are its instances. -/
def chainLen {α : Type} (q : α → α → Bool) : List α → Nat
  | [] => 0
  | [_] => 1
  | x :: y :: t => if q x y then chainLen q (y :: t) + 1 else 1

theorem wiLen_eq_chainLen {α : Type} (le : α → α → Bool) :
    ∀ l : List α, wiLen le l = chainLen (fun a b => le a b) l
  | [] => rfl
  | [_] => rfl
  | x :: y :: t => by
    simp only [wiLen, chainLen]
    by_cases h : le x y <;> simp [h, wiLen_eq_chainLen le (y :: t)]

theorem sdLen_eq_chainLen {α : Type} (le : α → α → Bool) :
    ∀ l : List α, sdLen le l = chainLen (fun a b => !(le a b)) l
  | [] => rfl
  | [_] => rfl
  | x :: y :: t => by
    simp only [sdLen, chainLen]
    by_cases h : le x y <;> simp [h, sdLen_eq_chainLen le (y :: t)]

theorem chainLen_le_length {α : Type} (q : α → α → Bool) :
    ∀ l : List α, chainLen q l ≤ l.length
  | [] => by simp [chainLen]
  | [_] => by simp [chainLen]
  | x :: y :: t => by
    have := chainLen_le_length q (y :: t)
    by_cases h : q x y <;> simp [chainLen, h] <;> simp at this <;> omega

theorem chainLen_pos {α : Type} (q : α → α → Bool) :
    ∀ l : List α, l ≠ [] → 1 ≤ chainLen q l
  | [], h => absurd rfl h
  | [_], _ => le_refl 1
  | x :: y :: t, _ => by
    by_cases h : q x y <;> simp [chainLen, h]

theorem chain_take_chainLen {α : Type} (q : α → α → Bool) :
    ∀ l : List α, List.Chain' (fun a b => q a b = true) (l.take (chainLen q l))
  | [] => by simp [chainLen]
  | [_] => by simp [chainLen]
  | x :: y :: t => by
    by_cases h : q x y
    · have ih := chain_take_chainLen q (y :: t)
      have hpos := chainLen_pos q (y :: t) (by simp)
      have heq : chainLen q (x :: y :: t) = chainLen q (y :: t) + 1 := by
        simp [chainLen, h]
      rw [heq, List.take_succ_cons, List.chain'_cons']
      constructor
      · intro z hz
        rcases Nat.exists_eq_add_of_le hpos with ⟨k, hk⟩
        rw [hk, Nat.add_comm, List.take_succ_cons] at hz
        simp at hz
        rw [← hz]
        exact h
      · exact ih
    · have heq : chainLen q (x :: y :: t) = 1 := by simp [chainLen, h]
      rw [heq, List.take_succ_cons]
      simp

theorem chainLen_maximal {α : Type} (q : α → α → Bool) :
    ∀ (l : List α) (j : Nat), j ≤ l.length →
      List.Chain' (fun a b => q a b = true) (l.take j) → j ≤ chainLen q l
  | [], j, hj, _ => by
    simp at hj
    simp [chainLen, hj]
  | [a], j, hj, _ => by
    simp at hj
    have : chainLen q [a] = 1 := rfl
    omega
  | x :: y :: t, j, hj, hchain => by
    match j with
    | 0 => exact Nat.zero_le _
    | 1 => exact chainLen_pos q (x :: y :: t) (by simp)
    | k + 2 =>
      rw [List.take_succ_cons, List.take_succ_cons, List.chain'_cons] at hchain
      obtain ⟨hxy, hrest⟩ := hchain
      have ih := chainLen_maximal q (y :: t) (k + 1) (by simp at hj ⊢; omega)
        (by rw [List.take_succ_cons]; exact hrest)
      have heq : chainLen q (x :: y :: t) = chainLen q (y :: t) + 1 := by
        simp [chainLen, hxy]
      omega

theorem sorted_of_chain {α : Type} {le : α → α → Bool} (h : LawfulCmp le) :
    ∀ l : List α, List.Chain' (fun a b => le a b = true) l → SortedLe le l
  | [], _ => List.Pairwise.nil
  | [x], _ => by simp [SortedLe]
  | x :: y :: t, hchain => by
    rw [List.chain'_cons] at hchain
    obtain ⟨hxy, hrest⟩ := hchain
    have ih := sorted_of_chain h (y :: t) hrest
    rw [SortedLe, List.pairwise_cons]
    refine ⟨?_, ih⟩
    intro b hb
    rcases List.mem_cons.mp hb with hb | hb
    · exact hb ▸ hxy
    · rw [SortedLe, List.pairwise_cons] at ih
      exact h.trans x y b hxy (ih.1 b hb)

theorem LawfulCmp.flip {α : Type} {le : α → α → Bool} (h : LawfulCmp le) :
    LawfulCmp (fun a b => le b a) := by
  constructor
  · intro a b c hab hbc
    exact h.trans c b a hbc hab
  · intro a b
    have := h.total b a
    cases hx : le b a <;> cases hy : le a b <;> simp [hx, hy] at this ⊢

theorem sorted_reverse_of_decreasing_chain {α : Type} {le : α → α → Bool}
    (h : LawfulCmp le) (l : List α)
    (hchain : List.Chain' (fun a b => (!(le a b)) = true) l) :
    SortedLe le l.reverse := by
  rw [SortedLe, List.pairwise_reverse]
  have hflip : List.Chain' (fun a b => le b a = true) l := by
    refine hchain.imp ?_
    intro a b hab
    simp only [Bool.not_eq_true'] at hab
    exact h.le_of_not_le (by simp [hab])
  exact sorted_of_chain h.flip l hflip

theorem wi_take_sorted {α : Type} {le : α → α → Bool} (h : LawfulCmp le) (l : List α) :
    SortedLe le (l.take (weakly_increasing_prefix_index le l)) := by
  rw [weakly_increasing_prefix_index_eq_wiLen, wiLen_eq_chainLen]
  exact sorted_of_chain h _ (chain_take_chainLen (fun a b => le a b) l)

theorem wi_maximal {α : Type} (le : α → α → Bool) (l : List α) (j : Nat)
    (hj : j ≤ l.length) (hchain : List.Chain' (fun a b => le a b = true) (l.take j)) :
    j ≤ weakly_increasing_prefix_index le l := by
  rw [weakly_increasing_prefix_index_eq_wiLen, wiLen_eq_chainLen]
  exact chainLen_maximal (fun a b => le a b) l j hj hchain

theorem sd_take_chain {α : Type} (le : α → α → Bool) (l : List α) :
    List.Chain' (fun a b => (!(le a b)) = true)
      (l.take (strictly_decreasing_prefix_index le l)) := by
  rw [strictly_decreasing_prefix_index_eq_sdLen, sdLen_eq_chainLen]
  exact chain_take_chainLen (fun a b => !(le a b)) l

theorem sd_maximal {α : Type} (le : α → α → Bool) (l : List α) (j : Nat)
    (hj : j ≤ l.length)
    (hchain : List.Chain' (fun a b => (!(le a b)) = true) (l.take j)) :
    j ≤ strictly_decreasing_prefix_index le l := by
  rw [strictly_decreasing_prefix_index_eq_sdLen, sdLen_eq_chainLen]
  exact chainLen_maximal (fun a b => !(le a b)) l j hj hchain

theorem wi_le_length {α : Type} (le : α → α → Bool) (l : List α) :
    weakly_increasing_prefix_index le l ≤ l.length := by
  rw [weakly_increasing_prefix_index_eq_wiLen, wiLen_eq_chainLen]
  exact chainLen_le_length _ l

theorem sd_le_length {α : Type} (le : α → α → Bool) (l : List α) :
    strictly_decreasing_prefix_index le l ≤ l.length := by
  rw [strictly_decreasing_prefix_index_eq_sdLen, sdLen_eq_chainLen]
  exact chainLen_le_length _ l

theorem count_run_cons_cons {α : Type} (le : α → α → Bool) (x y : α) (t : List α) :
    count_run_and_make_ascending le (x :: y :: t) =
      if !(le x y) then
        ((((x :: y :: t).take (strictly_decreasing_prefix_index le (x :: y :: t))).reverse
           ++ (x :: y :: t).drop (strictly_decreasing_prefix_index le (x :: y :: t))),
         strictly_decreasing_prefix_index le (x :: y :: t))
      else (x :: y :: t, weakly_increasing_prefix_index le (x :: y :: t)) := by
  rw [count_run_and_make_ascending]
  simp

/-- Claim C7: given a non-empty slice, the run scanner returns the end index of
the longest weakly-increasing prefix starting at index 0; if the first two
elements strictly decrease it instead finds the longest strictly-decreasing
prefix, reverses it in place and returns its length, so the returned prefix
range is always non-decreasing on exit; on a 0- or 1-length input it returns
the input length.  Stated for `TimSort::count_run_and_make_ascending` together
with the two prefix scanners it delegates to. -/
theorem C7_run_scanner {α : Type} (le : α → α → Bool) (h : LawfulCmp le)
    (slice : List α) :
    ((count_run_and_make_ascending le slice).1).Perm slice ∧
    (count_run_and_make_ascending le slice).2 ≤ slice.length ∧
    SortedLe le ((count_run_and_make_ascending le slice).1.take
      (count_run_and_make_ascending le slice).2) ∧
    (slice.length < 2 → count_run_and_make_ascending le slice = (slice, slice.length)) ∧
    (∀ x y t, slice = x :: y :: t → le x y = true →
      count_run_and_make_ascending le slice
          = (slice, weakly_increasing_prefix_index le slice) ∧
      (∀ j, j ≤ slice.length → List.Chain' (fun a b => le a b = true) (slice.take j) →
        j ≤ weakly_increasing_prefix_index le slice)) ∧
    (∀ x y t, slice = x :: y :: t → le x y = false →
      count_run_and_make_ascending le slice
          = ((slice.take (strictly_decreasing_prefix_index le slice)).reverse
               ++ slice.drop (strictly_decreasing_prefix_index le slice),
             strictly_decreasing_prefix_index le slice) ∧
      List.Chain' (fun a b => (!(le a b)) = true)
        (slice.take (strictly_decreasing_prefix_index le slice)) ∧
      (∀ j, j ≤ slice.length →
        List.Chain' (fun a b => (!(le a b)) = true) (slice.take j) →
        j ≤ strictly_decreasing_prefix_index le slice)) := by
  match slice with
  | [] =>
    refine ⟨by simp [count_run_and_make_ascending], ?_, ?_, ?_, ?_, ?_⟩
    · simp [count_run_and_make_ascending]
    · simp [count_run_and_make_ascending, SortedLe]
    · intro _; rfl
    · intro x y t hxy; cases hxy
    · intro x y t hxy; cases hxy
  | [a] =>
    refine ⟨by simp [count_run_and_make_ascending], ?_, ?_, ?_, ?_, ?_⟩
    · simp [count_run_and_make_ascending]
    · simp [count_run_and_make_ascending, SortedLe]
    · intro _; rfl
    · intro x y t hxy; cases hxy
    · intro x y t hxy; cases hxy
  | x :: y :: t =>
    rw [count_run_cons_cons]
    by_cases hxy : le x y
    · simp only [hxy, Bool.not_true, if_false, Bool.false_eq_true]
      refine ⟨List.Perm.refl _, wi_le_length le _, wi_take_sorted h _, ?_, ?_, ?_⟩
      · intro hlen
        simp only [List.length_cons] at hlen
        omega
      · intro x2 y2 t2 heq _
        exact ⟨by simp, fun j hj hc => wi_maximal le _ j hj hc⟩
      · intro x2 y2 t2 heq hfalse
        cases heq
        rw [hxy] at hfalse
        cases hfalse
    · simp only [Bool.not_eq_true] at hxy
      simp only [hxy, Bool.not_false, if_true]
      have hsd := sd_le_length le (x :: y :: t)
      have hperm : (((x :: y :: t).take
          (strictly_decreasing_prefix_index le (x :: y :: t))).reverse
            ++ (x :: y :: t).drop (strictly_decreasing_prefix_index le (x :: y :: t))).Perm
            (x :: y :: t) := by
        have h1 := List.reverse_perm
          ((x :: y :: t).take (strictly_decreasing_prefix_index le (x :: y :: t)))
        have h2 := h1.append_right
          ((x :: y :: t).drop (strictly_decreasing_prefix_index le (x :: y :: t)))
        rw [List.take_append_drop] at h2
        exact h2
      refine ⟨hperm, hsd, ?_, ?_, ?_, ?_⟩
      · have hlen2 : ((x :: y :: t).take
            (strictly_decreasing_prefix_index le (x :: y :: t))).reverse.length
            = strictly_decreasing_prefix_index le (x :: y :: t) := by
          have hsd2 := hsd
          simp only [List.length_cons] at hsd2
          simp only [List.length_reverse, List.length_take, List.length_cons]
          omega
        rw [List.take_append_of_le_length (le_of_eq hlen2.symm),
          List.take_of_length_le (le_of_eq hlen2)]
        exact sorted_reverse_of_decreasing_chain h _ (sd_take_chain le _)
      · intro hlen
        simp only [List.length_cons] at hlen
        omega
      · intro x2 y2 t2 heq htrue
        cases heq
        rw [hxy] at htrue
        cases htrue
      · intro x2 y2 t2 heq _
        exact ⟨by simp, sd_take_chain le _, fun j hj hc => sd_maximal le _ j hj hc⟩

/- ## Two-way merging, CopyBoth strategy
(src/src/algorithms/merging.rs lines 209-283) -/

/-- The element-by-element copy loop of `CopyBoth::merge` (merging.rs lines
252-271): while both runs are non-empty, the smaller head moves to the output
with ties favouring the left run (`*left.start() <= *right.start()`), then the
non-empty remainder is flushed. -/
def merge_runs {α : Type} (le : α → α → Bool) : List α → List α → List α
  | [], right => right
  | l :: left, [] => l :: left
  | l :: left, r :: right =>
    if le l r then l :: merge_runs le left (r :: right)
    else r :: merge_runs le (l :: left) right

/-- Embedding of `CopyBoth::merge` (merging.rs lines 219-283).  The scratch
buffer holds no observable data, so only its length is passed; `none` models a
failed assertion. -/
def CopyBoth.merge {α : Type} (le : α → α → Bool) (slice : List α)
    (split_point : Nat) (buffer_len : Nat) : Option (List α) :=
  if slice.isEmpty then some slice
  else if buffer_len < slice.length then none
  else if slice.length ≤ split_point then none
  else some (merge_runs le (slice.take split_point) (slice.drop split_point))

theorem merge_runs_eq_merge {α : Type} (le : α → α → Bool) :
    ∀ l r : List α, merge_runs le l r = List.merge l r le
  | [], r => by simp [merge_runs, List.nil_merge]
  | l :: left, [] => by simp [merge_runs, List.merge]
  | l :: left, r :: right => by
    rw [List.cons_merge_cons]
    by_cases h : le l r
    · simp [merge_runs, h, merge_runs_eq_merge le left (r :: right)]
    · simp [merge_runs, h, merge_runs_eq_merge le (l :: left) right]
  termination_by l r => l.length + r.length

theorem merge_runs_perm {α : Type} (le : α → α → Bool) (l r : List α) :
    (merge_runs le l r).Perm (l ++ r) := by
  rw [merge_runs_eq_merge]
  exact List.perm_merge le l r

theorem merge_runs_sorted {α : Type} {le : α → α → Bool} (h : LawfulCmp le)
    (l r : List α) (hl : SortedLe le l) (hr : SortedLe le r) :
    SortedLe le (merge_runs le l r) := by
  rw [merge_runs_eq_merge]
  exact List.sorted_merge h.trans h.total l r hl hr

theorem merge_runs_length {α : Type} (le : α → α → Bool) (l r : List α) :
    (merge_runs le l r).length = l.length + r.length := by
  have := (merge_runs_perm le l r).length_eq
  simpa using this

/-- Stability of the copy loop: for every tie class (the elements comparing
equal to a fixed `a`), the merged output lists the left-run members first, in
order, then the right-run members.  Only sortedness of the left run is needed. -/
theorem merge_runs_filter_tie {α : Type} {le : α → α → Bool} (h : LawfulCmp le)
    (a : α) :
    ∀ l r : List α, SortedLe le l →
      (merge_runs le l r).filter (fun b => le a b && le b a)
        = l.filter (fun b => le a b && le b a)
          ++ r.filter (fun b => le a b && le b a)
  | [], r, _ => by simp [merge_runs]
  | l :: left, [], _ => by simp [merge_runs]
  | l :: left, r :: right, hl => by
    by_cases hlr : le l r
    · have ih := merge_runs_filter_tie h a left (r :: right) hl.tail
      simp only [merge_runs, hlr, if_true]
      by_cases hcls : (le a l && le l a) = true
      · simp [List.filter_cons, hcls, ih]
      · simp [List.filter_cons, hcls, ih]
    · have ih := merge_runs_filter_tie h a (l :: left) right hl
      simp only [merge_runs, hlr, if_false, Bool.false_eq_true]
      by_cases hcls : (le a r && le r a) = true
      · have hempty : (l :: left).filter (fun b => le a b && le b a) = [] := by
          rw [List.filter_eq_nil_iff]
          intro b hb
          intro hbcls
          simp only [Bool.and_eq_true] at hbcls hcls
          have hlb : le l b = true := by
            rcases List.mem_cons.mp hb with hb2 | hb2
            · exact hb2 ▸ h.refl l
            · exact (List.pairwise_cons.mp hl).1 b hb2
          exact hlr (h.trans l b r (by exact hlb)
            (h.trans b a r hbcls.2 hcls.1))
        simp [List.filter_cons, hcls, ih, hempty]
      · simp [List.filter_cons, hcls, ih]
  termination_by l r => l.length + r.length

/- ## Galloping merge (src/src/algorithms/merging.rs lines 286-579) -/

/-- Bounds-checked indexed predicate test; the source reads `slice[i]` only at
indices proved in range, an out-of-range probe is modelled as `false`. -/
def getTest {α : Type} (p : α → Bool) (l : List α) (i : Nat) : Bool :=
  match l.get? i with
  | some x => p x
  | none => false

/-- Model of Rust `<[T]>::partition_point(pred)` under its documented contract:
on a slice partitioned by `pred` it returns the index of the first element of
the second partition, i.e. the length of the `pred`-satisfying prefix. -/
def partition_point {α : Type} (p : α → Bool) (l : List α) : Nat :=
  (l.takeWhile p).length

/-- The quadratic search loop of `Galloping::gallop` (merging.rs lines
355-361 and 368-374): grows `offset` as `2 * offset + 1` while in range and
the probe succeeds. -/
def quad_search (p : Nat → Bool) (max_offset : Nat) (last offset : Nat) : Nat × Nat :=
  if h : offset < max_offset ∧ p offset = true then
    quad_search p max_offset offset (2 * offset + 1)
  else (last, offset)
  termination_by max_offset - offset
  decreasing_by omega

/-- The `cmp` comparison of `Galloping::gallop`: `(T::gt, T::ge)` according to
`LEFT`, expressed through `le` (for a lawful `Ord`, `key > x` is `!(le key x)`
and `key >= x` is `le x key`). -/
def gallop_cmp {α : Type} (le : α → α → Bool) (LEFT : Bool) (key : α) : α → Bool :=
  if LEFT then (fun x => !(le key x)) else (fun x => le x key)

/-- The `cmp_negated` comparison of `Galloping::gallop`: `(T::le, T::lt)`. -/
def gallop_cmpn {α : Type} (le : α → α → Bool) (LEFT : Bool) (key : α) : α → Bool :=
  if LEFT then (fun x => le key x) else (fun x => !(le x key))

/-- The `(last_offset, offset)` bracket computed by the two quadratic-search
branches of `Galloping::gallop` (merging.rs lines 353-381). -/
def gallop_bracket {α : Type} (le : α → α → Bool) (LEFT : Bool) (key : α)
    (slice : List α) (hint : Nat) : Nat × Nat :=
  if getTest (gallop_cmp le LEFT key) slice hint then
    ((quad_search (fun o => getTest (gallop_cmp le LEFT key) slice (hint + o))
        (slice.length - hint) 0 1).1 + hint + 1,
      min (quad_search (fun o => getTest (gallop_cmp le LEFT key) slice (hint + o))
        (slice.length - hint) 0 1).2 (slice.length - hint) + hint)
  else
    (hint + 1 - min (quad_search (fun o => getTest (gallop_cmpn le LEFT key) slice
        (hint - o)) (hint + 1) 0 1).2 (hint + 1),
      hint - (quad_search (fun o => getTest (gallop_cmpn le LEFT key) slice
        (hint - o)) (hint + 1) 0 1).1)

/-- Embedding of `Galloping::gallop` (merging.rs lines 341-390); `LEFT` picks
the comparison pair `(gt, le)`, otherwise `(ge, lt)`.  Result `none` models a
failed assertion. -/
def gallop {α : Type} (le : α → α → Bool) (LEFT : Bool) (key : α)
    (slice : List α) (hint : Nat) : Option Nat :=
  if slice.length ≤ hint then none
  else if (gallop_bracket le LEFT key slice hint).1
      < (gallop_bracket le LEFT key slice hint).2 + 1 ∧
      (gallop_bracket le LEFT key slice hint).2 ≤ slice.length then
    some (partition_point (gallop_cmp le LEFT key)
      ((slice.drop (gallop_bracket le LEFT key slice hint).1).take
        ((gallop_bracket le LEFT key slice hint).2
          - (gallop_bracket le LEFT key slice hint).1))
      + (gallop_bracket le LEFT key slice hint).1)
  else none

/- ### Characterisation of `gallop` -/

/-- Downward closure of an indexed predicate along a list. -/
def DownClosed {α : Type} (p : α → Bool) (l : List α) : Prop :=
  ∀ i j : Nat, i ≤ j → getTest p l j = true → getTest p l i = true

theorem getTest_bound {α : Type} {p : α → Bool} {l : List α} {i : Nat}
    (hi : getTest p l i = true) : i < l.length := by
  unfold getTest at hi
  cases hgi : l.get? i with
  | none => rw [hgi] at hi; cases hi
  | some x => exact (List.get?_eq_some.mp hgi).1

theorem getTest_of_lt_twLen {α : Type} (p : α → Bool) :
    ∀ (l : List α) (i : Nat), i < (l.takeWhile p).length → getTest p l i = true
  | [], i, hi => by simp [List.takeWhile] at hi
  | x :: t, i, hi => by
    by_cases hx : p x
    · rw [List.takeWhile_cons_of_pos hx] at hi
      match i with
      | 0 => simpa [getTest] using hx
      | j + 1 =>
        have := getTest_of_lt_twLen p t j (by simpa using hi)
        simpa [getTest] using this
    · rw [List.takeWhile_cons_of_neg hx] at hi
      simp at hi

theorem getTest_twLen_false {α : Type} (p : α → Bool) :
    ∀ l : List α, (l.takeWhile p).length < l.length →
      getTest p l ((l.takeWhile p).length) = false
  | [], h => by simp at h
  | x :: t, h => by
    by_cases hx : p x
    · rw [List.takeWhile_cons_of_pos hx] at h ⊢
      have := getTest_twLen_false p t (by simpa using h)
      simpa [getTest] using this
    · rw [List.takeWhile_cons_of_neg hx]
      simpa [getTest] using hx

theorem twLen_le_length {α : Type} (p : α → Bool) (l : List α) :
    (l.takeWhile p).length ≤ l.length :=
  (List.takeWhile_prefix p).length_le

theorem getTest_true_iff_lt_twLen {α : Type} {p : α → Bool} {l : List α}
    (hdc : DownClosed p l) (i : Nat) :
    getTest p l i = true ↔ i < (l.takeWhile p).length := by
  constructor
  · intro hi
    by_contra hge
    push_neg at hge
    have hlt : (l.takeWhile p).length < l.length :=
      lt_of_le_of_lt hge (getTest_bound hi)
    have hfalse := getTest_twLen_false p l hlt
    have := hdc _ _ hge hi
    rw [hfalse] at this
    cases this
  · exact getTest_of_lt_twLen p l i

theorem getTest_window {α : Type} (p : α → Bool) (l : List α) (a b j : Nat) :
    getTest p ((l.drop a).take (b - a)) j
      = if j < b - a then getTest p l (a + j) else false := by
  unfold getTest
  rw [List.get?_eq_getElem?, List.getElem?_take, List.get?_eq_getElem?,
    List.getElem?_drop]
  by_cases hj : j < b - a <;> simp [hj]

theorem twLen_window {α : Type} {p : α → Bool} {l : List α}
    (hdc : DownClosed p l) (a b : Nat)
    (ha : a ≤ (l.takeWhile p).length) (hb : (l.takeWhile p).length ≤ b)
    (hblen : b ≤ l.length) :
    (((l.drop a).take (b - a)).takeWhile p).length = (l.takeWhile p).length - a := by
  set t := (l.takeWhile p).length with ht
  set w := (l.drop a).take (b - a) with hw
  have hwdc : DownClosed p w := by
    intro i j hij hj
    rw [getTest_window] at hj ⊢
    by_cases hjb : j < b - a
    · rw [if_pos hjb] at hj
      rw [if_pos (by omega)]
      exact hdc (a + i) (a + j) (by omega) hj
    · rw [if_neg hjb] at hj
      cases hj
  have hiff : ∀ j, getTest p w j = true ↔ j < t - a := by
    intro j
    rw [getTest_window]
    by_cases hjb : j < b - a
    · rw [if_pos hjb]
      rw [getTest_true_iff_lt_twLen hdc]
      omega
    · rw [if_neg hjb]
      simp only [Bool.false_eq_true, false_iff]
      omega
  have h1 := fun j => (getTest_true_iff_lt_twLen hwdc j).symm.trans (hiff j)
  have h2 := h1 ((w.takeWhile p).length)
  have h3 := h1 (t - a)
  omega

theorem quad_search_spec (p : Nat → Bool) (max_offset : Nat) :
    ∀ last offset, last < offset → p last = true →
      (quad_search p max_offset last offset).1 < (quad_search p max_offset last offset).2 ∧
      p (quad_search p max_offset last offset).1 = true ∧
      (max_offset ≤ (quad_search p max_offset last offset).2 ∨
        p (quad_search p max_offset last offset).2 = false) ∧
      offset ≤ (quad_search p max_offset last offset).2 := by
  intro last offset
  induction last, offset using quad_search.induct p max_offset with
  | case1 last offset h ih =>
    intro hlo hpl
    rw [quad_search, dif_pos h]
    have := ih (by omega) h.2
    refine ⟨this.1, this.2.1, this.2.2.1, by omega⟩
  | case2 last offset h =>
    intro hlo hpl
    rw [quad_search, dif_neg h]
    refine ⟨hlo, hpl, ?_, le_refl _⟩
    rcases Decidable.not_and_iff_or_not.mp h with h1 | h1
    · exact Or.inl (by omega)
    · exact Or.inr (by simpa using h1)

/-- Characterisation of `gallop`: on a sorted slice with an in-range hint it
returns exactly the partition point of the whole slice, i.e. the length of the
prefix on which the chosen comparison holds (this is the relation the source
itself records in its `debug_assert_eq`). -/
theorem gallop_eq {α : Type} {le : α → α → Bool} (h : LawfulCmp le) (LEFT : Bool)
    (key : α) (slice : List α) (hint : Nat)
    (hs : SortedLe le slice) (hhint : hint < slice.length) :
    gallop le LEFT key slice hint
      = some ((slice.takeWhile (gallop_cmp le LEFT key)).length) := by
  set cmp : α → Bool := gallop_cmp le LEFT key with hcmp
  have hdc : DownClosed cmp slice := by
    intro i j hij hj
    have hjlen := getTest_bound hj
    have hilen : i < slice.length := by omega
    rcases Nat.eq_or_lt_of_le hij with rfl | hlt
    · exact hj
    · have hsij : le slice[i] slice[j] = true := by
        have := List.pairwise_iff_getElem.mp hs i j hilen hjlen hlt
        simpa using this
      unfold getTest at hj ⊢
      rw [List.get?_eq_getElem?, List.getElem?_eq_getElem hilen]
      rw [List.get?_eq_getElem?, List.getElem?_eq_getElem hjlen] at hj
      cases LEFT with
      | true =>
        simp only [hcmp, gallop_cmp, if_true] at hj ⊢
        simp only [Bool.not_eq_true'] at hj ⊢
        cases hki : le key (slice[i]) with
        | false => rfl
        | true =>
          rw [h.trans key (slice[i]) (slice[j]) hki hsij] at hj
          cases hj
      | false =>
        simp only [hcmp, gallop_cmp, if_false] at hj ⊢
        exact h.trans _ _ key hsij hj
  set t := (slice.takeWhile cmp).length with ht
  have htlen : t ≤ slice.length := twLen_le_length cmp slice
  have hiff : ∀ i, getTest cmp slice i = true ↔ i < t :=
    getTest_true_iff_lt_twLen hdc
  have hcmpn : ∀ i, i < slice.length →
      getTest (gallop_cmpn le LEFT key) slice i = (!(getTest cmp slice i)) := by
    intro i hi
    unfold getTest
    rw [List.get?_eq_getElem?, List.getElem?_eq_getElem hi]
    cases LEFT <;> simp [hcmp, gallop_cmp, gallop_cmpn]
  rw [gallop, if_neg (by omega)]
  by_cases hhit : getTest cmp slice hint = true
  · have hq := quad_search_spec (fun o => getTest cmp slice (hint + o))
      (slice.length - hint) 0 1 (by omega) (by simpa using hhit)
    set q := quad_search (fun o => getTest cmp slice (hint + o))
      (slice.length - hint) 0 1 with hqdef
    have hbr : gallop_bracket le LEFT key slice hint
        = (q.1 + hint + 1, min q.2 (slice.length - hint) + hint) := by
      rw [gallop_bracket, if_pos (hcmp ▸ hhit)]
    obtain ⟨hq12, hq1, hq2, hq3⟩ := hq
    have hq1t : hint + q.1 < t := (hiff _).mp hq1
    have hbr2 : t ≤ min q.2 (slice.length - hint) + hint := by
      rcases hq2 with h2 | h2
      · omega
      · have h2b : getTest cmp slice (hint + q.2) = false := h2
        have : ¬ (hint + q.2 < t) := by
          intro hcon
          have := (hiff (hint + q.2)).mpr hcon
          rw [h2b] at this
          cases this
        omega
    have hbr1 : q.1 + hint + 1 ≤ t := by omega
    have hbr2len : min q.2 (slice.length - hint) + hint ≤ slice.length := by omega
    rw [hbr]
    simp only
    rw [if_pos (by constructor <;> omega)]
    have hwin := twLen_window hdc (q.1 + hint + 1) (min q.2 (slice.length - hint) + hint)
      hbr1 hbr2 hbr2len
    simp only [partition_point]
    rw [hwin]
    congr 1
    omega
  · have hq := quad_search_spec
      (fun o => getTest (gallop_cmpn le LEFT key) slice (hint - o)) (hint + 1) 0 1
      (by omega)
      (by
        show getTest (gallop_cmpn le LEFT key) slice (hint - 0) = true
        rw [hcmpn (hint - 0) (by omega)]
        simp only [Nat.sub_zero]
        simp [hhit])
    set q := quad_search
      (fun o => getTest (gallop_cmpn le LEFT key) slice (hint - o)) (hint + 1) 0 1
      with hqdef
    have hbr : gallop_bracket le LEFT key slice hint
        = (hint + 1 - min q.2 (hint + 1), hint - q.1) := by
      rw [gallop_bracket, if_neg (by rw [← hcmp]; simpa using hhit)]
    obtain ⟨hq12, hq1, hq2, hq3⟩ := hq
    have hq1t : t ≤ hint - q.1 := by
      have hq1b : getTest (gallop_cmpn le LEFT key) slice (hint - q.1) = true := hq1
      rw [hcmpn (hint - q.1) (by omega)] at hq1b
      simp only [Bool.not_eq_true'] at hq1b
      rename' hq1b => hq1
      have hlt : ¬ (hint - q.1 < t) := by
        intro hcon
        have := (hiff (hint - q.1)).mpr hcon
        rw [hq1] at this
        cases this
      omega
    have hbr1 : hint + 1 - min q.2 (hint + 1) ≤ t := by
      rcases hq2 with h2 | h2
      · have : min q.2 (hint + 1) = hint + 1 := by omega
        rw [this]
        omega
      · have h2b : getTest (gallop_cmpn le LEFT key) slice (hint - q.2) = false := h2
        rw [hcmpn (hint - q.2) (by omega)] at h2b
        simp at h2b
        have := (hiff (hint - q.2)).mp h2b
        omega
    have hbr2len : hint - q.1 ≤ slice.length := by omega
    rw [hbr]
    simp only
    rw [if_pos (by constructor <;> omega)]
    have hwin := twLen_window hdc (hint + 1 - min q.2 (hint + 1)) (hint - q.1)
      hbr1 hq1t hbr2len
    simp only [partition_point]
    rw [hwin]
    congr 1
    omega

/-- Outcome of one phase of `Galloping::merge_low` (merging.rs lines 394-569):
`panic` models a failed assertion or an out-of-bounds copy, `broke` is the
jump `break 'outer` to the tail code, `cont` hands control to the next phase.
Each carries the remaining left run, remaining right run, output written so
far, the mutable `min_gallop`, and (for `cont`) the two win counters. -/
inductive MLStep (α : Type) where
  | panic : MLStep α
  | broke (left right out : List α) (ming : Nat) : MLStep α
  | cont (left right out : List α) (ming c1 c2 : Nat) : MLStep α

/-- The one-element-at-a-time loop of `merge_low` (merging.rs lines 456-487):
runs while `(count1 | count2) < *min_gallop`, moving the strictly smaller head
(`*right.start() < *left.start()` is `!(le l r)`), with the loop-top
assertions `left.len() > 1` and `!right.is_empty()`. -/
def oneLoop {α : Type} (le : α → α → Bool) :
    List α → List α → List α → Nat → Nat → Nat → MLStep α
  | left, right, out, ming, c1, c2 =>
    if (c1 ||| c2) < ming then
      match left, right with
      | l :: l2 :: ltail, r :: rtail =>
        if !(le l r) then
          match rtail with
          | [] => MLStep.broke (l :: l2 :: ltail) [] (out ++ [r]) ming
          | r2 :: rt => oneLoop le (l :: l2 :: ltail) (r2 :: rt) (out ++ [r]) ming 0 (c2 + 1)
        else
          match ltail with
          | [] => MLStep.broke [l2] (r :: rtail) (out ++ [l]) ming
          | l3 :: lt => oneLoop le (l2 :: l3 :: lt) (r :: rtail) (out ++ [l]) ming (c1 + 1) 0
      | _, _ => MLStep.panic
    else MLStep.cont left right out ming c1 c2
  termination_by left right _ _ _ _ => left.length + right.length
  decreasing_by all_goals simp <;> omega

/-- The galloping loop of `merge_low` (merging.rs lines 489-540): runs while
either counter reached the compile-time `MIN_GALLOP`, bulk-copying galloped
blocks, and decrementing the adaptive `*min_gallop` (saturating) per round. -/
def gallopLoopF {α : Type} (le : α → α → Bool) (MG : Nat) :
    List α → List α → List α → Nat → Nat → Nat → MLStep α
  | left, right, out, ming, c1, c2 =>
    if MG ≤ c1 ∨ MG ≤ c2 then
      match left, right with
      | l :: l2 :: ltail, r :: rtail =>
        match gallop le false r (l :: l2 :: ltail) 0 with
        | none => MLStep.panic
        | some n1 =>
          if n1 ≠ 0 ∧ ((l :: l2 :: ltail).drop n1).length ≤ 1 then
            MLStep.broke ((l :: l2 :: ltail).drop n1) (r :: rtail)
              (out ++ (l :: l2 :: ltail).take n1) ming
          else
            match rtail with
            | [] =>
              MLStep.broke ((l :: l2 :: ltail).drop n1) []
                (out ++ (l :: l2 :: ltail).take n1 ++ [r]) ming
            | r2 :: rt =>
              match ((l :: l2 :: ltail).drop n1).head? with
              | none => MLStep.panic
              | some l1 =>
                match gallop le true l1 (r2 :: rt) 0 with
                | none => MLStep.panic
                | some n2 =>
                  if n2 ≠ 0 ∧ ((r2 :: rt).drop n2).length = 0 then
                    MLStep.broke ((l :: l2 :: ltail).drop n1) []
                      (out ++ (l :: l2 :: ltail).take n1 ++ [r] ++ (r2 :: rt).take n2)
                      ming
                  else if ((l :: l2 :: ltail).drop (n1 + 1)).length = 1 then
                    MLStep.broke ((l :: l2 :: ltail).drop (n1 + 1)) ((r2 :: rt).drop n2)
                      (out ++ (l :: l2 :: ltail).take n1 ++ [r] ++ (r2 :: rt).take n2
                        ++ [l1])
                      ming
                  else
                    gallopLoopF le MG ((l :: l2 :: ltail).drop (n1 + 1))
                      ((r2 :: rt).drop n2)
                      (out ++ (l :: l2 :: ltail).take n1 ++ [r] ++ (r2 :: rt).take n2
                        ++ [l1])
                      (ming - 1) n1 n2
      | _, _ => MLStep.panic
    else MLStep.cont left right out ming c1 c2
  termination_by left right _ _ _ _ => left.length + right.length
  decreasing_by
    simp only [List.length_drop, List.length_cons]
    omega

section OneLoopEquations

variable {α : Type} (le : α → α → Bool) (out : List α) (ming c1 c2 : Nat)

theorem oneLoop_not_enter (left right : List α) (h : ¬ (c1 ||| c2) < ming) :
    oneLoop le left right out ming c1 c2 = MLStep.cont left right out ming c1 c2 := by
  rw [oneLoop.eq_def]
  simp only [if_neg h]

theorem oneLoop_enter_panic (left right : List α) (h : (c1 ||| c2) < ming)
    (hshape : left.length ≤ 1 ∨ right = []) :
    oneLoop le left right out ming c1 c2 = MLStep.panic := by
  rw [oneLoop.eq_def]
  simp only [if_pos h]
  rcases left with _ | ⟨l, _ | ⟨l2, ltail⟩⟩
  · rfl
  · rfl
  · rcases right with _ | ⟨r, rtail⟩
    · rfl
    · simp at hshape

theorem oneLoop_take_right (l l2 r r2 : α) (ltail rt : List α)
    (h : (c1 ||| c2) < ming) (hle : le l r = false) :
    oneLoop le (l :: l2 :: ltail) (r :: r2 :: rt) out ming c1 c2
      = oneLoop le (l :: l2 :: ltail) (r2 :: rt) (out ++ [r]) ming 0 (c2 + 1) := by
  rw [oneLoop.eq_def]
  simp only [if_pos h, hle]
  rfl

theorem oneLoop_right_last (l l2 r : α) (ltail : List α)
    (h : (c1 ||| c2) < ming) (hle : le l r = false) :
    oneLoop le (l :: l2 :: ltail) [r] out ming c1 c2
      = MLStep.broke (l :: l2 :: ltail) [] (out ++ [r]) ming := by
  rw [oneLoop.eq_def]
  simp only [if_pos h, hle]
  rfl

theorem oneLoop_take_left (l l2 l3 r : α) (lt rtail : List α)
    (h : (c1 ||| c2) < ming) (hle : le l r = true) :
    oneLoop le (l :: l2 :: l3 :: lt) (r :: rtail) out ming c1 c2
      = oneLoop le (l2 :: l3 :: lt) (r :: rtail) (out ++ [l]) ming (c1 + 1) 0 := by
  rw [oneLoop.eq_def]
  simp only [if_pos h, hle]
  rfl

theorem oneLoop_left_pair (l l2 r : α) (rtail : List α)
    (h : (c1 ||| c2) < ming) (hle : le l r = true) :
    oneLoop le [l, l2] (r :: rtail) out ming c1 c2
      = MLStep.broke [l2] (r :: rtail) (out ++ [l]) ming := by
  rw [oneLoop.eq_def]
  simp only [if_pos h, hle]
  rfl

end OneLoopEquations

section GallopLoopEquations

variable {α : Type} (le : α → α → Bool) (MG : Nat) (out : List α) (ming c1 c2 : Nat)

theorem gallopLoopF_not_enter (left right : List α) (h : ¬ (MG ≤ c1 ∨ MG ≤ c2)) :
    gallopLoopF le MG left right out ming c1 c2
      = MLStep.cont left right out ming c1 c2 := by
  rw [gallopLoopF.eq_def]
  simp only [if_neg h]

theorem gallopLoopF_enter_panic (left right : List α) (h : MG ≤ c1 ∨ MG ≤ c2)
    (hshape : left.length ≤ 1 ∨ right = []) :
    gallopLoopF le MG left right out ming c1 c2 = MLStep.panic := by
  rw [gallopLoopF.eq_def]
  simp only [if_pos h]
  rcases left with _ | ⟨l, _ | ⟨l2, ltail⟩⟩
  · rfl
  · rfl
  · rcases right with _ | ⟨r, rtail⟩
    · rfl
    · simp at hshape

theorem gallopLoopF_gallop_none (l l2 r : α) (ltail rtail : List α)
    (h : MG ≤ c1 ∨ MG ≤ c2) (hgal : gallop le false r (l :: l2 :: ltail) 0 = none) :
    gallopLoopF le MG (l :: l2 :: ltail) (r :: rtail) out ming c1 c2
      = MLStep.panic := by
  rw [gallopLoopF.eq_def]
  simp only [if_pos h, hgal]

theorem gallopLoopF_left_exhaust (l l2 r : α) (ltail rtail : List α) (n1 : Nat)
    (h : MG ≤ c1 ∨ MG ≤ c2) (hgal : gallop le false r (l :: l2 :: ltail) 0 = some n1)
    (hb1 : n1 ≠ 0 ∧ ((l :: l2 :: ltail).drop n1).length ≤ 1) :
    gallopLoopF le MG (l :: l2 :: ltail) (r :: rtail) out ming c1 c2
      = MLStep.broke ((l :: l2 :: ltail).drop n1) (r :: rtail)
          (out ++ (l :: l2 :: ltail).take n1) ming := by
  rw [gallopLoopF.eq_def]
  simp only [if_pos h, hgal, if_pos hb1]

theorem gallopLoopF_right_exhaust (l l2 r : α) (ltail : List α) (n1 : Nat)
    (h : MG ≤ c1 ∨ MG ≤ c2) (hgal : gallop le false r (l :: l2 :: ltail) 0 = some n1)
    (hb1 : ¬ (n1 ≠ 0 ∧ ((l :: l2 :: ltail).drop n1).length ≤ 1)) :
    gallopLoopF le MG (l :: l2 :: ltail) [r] out ming c1 c2
      = MLStep.broke ((l :: l2 :: ltail).drop n1) []
          (out ++ (l :: l2 :: ltail).take n1 ++ [r]) ming := by
  rw [gallopLoopF.eq_def]
  simp only [if_pos h, hgal, if_neg hb1]

theorem gallopLoopF_drop_nil (l l2 r r2 : α) (ltail rt : List α) (n1 : Nat)
    (h : MG ≤ c1 ∨ MG ≤ c2) (hgal : gallop le false r (l :: l2 :: ltail) 0 = some n1)
    (hb1 : ¬ (n1 ≠ 0 ∧ ((l :: l2 :: ltail).drop n1).length ≤ 1))
    (hdrop : ((l :: l2 :: ltail).drop n1).head? = none) :
    gallopLoopF le MG (l :: l2 :: ltail) (r :: r2 :: rt) out ming c1 c2
      = MLStep.panic := by
  rw [gallopLoopF.eq_def]
  simp only [if_pos h, hgal, if_neg hb1, hdrop]

theorem gallopLoopF_gallop2_none (l l2 r r2 lh : α) (ltail rt : List α)
    (n1 : Nat)
    (h : MG ≤ c1 ∨ MG ≤ c2) (hgal : gallop le false r (l :: l2 :: ltail) 0 = some n1)
    (hb1 : ¬ (n1 ≠ 0 ∧ ((l :: l2 :: ltail).drop n1).length ≤ 1))
    (hdrop : ((l :: l2 :: ltail).drop n1).head? = some lh)
    (hgal2 : gallop le true lh (r2 :: rt) 0 = none) :
    gallopLoopF le MG (l :: l2 :: ltail) (r :: r2 :: rt) out ming c1 c2
      = MLStep.panic := by
  rw [gallopLoopF.eq_def]
  simp only [if_pos h, hgal, if_neg hb1, hdrop, hgal2]

theorem gallopLoopF_right_gone (l l2 r r2 lh : α) (ltail rt : List α)
    (n1 n2 : Nat)
    (h : MG ≤ c1 ∨ MG ≤ c2) (hgal : gallop le false r (l :: l2 :: ltail) 0 = some n1)
    (hb1 : ¬ (n1 ≠ 0 ∧ ((l :: l2 :: ltail).drop n1).length ≤ 1))
    (hdrop : ((l :: l2 :: ltail).drop n1).head? = some lh)
    (hgal2 : gallop le true lh (r2 :: rt) 0 = some n2)
    (hb2 : n2 ≠ 0 ∧ ((r2 :: rt).drop n2).length = 0) :
    gallopLoopF le MG (l :: l2 :: ltail) (r :: r2 :: rt) out ming c1 c2
      = MLStep.broke ((l :: l2 :: ltail).drop n1) []
          (out ++ (l :: l2 :: ltail).take n1 ++ [r] ++ (r2 :: rt).take n2) ming := by
  rw [gallopLoopF.eq_def]
  simp only [if_pos h, hgal, if_neg hb1, hdrop, hgal2, if_pos hb2]

theorem gallopLoopF_left_one (l l2 r r2 lh : α) (ltail rt : List α)
    (n1 n2 : Nat)
    (h : MG ≤ c1 ∨ MG ≤ c2) (hgal : gallop le false r (l :: l2 :: ltail) 0 = some n1)
    (hb1 : ¬ (n1 ≠ 0 ∧ ((l :: l2 :: ltail).drop n1).length ≤ 1))
    (hdrop : ((l :: l2 :: ltail).drop n1).head? = some lh)
    (hgal2 : gallop le true lh (r2 :: rt) 0 = some n2)
    (hb2 : ¬ (n2 ≠ 0 ∧ ((r2 :: rt).drop n2).length = 0))
    (hb3 : ((l :: l2 :: ltail).drop (n1 + 1)).length = 1) :
    gallopLoopF le MG (l :: l2 :: ltail) (r :: r2 :: rt) out ming c1 c2
      = MLStep.broke ((l :: l2 :: ltail).drop (n1 + 1)) ((r2 :: rt).drop n2)
          (out ++ (l :: l2 :: ltail).take n1 ++ [r] ++ (r2 :: rt).take n2 ++ [lh])
          ming := by
  rw [gallopLoopF.eq_def]
  simp only [if_pos h, hgal, if_neg hb1, hdrop, hgal2, if_neg hb2, if_pos hb3]

theorem gallopLoopF_round (l l2 r r2 lh : α) (ltail rt : List α)
    (n1 n2 : Nat)
    (h : MG ≤ c1 ∨ MG ≤ c2) (hgal : gallop le false r (l :: l2 :: ltail) 0 = some n1)
    (hb1 : ¬ (n1 ≠ 0 ∧ ((l :: l2 :: ltail).drop n1).length ≤ 1))
    (hdrop : ((l :: l2 :: ltail).drop n1).head? = some lh)
    (hgal2 : gallop le true lh (r2 :: rt) 0 = some n2)
    (hb2 : ¬ (n2 ≠ 0 ∧ ((r2 :: rt).drop n2).length = 0))
    (hb3 : ¬ ((l :: l2 :: ltail).drop (n1 + 1)).length = 1) :
    gallopLoopF le MG (l :: l2 :: ltail) (r :: r2 :: rt) out ming c1 c2
      = gallopLoopF le MG ((l :: l2 :: ltail).drop (n1 + 1)) ((r2 :: rt).drop n2)
          (out ++ (l :: l2 :: ltail).take n1 ++ [r] ++ (r2 :: rt).take n2 ++ [lh])
          (ming - 1) n1 n2 := by
  rw [gallopLoopF.eq_def]
  simp only [if_pos h, hgal, if_neg hb1, hdrop, hgal2, if_neg hb2, if_neg hb3]

end GallopLoopEquations

theorem oneLoop_cont_length {α : Type} (le : α → α → Bool) :
    ∀ (left right out : List α) (ming c1 c2 : Nat) (l1 r1 o1 : List α) (m1 d1 d2 : Nat),
      oneLoop le left right out ming c1 c2 = MLStep.cont l1 r1 o1 m1 d1 d2 →
      l1.length + r1.length ≤ left.length + right.length ∧
        ((c1 ||| c2) < ming → l1.length + r1.length < left.length + right.length)
  | left, right, out, ming, c1, c2, l1, r1, o1, m1, d1, d2 => by
    intro hres
    by_cases hlt : (c1 ||| c2) < ming
    · rcases left with _ | ⟨l, _ | ⟨l2, ltail⟩⟩
      · rw [oneLoop_enter_panic le out ming c1 c2 [] right hlt (by simp)] at hres
        cases hres
      · rw [oneLoop_enter_panic le out ming c1 c2 _ right hlt (by simp)] at hres
        cases hres
      · rcases right with _ | ⟨r, rtail⟩
        · rw [oneLoop_enter_panic le out ming c1 c2 _ [] hlt (Or.inr rfl)] at hres
          cases hres
        · cases hle : le l r with
          | false =>
            rcases rtail with _ | ⟨r2, rt⟩
            · rw [oneLoop_right_last le out ming c1 c2 l l2 r ltail hlt hle] at hres
              cases hres
            · rw [oneLoop_take_right le out ming c1 c2 l l2 r r2 ltail rt hlt hle] at hres
              have := oneLoop_cont_length le (l :: l2 :: ltail) (r2 :: rt) (out ++ [r])
                ming 0 (c2 + 1) l1 r1 o1 m1 d1 d2 hres
              simp only [List.length_cons] at this ⊢
              omega
          | true =>
            rcases ltail with _ | ⟨l3, lt⟩
            · rw [oneLoop_left_pair le out ming c1 c2 l l2 r rtail hlt hle] at hres
              cases hres
            · rw [oneLoop_take_left le out ming c1 c2 l l2 l3 r lt rtail hlt hle] at hres
              have := oneLoop_cont_length le (l2 :: l3 :: lt) (r :: rtail) (out ++ [l])
                ming (c1 + 1) 0 l1 r1 o1 m1 d1 d2 hres
              simp only [List.length_cons] at this ⊢
              omega
    · rw [oneLoop_not_enter le out ming c1 c2 left right hlt] at hres
      cases hres
      exact ⟨le_refl _, fun hcon => absurd hcon hlt⟩
  termination_by left right _ _ _ _ _ _ _ _ _ _ => left.length + right.length
  decreasing_by all_goals (simp only [List.length_cons]; omega)

theorem gallopLoopF_cont_length {α : Type} (le : α → α → Bool) (MG : Nat) :
    ∀ (left right out : List α) (ming c1 c2 : Nat) (l1 r1 o1 : List α) (m1 d1 d2 : Nat),
      gallopLoopF le MG left right out ming c1 c2 = MLStep.cont l1 r1 o1 m1 d1 d2 →
      l1.length + r1.length ≤ left.length + right.length
  | left, right, out, ming, c1, c2, l1, r1, o1, m1, d1, d2 => by
    intro hres
    by_cases hlt : MG ≤ c1 ∨ MG ≤ c2
    · rcases left with _ | ⟨l, _ | ⟨l2, ltail⟩⟩
      · rw [gallopLoopF_enter_panic le MG out ming c1 c2 [] right hlt (by simp)] at hres
        cases hres
      · rw [gallopLoopF_enter_panic le MG out ming c1 c2 _ right hlt (by simp)] at hres
        cases hres
      · rcases right with _ | ⟨r, rtail⟩
        · rw [gallopLoopF_enter_panic le MG out ming c1 c2 _ [] hlt (Or.inr rfl)] at hres
          cases hres
        · cases hgal : gallop le false r (l :: l2 :: ltail) 0 with
          | none =>
            rw [gallopLoopF_gallop_none le MG out ming c1 c2 l l2 r ltail rtail hlt hgal]
              at hres
            cases hres
          | some n1 =>
            by_cases hb1 : n1 ≠ 0 ∧ ((l :: l2 :: ltail).drop n1).length ≤ 1
            · rw [gallopLoopF_left_exhaust le MG out ming c1 c2 l l2 r ltail rtail n1
                hlt hgal hb1] at hres
              cases hres
            · rcases rtail with _ | ⟨r2, rt⟩
              · rw [gallopLoopF_right_exhaust le MG out ming c1 c2 l l2 r ltail n1
                  hlt hgal hb1] at hres
                cases hres
              · cases hdrop : ((l :: l2 :: ltail).drop n1).head? with
                | none =>
                  rw [gallopLoopF_drop_nil le MG out ming c1 c2 l l2 r r2 ltail rt n1
                    hlt hgal hb1 hdrop] at hres
                  cases hres
                | some lh =>
                  cases hgal2 : gallop le true lh (r2 :: rt) 0 with
                  | none =>
                    rw [gallopLoopF_gallop2_none le MG out ming c1 c2 l l2 r r2 lh
                      ltail rt n1 hlt hgal hb1 hdrop hgal2] at hres
                    cases hres
                  | some n2 =>
                    by_cases hb2 : n2 ≠ 0 ∧ ((r2 :: rt).drop n2).length = 0
                    · rw [gallopLoopF_right_gone le MG out ming c1 c2 l l2 r r2 lh
                        ltail rt n1 n2 hlt hgal hb1 hdrop hgal2 hb2] at hres
                      cases hres
                    · by_cases hb3 : ((l :: l2 :: ltail).drop (n1 + 1)).length = 1
                      · rw [gallopLoopF_left_one le MG out ming c1 c2 l l2 r r2 lh
                          ltail rt n1 n2 hlt hgal hb1 hdrop hgal2 hb2 hb3] at hres
                        cases hres
                      · rw [gallopLoopF_round le MG out ming c1 c2 l l2 r r2 lh
                          ltail rt n1 n2 hlt hgal hb1 hdrop hgal2 hb2 hb3] at hres
                        have hrec := gallopLoopF_cont_length le MG
                          ((l :: l2 :: ltail).drop (n1 + 1)) ((r2 :: rt).drop n2)
                          (out ++ (l :: l2 :: ltail).take n1 ++ [r]
                            ++ (r2 :: rt).take n2 ++ [lh]) (ming - 1) n1 n2
                          l1 r1 o1 m1 d1 d2 hres
                        simp only [List.length_drop, List.length_cons] at hrec ⊢
                        omega
    · rw [gallopLoopF_not_enter le MG out ming c1 c2 left right hlt] at hres
      cases hres
      exact le_refl _
  termination_by left right _ _ _ _ _ _ _ _ _ _ => left.length + right.length
  decreasing_by
    simp only [List.length_drop, List.length_cons]
    omega

/-- The outer adaptive loop of `merge_low` (merging.rs lines 452-543): the
one-at-a-time phase, then the galloping phase, then `*min_gallop += 2` and
round again.  Returns the `break`-state or `none` for a failed assertion. -/
def mlOuter {α : Type} (le : α → α → Bool) (MG : Nat)
    (left right out : List α) (ming : Nat) :
    Option (List α × List α × List α × Nat) :=
  match h1 : oneLoop le left right out ming 0 0 with
  | MLStep.panic => none
  | MLStep.broke l r o m => some (l, r, o, m)
  | MLStep.cont l1 r1 o1 m1 c1 c2 =>
    match h2 : gallopLoopF le MG l1 r1 o1 m1 c1 c2 with
    | MLStep.panic => none
    | MLStep.broke l r o m => some (l, r, o, m)
    | MLStep.cont l2 r2 o2 m2 _ _ => mlOuter le MG l2 r2 o2 (m2 + 2)
  termination_by 2 * (left.length + right.length) + (if ming = 0 then 1 else 0)
  decreasing_by
    have ha := oneLoop_cont_length le left right out ming 0 0 l1 r1 o1 m1 c1 c2 h1
    have hb := gallopLoopF_cont_length le MG l1 r1 o1 m1 c1 c2 _ _ _ _ _ _ h2
    rcases Nat.eq_zero_or_pos ming with hm | hm
    · subst hm
      split <;> split <;> first | contradiction | omega
    · have hpos : (0 ||| 0) < ming := by simpa using hm
      have hc := ha.2 hpos
      split <;> split <;> first | contradiction | omega

/-- The tail of `merge_low` after `break 'outer` (merging.rs lines 545-557):
flush the one remaining left element after the right run, or flush the left
remainder; `none` models a failed assertion.  The `*min_gallop = max(.., 1)`
write-back only affects the caller-local variable and is dropped. -/
def ml_finish {α : Type} (left right out : List α) : Option (List α) :=
  if left.length = 1 then
    match right with
    | [] => none
    | _ => some (out ++ right ++ left)
  else if left.length = 0 then none
  else
    match right with
    | [] => some (out ++ left)
    | _ => none

/-- Embedding of `Galloping::merge_low` (merging.rs lines 394-569; in this
file `merge_high` merely forwards to `merge_low`).  The buffer passes only its
length; `ming` is the caller-owned `*min_gallop`. -/
def merge_low {α : Type} (le : α → α → Bool) (MG : Nat) (slice : List α)
    (split_point : Nat) (buffer_len : Nat) (ming : Nat) : Option (List α) :=
  if buffer_len < slice.length then none
  else if slice.length ≤ split_point then none
  else
    match slice.drop split_point with
    | [] => none
    | r :: rright =>
      if rright.isEmpty then some (r :: slice.take split_point)
      else if split_point = 1 then some (r :: (rright ++ slice.take split_point))
      else
        match mlOuter le MG (slice.take split_point) rright [r] ming with
        | none => none
        | some (l, rr, o, _) => ml_finish l rr o

/-- Embedding of `Galloping::merge` (merging.rs lines 297-333).  In merging.rs
`merge_high` simply calls `merge_low`, so both branch arms of the final size
comparison perform the same computation and the branch is collapsed.  `none`
models an assertion failure or an out-of-bounds index. -/
def Galloping_merge {α : Type} (le : α → α → Bool) (MG : Nat) (slice : List α)
    (split_point : Nat) (buffer_len : Nat) : Option (List α) :=
  if slice.length < 2 ∨ split_point = 0 then some slice
  else
    match slice.get? split_point with
    | none => none
    | some key1 =>
      match gallop le false key1 (slice.take split_point) 0 with
      | none => none
      | some start =>
        if start = split_point then some slice
        else
          match slice.get? (split_point - 1) with
          | none => none
          | some key2 =>
            match gallop le true key2 (slice.drop split_point)
                (slice.length - split_point - 1) with
            | none => none
            | some end0 =>
              if end0 = 0 then some slice
              else
                match merge_low le MG
                    ((slice.drop start).take (end0 + split_point - start))
                    (split_point - start) buffer_len MG with
                | none => none
                | some m => some (slice.take start ++ m ++ slice.drop (end0 + split_point))

/- ### Interaction of `merge_runs` with galloped blocks -/

theorem merge_runs_nil_right {α : Type} (le : α → α → Bool) (l : List α) :
    merge_runs le l [] = l := by
  cases l <;> simp [merge_runs]

theorem merge_runs_emit_left {α : Type} (le : α → α → Bool) (l r : α)
    (ls rs : List α) (hle : le l r = true) :
    merge_runs le (l :: ls) (r :: rs) = l :: merge_runs le ls (r :: rs) := by
  simp [merge_runs, hle]

theorem merge_runs_emit_right {α : Type} (le : α → α → Bool) (l r : α)
    (ls rs : List α) (hle : le l r = false) :
    merge_runs le (l :: ls) (r :: rs) = r :: merge_runs le (l :: ls) rs := by
  simp [merge_runs, hle]

theorem takeWhile_eq_take {α : Type} (p : α → Bool) :
    ∀ l : List α, l.takeWhile p = l.take (l.takeWhile p).length
  | [] => rfl
  | x :: t => by
    by_cases hx : p x
    · rw [List.takeWhile_cons_of_pos hx]
      simp only [List.length_cons, List.take_succ_cons]
      rw [← takeWhile_eq_take p t]
    · rw [List.takeWhile_cons_of_neg hx]
      simp

theorem dropWhile_eq_drop {α : Type} (p : α → Bool) :
    ∀ l : List α, l.dropWhile p = l.drop (l.takeWhile p).length
  | [] => rfl
  | x :: t => by
    by_cases hx : p x
    · rw [List.dropWhile_cons_of_pos hx, List.takeWhile_cons_of_pos hx]
      simp only [List.length_cons, List.drop_succ_cons]
      exact dropWhile_eq_drop p t
    · rw [List.dropWhile_cons_of_neg hx, List.takeWhile_cons_of_neg hx]
      simp

theorem head_dropWhile_false {α : Type} (p : α → Bool) :
    ∀ (l : List α) (x : α), (l.dropWhile p).head? = some x → p x = false
  | [], x, h => by simp [List.dropWhile] at h
  | y :: t, x, h => by
    by_cases hy : p y
    · rw [List.dropWhile_cons_of_pos hy] at h
      exact head_dropWhile_false p t x h
    · rw [List.dropWhile_cons_of_neg hy] at h
      simp only [List.head?_cons, Option.some.injEq] at h
      rw [← h]
      simpa using hy

theorem merge_runs_takeWhile_left {α : Type} (le : α → α → Bool) (r : α)
    (rs : List α) :
    ∀ L : List α, merge_runs le L (r :: rs)
      = L.takeWhile (fun x => le x r)
        ++ merge_runs le (L.dropWhile (fun x => le x r)) (r :: rs)
  | [] => by simp
  | l :: ls => by
    by_cases hl : le l r
    · rw [merge_runs_emit_left le l r ls rs hl,
        List.takeWhile_cons_of_pos (by simpa using hl),
        List.dropWhile_cons_of_pos (by simpa using hl),
        merge_runs_takeWhile_left le r rs ls]
      simp
    · rw [List.takeWhile_cons_of_neg (by simpa using hl),
        List.dropWhile_cons_of_neg (by simpa using hl)]
      simp

theorem merge_runs_takeWhile_right {α : Type} (le : α → α → Bool) (l : α)
    (ls : List α) :
    ∀ R : List α, merge_runs le (l :: ls) R
      = R.takeWhile (fun y => !(le l y))
        ++ merge_runs le (l :: ls) (R.dropWhile (fun y => !(le l y)))
  | [] => by simp
  | r :: rs => by
    by_cases hl : le l r
    · rw [List.takeWhile_cons_of_neg (by simpa using hl),
        List.dropWhile_cons_of_neg (by simpa using hl)]
      simp
    · rw [merge_runs_emit_right le l r ls rs (by simpa using hl),
        List.takeWhile_cons_of_pos (by simpa using hl),
        List.dropWhile_cons_of_pos (by simpa using hl),
        merge_runs_takeWhile_right le l ls rs]
      simp

theorem merge_runs_all_le {α : Type} (le : α → α → Bool) :
    ∀ (A B : List α), (∀ x ∈ A, ∀ y ∈ B, le x y = true) →
      merge_runs le A B = A ++ B
  | [], B, _ => by simp [merge_runs]
  | a :: as, [], _ => by simp [merge_runs]
  | a :: as, b :: bs, h => by
    rw [merge_runs_emit_left le a b as bs (h a (by simp) b (by simp)),
      merge_runs_all_le le as (b :: bs) (fun x hx y hy => h x (by simp [hx]) y hy)]
    simp
  termination_by A B => A.length + B.length

theorem merge_runs_all_gt {α : Type} (le : α → α → Bool) (x : α) (B : List α)
    (h : ∀ y ∈ B, le x y = false) :
    merge_runs le [x] B = B ++ [x] := by
  rw [merge_runs_takeWhile_right le x [] B]
  have htw : B.takeWhile (fun y => !(le x y)) = B := by
    rw [List.takeWhile_eq_self_iff]
    intro y hy
    simp [h y hy]
  have hdw : B.dropWhile (fun y => !(le x y)) = [] := by
    rw [List.dropWhile_eq_nil_iff]
    intro y hy
    simp [h y hy]
  rw [htw, hdw]
  simp [merge_runs]

theorem merge_runs_append_right {α : Type} (le : α → α → Bool) :
    ∀ (A B1 B2 : List α), (∀ x ∈ A, ∀ y ∈ B2, le x y = true) →
      merge_runs le A (B1 ++ B2) = merge_runs le A B1 ++ B2
  | [], B1, B2, _ => by simp [merge_runs]
  | a :: as, [], B2, h => by
    rw [List.nil_append, merge_runs_nil_right,
      merge_runs_all_le le (a :: as) B2 h]
  | a :: as, b :: bs, B2, h => by
    by_cases hab : le a b
    · have ih := merge_runs_append_right le as (b :: bs) B2
        (fun x hx y hy => h x (by simp [hx]) y hy)
      rw [List.cons_append] at ih
      rw [List.cons_append, merge_runs_emit_left le a b as (bs ++ B2) hab,
        merge_runs_emit_left le a b as bs hab, ih]
      simp
    · rw [List.cons_append,
        merge_runs_emit_right le a b as (bs ++ B2) (by simpa using hab),
        merge_runs_emit_right le a b as bs (by simpa using hab),
        merge_runs_append_right le (a :: as) bs B2 h]
      simp
  termination_by A B1 _ => A.length + B1.length

/- ### List helpers for the merge-loop invariant -/

theorem sorted_drop {α : Type} {le : α → α → Bool} {l : List α}
    (h : SortedLe le l) (n : Nat) : SortedLe le (l.drop n) :=
  List.Pairwise.sublist (List.drop_sublist n l) h

theorem sorted_take {α : Type} {le : α → α → Bool} {l : List α}
    (h : SortedLe le l) (n : Nat) : SortedLe le (l.take n) :=
  List.Pairwise.sublist (List.take_sublist n l) h

theorem getLast?_cons_ne {α : Type} (x : α) (t : List α) (ht : t ≠ []) :
    (x :: t).getLast? = t.getLast? := by
  cases t with
  | nil => exact absurd rfl ht
  | cons y ys => exact List.getLast?_cons_cons

theorem getLast?_drop_ne {α : Type} :
    ∀ (l : List α) (n : Nat), l.drop n ≠ [] → (l.drop n).getLast? = l.getLast?
  | [], n, h => by simp at h
  | x :: t, 0, _ => rfl
  | x :: t, n + 1, h => by
    rw [List.drop_succ_cons] at h ⊢
    rw [getLast?_drop_ne t n h]
    exact (getLast?_cons_ne x t (fun ht => h (by simp [ht]))).symm

theorem mem_of_getLast?_eq {α : Type} :
    ∀ {l : List α} {z : α}, l.getLast? = some z → z ∈ l
  | [], z, h => by simp at h
  | [a], z, h => by
    simp only [List.getLast?_singleton, Option.some.injEq] at h
    simp [h]
  | a :: b :: t, z, h => by
    rw [List.getLast?_cons_cons] at h
    exact List.mem_cons_of_mem a (mem_of_getLast?_eq h)

theorem sorted_le_getLast {α : Type} {le : α → α → Bool} (h : LawfulCmp le) :
    ∀ {l : List α} {z : α}, SortedLe le l → l.getLast? = some z →
      ∀ x ∈ l, le x z = true
  | [], z, _, hz, x, hx => by simp at hx
  | [a], z, _, hz, x, hx => by
    simp only [List.getLast?_singleton, Option.some.injEq] at hz
    simp only [List.mem_singleton] at hx
    rw [hx, hz]
    exact h.refl z
  | a :: b :: t, z, hs, hz, x, hx => by
    rw [List.getLast?_cons_cons] at hz
    rcases List.mem_cons.mp hx with hx | hx
    · subst hx
      exact (List.pairwise_cons.mp hs).1 z (mem_of_getLast?_eq hz)
    · exact sorted_le_getLast h (SortedLe.tail hs) hz x hx

theorem twLen_lt_of_mem_false {α : Type} {p : α → Bool} {l : List α} {z : α}
    (hz : z ∈ l) (hp : p z = false) :
    (l.takeWhile p).length < l.length := by
  rcases Nat.lt_or_ge (l.takeWhile p).length l.length with hlt | hge
  · exact hlt
  · exfalso
    have heq : l.takeWhile p = l :=
      (List.takeWhile_prefix p).eq_of_length
        (Nat.le_antisymm (twLen_le_length p l) hge)
    have := List.mem_takeWhile_imp (l := l) (p := p) (heq ▸ hz)
    rw [hp] at this
    cases this

/- ### The `merge_low` loop invariant -/

/-- The caller-established trimming invariant of `merge_low`: the last element
of the remaining left run is strictly greater than every remaining right
element (`Galloping::merge` trims the runs so this holds on entry, and the
loops only shrink the runs from the front). -/
def LastGT {α : Type} (le : α → α → Bool) (left right : List α) : Prop :=
  ∀ z ∈ left.getLast?, ∀ y ∈ right, le z y = false

/-- Soundness of a `merge_low` phase outcome against the abstract merge:
the output plus the merge of what remains is the full merge `base`, both
remainders stay sorted and trimmed, and the shape matches the `break`
conditions (`broke`) or the loop-top assertions (`cont`). -/
def MLOk {α : Type} (le : α → α → Bool) (base : List α) : MLStep α → Prop
  | MLStep.panic => False
  | MLStep.broke l r o _ =>
      o ++ merge_runs le l r = base ∧ SortedLe le l ∧ SortedLe le r ∧
      LastGT le l r ∧ ((l.length = 1 ∧ r ≠ []) ∨ (2 ≤ l.length ∧ r = []))
  | MLStep.cont l r o _ _ _ =>
      o ++ merge_runs le l r = base ∧ SortedLe le l ∧ SortedLe le r ∧
      LastGT le l r ∧ 1 < l.length ∧ r ≠ []

theorem oneLoop_ok {α : Type} {le : α → α → Bool} (h : LawfulCmp le)
    (base : List α) :
    ∀ (left right out : List α) (ming c1 c2 : Nat),
      out ++ merge_runs le left right = base →
      SortedLe le left → SortedLe le right →
      LastGT le left right →
      1 < left.length → right ≠ [] →
      MLOk le base (oneLoop le left right out ming c1 c2)
  | left, right, out, ming, c1, c2 => by
    intro hbase hsl hsr hlg hlen hrne
    by_cases henter : (c1 ||| c2) < ming
    · rcases left with _ | ⟨l, _ | ⟨l2, ltail⟩⟩
      · simp at hlen
      · simp at hlen
      · rcases right with _ | ⟨r, rtail⟩
        · exact absurd rfl hrne
        · by_cases hle : le l r
          · rcases ltail with _ | ⟨l3, lt⟩
            · rw [oneLoop_left_pair le out ming c1 c2 l l2 r rtail henter hle]
              refine ⟨?_, ?_, hsr, ?_, Or.inl ⟨rfl, by simp⟩⟩
              · rw [← hbase, merge_runs_emit_left le l r [l2] rtail hle]
                simp
              · exact SortedLe.tail hsl
              · intro z hz y hy
                refine hlg z ?_ y hy
                rw [List.getLast?_cons_cons]
                exact hz
            · rw [oneLoop_take_left le out ming c1 c2 l l2 l3 r lt rtail henter hle]
              refine oneLoop_ok h base (l2 :: l3 :: lt) (r :: rtail) (out ++ [l])
                ming (c1 + 1) 0 ?_ (SortedLe.tail hsl) hsr ?_ (by simp) hrne
              · rw [← hbase, merge_runs_emit_left le l r _ _ hle]
                simp
              · intro z hz y hy
                refine hlg z ?_ y hy
                rw [List.getLast?_cons_cons]
                exact hz
          · have hle' : le l r = false := by simpa using hle
            rcases rtail with _ | ⟨r2, rt⟩
            · rw [oneLoop_right_last le out ming c1 c2 l l2 r ltail henter hle']
              refine ⟨?_, hsl, SortedLe.nil le, ?_, Or.inr ⟨by simp, rfl⟩⟩
              · rw [← hbase, merge_runs_emit_right le l r _ _ hle',
                  merge_runs_nil_right]
                simp
              · intro z hz y hy
                simp at hy
            · rw [oneLoop_take_right le out ming c1 c2 l l2 r r2 ltail rt henter hle']
              refine oneLoop_ok h base (l :: l2 :: ltail) (r2 :: rt) (out ++ [r])
                ming 0 (c2 + 1) ?_ hsl (SortedLe.tail hsr) ?_ (by simp) (by simp)
              · rw [← hbase, merge_runs_emit_right le l r _ _ hle']
                simp
              · intro z hz y hy
                exact hlg z hz y (by simp [hy])
    · rw [oneLoop_not_enter le out ming c1 c2 left right henter]
      exact ⟨hbase, hsl, hsr, hlg, hlen, hrne⟩
  termination_by left right _ _ _ _ => left.length + right.length
  decreasing_by all_goals (simp only [List.length_cons]; omega)

theorem gallopLoopF_ok {α : Type} {le : α → α → Bool} (h : LawfulCmp le)
    (MG : Nat) (base : List α) :
    ∀ (left right out : List α) (ming c1 c2 : Nat),
      out ++ merge_runs le left right = base →
      SortedLe le left → SortedLe le right →
      LastGT le left right →
      1 < left.length → right ≠ [] →
      MLOk le base (gallopLoopF le MG left right out ming c1 c2)
  | left, right, out, ming, c1, c2 => by
    intro hbase hsl hsr hlg hlen hrne
    by_cases henter : MG ≤ c1 ∨ MG ≤ c2
    · rcases left with _ | ⟨l, _ | ⟨l2, ltail⟩⟩
      · simp at hlen
      · simp at hlen
      rcases right with _ | ⟨r, rtail⟩
      · exact absurd rfl hrne
      have hgal0 := gallop_eq h false r (l :: l2 :: ltail) 0 hsl (by simp)
      have hcmp1 : gallop_cmp le false r = (fun x => le x r) := by
        simp [gallop_cmp]
      rw [hcmp1] at hgal0
      set n1 := ((l :: l2 :: ltail).takeWhile (fun x => le x r)).length with hn1
      have hzl : (l :: l2 :: ltail).getLast?
          = some ((l :: l2 :: ltail).getLast (by simp)) :=
        List.getLast?_eq_getLast _ (by simp)
      have hzr : le ((l :: l2 :: ltail).getLast (by simp)) r = false :=
        hlg _ (by rw [Option.mem_def]; exact hzl) r (by simp)
      have hn1lt : n1 < (l :: l2 :: ltail).length := by
        rw [hn1]
        exact twLen_lt_of_mem_false (mem_of_getLast?_eq hzl) hzr
      have htake1 : (l :: l2 :: ltail).takeWhile (fun x => le x r)
          = (l :: l2 :: ltail).take n1 := by
        rw [hn1]
        exact takeWhile_eq_take _ _
      have hdrop1 : (l :: l2 :: ltail).dropWhile (fun x => le x r)
          = (l :: l2 :: ltail).drop n1 := by
        rw [hn1]
        exact dropWhile_eq_drop _ _
      have hsplit1 : ∀ R : List α, merge_runs le (l :: l2 :: ltail) (r :: R)
          = (l :: l2 :: ltail).take n1
            ++ merge_runs le ((l :: l2 :: ltail).drop n1) (r :: R) := by
        intro R
        rw [merge_runs_takeWhile_left le r R (l :: l2 :: ltail), htake1, hdrop1]
      have hd1ne : (l :: l2 :: ltail).drop n1 ≠ [] := by
        intro hnil
        have := congrArg List.length hnil
        simp only [List.length_drop, List.length_nil] at this
        simp only [List.length_cons] at this hn1lt
        omega
      have hgl1 : ((l :: l2 :: ltail).drop n1).getLast?
          = (l :: l2 :: ltail).getLast? := getLast?_drop_ne _ _ hd1ne
      obtain ⟨l1, hdrop⟩ : ∃ x, ((l :: l2 :: ltail).drop n1).head? = some x := by
        rcases hd : (l :: l2 :: ltail).drop n1 with _ | ⟨x, xs⟩
        · exact absurd hd hd1ne
        · exact ⟨x, rfl⟩
      have hsplitc : (l :: l2 :: ltail).drop n1
          = l1 :: (l :: l2 :: ltail).drop (n1 + 1) := by
        rw [← List.tail_drop]
        exact (List.cons_head?_tail hdrop).symm
      have hl1r : le l1 r = false := by
        have := head_dropWhile_false (fun x => le x r) (l :: l2 :: ltail) l1
          (by rw [hdrop1]; exact hdrop)
        simpa using this
      by_cases hb1 : n1 ≠ 0 ∧ ((l :: l2 :: ltail).drop n1).length ≤ 1
      · rw [gallopLoopF_left_exhaust le MG out ming c1 c2 l l2 r ltail rtail n1
          henter hgal0 hb1]
        refine ⟨?_, sorted_drop hsl n1, hsr, ?_, Or.inl ⟨?_, by simp⟩⟩
        · rw [← hbase, hsplit1]
          simp
        · intro z hz y hy
          exact hlg z (hgl1 ▸ hz) y hy
        · have h2 := hb1.2
          have h1 : 1 ≤ ((l :: l2 :: ltail).drop n1).length := by
            simp only [List.length_drop, List.length_cons] at hn1lt ⊢
            omega
          omega
      · have hge2 : 2 ≤ ((l :: l2 :: ltail).drop n1).length := by
          rcases Nat.eq_zero_or_pos n1 with hn0 | hn0
          · rw [hn0, List.drop_zero]
            simp
          · have hnot : ¬ (((l :: l2 :: ltail).drop n1).length ≤ 1) :=
              fun hle1 => hb1 ⟨by omega, hle1⟩
            omega
        rcases rtail with _ | ⟨r2, rt⟩
        · rw [gallopLoopF_right_exhaust le MG out ming c1 c2 l l2 r ltail n1
            henter hgal0 hb1]
          refine ⟨?_, sorted_drop hsl n1, SortedLe.nil le, ?_, Or.inr ⟨hge2, rfl⟩⟩
          · rw [merge_runs_nil_right, ← hbase, hsplit1, hsplitc,
              merge_runs_emit_right le l1 r _ [] hl1r, merge_runs_nil_right,
              ← hsplitc]
            simp
          · intro z hz y hy
            simp at hy
        · have hgal2 := gallop_eq h true l1 (r2 :: rt) 0 (SortedLe.tail hsr) (by simp)
          have hcmp2 : gallop_cmp le true l1 = (fun y => !(le l1 y)) := by
            simp [gallop_cmp]
          rw [hcmp2] at hgal2
          set n2 := ((r2 :: rt).takeWhile (fun y => !(le l1 y))).length with hn2
          have htake2 : (r2 :: rt).takeWhile (fun y => !(le l1 y))
              = (r2 :: rt).take n2 := by
            rw [hn2]
            exact takeWhile_eq_take _ _
          have hdrop2 : (r2 :: rt).dropWhile (fun y => !(le l1 y))
              = (r2 :: rt).drop n2 := by
            rw [hn2]
            exact dropWhile_eq_drop _ _
          have hstep : merge_runs le (l :: l2 :: ltail) (r :: r2 :: rt)
              = (l :: l2 :: ltail).take n1 ++ [r] ++ (r2 :: rt).take n2
                ++ merge_runs le ((l :: l2 :: ltail).drop n1)
                    ((r2 :: rt).drop n2) := by
            rw [hsplit1, hsplitc, merge_runs_emit_right le l1 r _ _ hl1r,
              merge_runs_takeWhile_right le l1 _ (r2 :: rt), htake2, hdrop2,
              ← hsplitc]
            simp
          by_cases hb2 : n2 ≠ 0 ∧ ((r2 :: rt).drop n2).length = 0
          · rw [gallopLoopF_right_gone le MG out ming c1 c2 l l2 r r2 l1
              ltail rt n1 n2 henter hgal0 hb1 hdrop hgal2 hb2]
            have hdn2 : (r2 :: rt).drop n2 = [] := List.length_eq_zero.mp hb2.2
            refine ⟨?_, sorted_drop hsl n1, SortedLe.nil le, ?_,
              Or.inr ⟨hge2, rfl⟩⟩
            · rw [merge_runs_nil_right, ← hbase, hstep, hdn2, merge_runs_nil_right]
              simp
            · intro z hz y hy
              simp at hy
          · have hdn2ne : (r2 :: rt).drop n2 ≠ [] := by
              rcases Nat.eq_zero_or_pos n2 with h0 | h0
              · rw [h0, List.drop_zero]
                simp
              · intro hnil
                exact hb2 ⟨by omega, by rw [hnil]; rfl⟩
            obtain ⟨y, hyhd⟩ : ∃ y, ((r2 :: rt).drop n2).head? = some y := by
              rcases hd : (r2 :: rt).drop n2 with _ | ⟨x, xs⟩
              · exact absurd hd hdn2ne
              · exact ⟨x, rfl⟩
            have hsplitr : (r2 :: rt).drop n2 = y :: (r2 :: rt).drop (n2 + 1) := by
              rw [← List.tail_drop]
              exact (List.cons_head?_tail hyhd).symm
            have hly : le l1 y = true := by
              have := head_dropWhile_false (fun z => !(le l1 z)) (r2 :: rt) y
                (by rw [hdrop2]; exact hyhd)
              simpa using this
            have hemit : merge_runs le ((l :: l2 :: ltail).drop n1)
                ((r2 :: rt).drop n2)
                = l1 :: merge_runs le ((l :: l2 :: ltail).drop (n1 + 1))
                    ((r2 :: rt).drop n2) := by
              rw [hsplitc, hsplitr, merge_runs_emit_left le l1 y _ _ hly,
                ← hsplitr]
            have hrmem : ∀ yy ∈ (r2 :: rt).drop n2, yy ∈ r :: r2 :: rt :=
              fun yy hyy => List.mem_cons_of_mem r (List.mem_of_mem_drop hyy)
            by_cases hb3 : ((l :: l2 :: ltail).drop (n1 + 1)).length = 1
            · rw [gallopLoopF_left_one le MG out ming c1 c2 l l2 r r2 l1
                ltail rt n1 n2 henter hgal0 hb1 hdrop hgal2 hb2 hb3]
              have hd11ne : (l :: l2 :: ltail).drop (n1 + 1) ≠ [] := by
                intro hnil
                rw [hnil] at hb3
                simp at hb3
              refine ⟨?_, sorted_drop hsl (n1 + 1),
                sorted_drop (SortedLe.tail hsr) n2, ?_,
                Or.inl ⟨hb3, by rw [hsplitr]; simp⟩⟩
              · rw [← hbase, hstep, hemit]
                simp
              · intro z hz yy hyy
                exact hlg z ((getLast?_drop_ne _ _ hd11ne) ▸ hz) yy (hrmem yy hyy)
            · rw [gallopLoopF_round le MG out ming c1 c2 l l2 r r2 l1
                ltail rt n1 n2 henter hgal0 hb1 hdrop hgal2 hb2 hb3]
              have hlen2 : 1 < ((l :: l2 :: ltail).drop (n1 + 1)).length := by
                simp only [List.length_drop, List.length_cons] at hge2 hb3 ⊢
                omega
              have hd11ne : (l :: l2 :: ltail).drop (n1 + 1) ≠ [] := by
                intro hnil
                rw [hnil] at hlen2
                simp at hlen2
              refine gallopLoopF_ok h MG base ((l :: l2 :: ltail).drop (n1 + 1))
                ((r2 :: rt).drop n2)
                (out ++ (l :: l2 :: ltail).take n1 ++ [r] ++ (r2 :: rt).take n2
                  ++ [l1]) (ming - 1) n1 n2
                ?_ (sorted_drop hsl (n1 + 1)) (sorted_drop (SortedLe.tail hsr) n2)
                ?_ hlen2 hdn2ne
              · rw [← hbase, hstep, hemit]
                simp
              · intro z hz yy hyy
                exact hlg z ((getLast?_drop_ne _ _ hd11ne) ▸ hz) yy (hrmem yy hyy)
    · rw [gallopLoopF_not_enter le MG out ming c1 c2 left right henter]
      exact ⟨hbase, hsl, hsr, hlg, hlen, hrne⟩
  termination_by left right _ _ _ _ => left.length + right.length
  decreasing_by
    simp only [List.length_drop, List.length_cons]
    omega

section MlOuterEquations

variable {α : Type} (le : α → α → Bool) (MG : Nat)
variable (left right out : List α) (ming : Nat)

theorem mlOuter_eq_none_of_panic
    (hone : oneLoop le left right out ming 0 0 = MLStep.panic) :
    mlOuter le MG left right out ming = none := by
  rw [mlOuter.eq_def]
  split
  · rfl
  · rename_i heq
    rw [hone] at heq
    cases heq
  · rename_i heq
    rw [hone] at heq
    cases heq

theorem mlOuter_eq_some_of_broke (l r o : List α) (m : Nat)
    (hone : oneLoop le left right out ming 0 0 = MLStep.broke l r o m) :
    mlOuter le MG left right out ming = some (l, r, o, m) := by
  rw [mlOuter.eq_def]
  split
  · rename_i heq
    rw [hone] at heq
    cases heq
  · rename_i l' r' o' m' heq
    rw [hone] at heq
    injection heq with e1 e2 e3 e4
    subst e1 e2 e3 e4
    rfl
  · rename_i heq
    rw [hone] at heq
    cases heq

theorem mlOuter_eq_none_of_cont_panic (l1 r1 o1 : List α) (m1 d1 d2 : Nat)
    (hone : oneLoop le left right out ming 0 0 = MLStep.cont l1 r1 o1 m1 d1 d2)
    (hgal : gallopLoopF le MG l1 r1 o1 m1 d1 d2 = MLStep.panic) :
    mlOuter le MG left right out ming = none := by
  rw [mlOuter.eq_def]
  split
  · rfl
  · rename_i heq
    rw [hone] at heq
    cases heq
  · rename_i l1' r1' o1' m1' d1' d2' heq
    rw [hone] at heq
    injection heq with e1 e2 e3 e4 e5 e6
    subst e1 e2 e3 e4 e5 e6
    split
    · rfl
    · rename_i heq2
      rw [hgal] at heq2
      cases heq2
    · rename_i heq2
      rw [hgal] at heq2
      cases heq2

theorem mlOuter_eq_some_of_cont_broke (l1 r1 o1 : List α) (m1 d1 d2 : Nat)
    (l r o : List α) (m : Nat)
    (hone : oneLoop le left right out ming 0 0 = MLStep.cont l1 r1 o1 m1 d1 d2)
    (hgal : gallopLoopF le MG l1 r1 o1 m1 d1 d2 = MLStep.broke l r o m) :
    mlOuter le MG left right out ming = some (l, r, o, m) := by
  rw [mlOuter.eq_def]
  split
  · rename_i heq
    rw [hone] at heq
    cases heq
  · rename_i heq
    rw [hone] at heq
    cases heq
  · rename_i l1' r1' o1' m1' d1' d2' heq
    rw [hone] at heq
    injection heq with e1 e2 e3 e4 e5 e6
    subst e1 e2 e3 e4 e5 e6
    split
    · rename_i heq2
      rw [hgal] at heq2
      cases heq2
    · rename_i l' r' o' m' heq2
      rw [hgal] at heq2
      injection heq2 with f1 f2 f3 f4
      subst f1 f2 f3 f4
      rfl
    · rename_i heq2
      rw [hgal] at heq2
      cases heq2

theorem mlOuter_eq_rec_of_cont (l1 r1 o1 : List α) (m1 d1 d2 : Nat)
    (l2 r2 o2 : List α) (m2 e1 e2 : Nat)
    (hone : oneLoop le left right out ming 0 0 = MLStep.cont l1 r1 o1 m1 d1 d2)
    (hgal : gallopLoopF le MG l1 r1 o1 m1 d1 d2 = MLStep.cont l2 r2 o2 m2 e1 e2) :
    mlOuter le MG left right out ming = mlOuter le MG l2 r2 o2 (m2 + 2) := by
  rw [mlOuter.eq_def]
  split
  · rename_i heq
    rw [hone] at heq
    cases heq
  · rename_i heq
    rw [hone] at heq
    cases heq
  · rename_i l1' r1' o1' m1' d1' d2' heq
    rw [hone] at heq
    injection heq with a1 a2 a3 a4 a5 a6
    subst a1 a2 a3 a4 a5 a6
    split
    · rename_i heq2
      rw [hgal] at heq2
      cases heq2
    · rename_i heq2
      rw [hgal] at heq2
      cases heq2
    · rename_i l2' r2' o2' m2' e1' e2' heq2
      rw [hgal] at heq2
      injection heq2 with b1 b2 b3 b4 b5 b6
      subst b1 b2 b3 b4 b5 b6
      rfl

end MlOuterEquations

theorem mlOuter_ok {α : Type} {le : α → α → Bool} (h : LawfulCmp le)
    (MG : Nat) (base : List α) :
    ∀ (left right out : List α) (ming : Nat),
      out ++ merge_runs le left right = base →
      SortedLe le left → SortedLe le right →
      LastGT le left right →
      1 < left.length → right ≠ [] →
      ∃ l r o m, mlOuter le MG left right out ming = some (l, r, o, m) ∧
        o ++ merge_runs le l r = base ∧ SortedLe le l ∧ SortedLe le r ∧
        LastGT le l r ∧ ((l.length = 1 ∧ r ≠ []) ∨ (2 ≤ l.length ∧ r = []))
  | left, right, out, ming => by
    intro hbase hsl hsr hlg hlen hrne
    have H1 := oneLoop_ok h base left right out ming 0 0 hbase hsl hsr hlg hlen hrne
    cases hone : oneLoop le left right out ming 0 0 with
    | panic =>
      rw [hone] at H1
      simp [MLOk] at H1
    | broke l r o m =>
      rw [hone] at H1
      obtain ⟨hb, hs1, hs2, hg, hsh⟩ := H1
      exact ⟨l, r, o, m,
        mlOuter_eq_some_of_broke le MG left right out ming l r o m hone,
        hb, hs1, hs2, hg, hsh⟩
    | cont l1 r1 o1 m1 d1 d2 =>
      rw [hone] at H1
      obtain ⟨hb, hs1, hs2, hg, hl1, hr1⟩ := H1
      have H2 := gallopLoopF_ok h MG base l1 r1 o1 m1 d1 d2 hb hs1 hs2 hg hl1 hr1
      cases hgal : gallopLoopF le MG l1 r1 o1 m1 d1 d2 with
      | panic =>
        rw [hgal] at H2
        simp [MLOk] at H2
      | broke l r o m =>
        rw [hgal] at H2
        obtain ⟨hb2, hs12, hs22, hg2, hsh2⟩ := H2
        exact ⟨l, r, o, m,
          mlOuter_eq_some_of_cont_broke le MG left right out ming
            l1 r1 o1 m1 d1 d2 l r o m hone hgal,
          hb2, hs12, hs22, hg2, hsh2⟩
      | cont l2 r2 o2 m2 e1 e2 =>
        rw [hgal] at H2
        obtain ⟨hb2, hs12, hs22, hg2, hl12, hr12⟩ := H2
        rw [mlOuter_eq_rec_of_cont le MG left right out ming
          l1 r1 o1 m1 d1 d2 l2 r2 o2 m2 e1 e2 hone hgal]
        exact mlOuter_ok h MG base l2 r2 o2 (m2 + 2) hb2 hs12 hs22 hg2 hl12 hr12
  termination_by left right _ ming =>
    2 * (left.length + right.length) + (if ming = 0 then 1 else 0)
  decreasing_by
    have ha := oneLoop_cont_length le left right out ming 0 0 l1 r1 o1 m1 d1 d2 hone
    have hb := gallopLoopF_cont_length le MG l1 r1 o1 m1 d1 d2 l2 r2 o2 m2 e1 e2 hgal
    rcases Nat.eq_zero_or_pos ming with hm | hm
    · subst hm
      split <;> split <;> first | contradiction | omega
    · have hpos : (0 ||| 0) < ming := by simpa using hm
      have hc := ha.2 hpos
      split <;> split <;> first | contradiction | omega

theorem ml_finish_ok {α : Type} {le : α → α → Bool} (h : LawfulCmp le)
    (base l r o : List α)
    (hb : o ++ merge_runs le l r = base)
    (hg : LastGT le l r)
    (hsh : (l.length = 1 ∧ r ≠ []) ∨ (2 ≤ l.length ∧ r = [])) :
    ml_finish l r o = some base := by
  rcases hsh with ⟨h1, hr⟩ | ⟨h2, hr⟩
  · rcases l with _ | ⟨x, _ | ⟨x2, xt⟩⟩
    · simp at h1
    · rcases r with _ | ⟨y, ys⟩
      · exact absurd rfl hr
      · have hmr : merge_runs le [x] (y :: ys) = (y :: ys) ++ [x] :=
          merge_runs_all_gt le x (y :: ys)
            (fun z hz => hg x (by simp) z hz)
        rw [← hb, hmr]
        simp [ml_finish]
    · simp at h1
  · subst hr
    have h1ne : l.length ≠ 1 := by omega
    have h0ne : l.length ≠ 0 := by omega
    rw [← hb, merge_runs_nil_right]
    simp [ml_finish, h1ne, h0ne]

theorem merge_low_ok {α : Type} {le : α → α → Bool} (h : LawfulCmp le)
    (MG : Nat) (slice : List α) (split_point buffer_len ming : Nat)
    (hsp1 : 1 ≤ split_point) (hsplt : split_point < slice.length)
    (hbuf : slice.length ≤ buffer_len)
    (hsl : SortedLe le (slice.take split_point))
    (hsr : SortedLe le (slice.drop split_point))
    (hfirst : ∀ y ∈ (slice.drop split_point).head?,
      ∀ x ∈ slice.take split_point, le x y = false)
    (hlast : LastGT le (slice.take split_point) (slice.drop split_point)) :
    merge_low le MG slice split_point buffer_len ming
      = some (merge_runs le (slice.take split_point) (slice.drop split_point)) := by
  have hne : ¬ (buffer_len < slice.length) := by omega
  have hlep : ¬ (slice.length ≤ split_point) := by omega
  have htlen : (slice.take split_point).length = split_point := by
    rw [List.length_take]
    omega
  obtain ⟨x, xs, hte⟩ : ∃ x xs, slice.take split_point = x :: xs := by
    rcases ht : slice.take split_point with _ | ⟨x, xs⟩
    · rw [ht] at htlen
      simp at htlen
      omega
    · exact ⟨x, xs, rfl⟩
  rcases hd : slice.drop split_point with _ | ⟨r, rright⟩
  · have := congrArg List.length hd
    simp only [List.length_drop, List.length_nil] at this
    omega
  have hxr : le x r = false :=
    hfirst r (by rw [Option.mem_def, hd]; rfl) x (by rw [hte]; simp)
  rcases rright with _ | ⟨rr2, rrt⟩
  · simp only [merge_low, if_neg hne, if_neg hlep, hd, List.isEmpty_nil, if_true]
    rw [hte, merge_runs_emit_right le x r xs [] hxr, merge_runs_nil_right]
  · by_cases hsp1' : split_point = 1
    · simp only [merge_low, if_neg hne, if_neg hlep, hd, List.isEmpty_cons,
        Bool.false_eq_true, if_false, if_pos hsp1']
      have hxs : xs = [] := by
        rw [hte] at htlen
        simp only [List.length_cons] at htlen
        have : xs.length = 0 := by omega
        exact List.length_eq_zero.mp this
      subst hxs
      rw [hte, merge_runs_emit_right le x r [] (rr2 :: rrt) hxr,
        merge_runs_all_gt le x (rr2 :: rrt)
          (fun z hz => hlast x (by rw [Option.mem_def, hte]; rfl) z
            (by rw [hd]; simp [hz]))]
    · have hsp2 : 2 ≤ split_point := by omega
      have hbase0 : [r] ++ merge_runs le (slice.take split_point) (rr2 :: rrt)
          = merge_runs le (slice.take split_point) (slice.drop split_point) := by
        rw [hd, hte, merge_runs_emit_right le x r xs (rr2 :: rrt) hxr]
        simp
      have hsr2 : SortedLe le (rr2 :: rrt) := by
        have := hd ▸ hsr
        exact SortedLe.tail this
      have hlg2 : LastGT le (slice.take split_point) (rr2 :: rrt) := by
        intro z hz y hy
        exact hlast z hz y (by rw [hd]; simp [hy])
      have hlen2 : 1 < (slice.take split_point).length := by omega
      obtain ⟨l', r', o', m', hml, hb', hs1', hs2', hg', hsh'⟩ :=
        mlOuter_ok h MG
          (merge_runs le (slice.take split_point) (slice.drop split_point))
          (slice.take split_point) (rr2 :: rrt) [r] ming
          hbase0 hsl hsr2 hlg2 hlen2 (by simp)
      simp only [merge_low, if_neg hne, if_neg hlep, hd, List.isEmpty_cons,
        Bool.false_eq_true, if_false, if_neg hsp1', hml]
      exact ml_finish_ok h _ l' r' o' (hd ▸ hb') hg' hsh'

/-- In a sorted list, everything beyond the `(· <= k)`-prefix compares
strictly greater than `k`. -/
theorem dropWhile_le_all_false {α : Type} {le : α → α → Bool} (h : LawfulCmp le)
    {l : List α} (hs : SortedLe le l) (k : α) :
    ∀ x ∈ l.dropWhile (fun z => le z k), le x k = false := by
  intro x hx
  rcases hdw : l.dropWhile (fun z => le z k) with _ | ⟨d, dt⟩
  · rw [hdw] at hx
    simp at hx
  · have hd0 : le d k = false := by
      have := head_dropWhile_false (fun z => le z k) l d (by rw [hdw]; rfl)
      simpa using this
    have hsd : SortedLe le (d :: dt) := by
      rw [← hdw, dropWhile_eq_drop]
      exact sorted_drop hs _
    rw [hdw] at hx
    rcases List.mem_cons.mp hx with rfl | hx
    · exact hd0
    · cases hv : le x k
      · rfl
      · exfalso
        have hdx : le d x = true := (List.pairwise_cons.mp hsd).1 x hx
        have := h.trans d x k hdx hv
        rw [hd0] at this
        cases this

/-- In a sorted list, everything beyond the `(· < k)`-prefix (complement of
`!(le k z)`) compares at least `k`. -/
theorem dropWhile_gt_all_true {α : Type} {le : α → α → Bool} (h : LawfulCmp le)
    {l : List α} (hs : SortedLe le l) (k : α) :
    ∀ y ∈ l.dropWhile (fun z => !(le k z)), le k y = true := by
  intro y hy
  rcases hdw : l.dropWhile (fun z => !(le k z)) with _ | ⟨d, dt⟩
  · rw [hdw] at hy
    simp at hy
  · have hd0 : le k d = true := by
      have := head_dropWhile_false (fun z => !(le k z)) l d (by rw [hdw]; rfl)
      simpa using this
    have hsd : SortedLe le (d :: dt) := by
      rw [← hdw, dropWhile_eq_drop]
      exact sorted_drop hs _
    rw [hdw] at hy
    rcases List.mem_cons.mp hy with rfl | hy
    · exact hd0
    · exact h.trans k d y hd0 ((List.pairwise_cons.mp hsd).1 y hy)

/-- Correctness of `Galloping::merge` against the abstract stable merge: on a
slice whose two halves around `split_point` are sorted, with a buffer at least
as large as the slice, it computes exactly the left-biased merge of the two
halves (and in particular never hits an assertion). -/
theorem Galloping_merge_eq {α : Type} {le : α → α → Bool} (h : LawfulCmp le)
    (MG : Nat) (slice : List α) (sp buffer_len : Nat)
    (hsp : sp < slice.length) (hbuf : slice.length ≤ buffer_len)
    (hsl : SortedLe le (slice.take sp)) (hsr : SortedLe le (slice.drop sp)) :
    Galloping_merge le MG slice sp buffer_len
      = some (merge_runs le (slice.take sp) (slice.drop sp)) := by
  by_cases h0 : slice.length < 2 ∨ sp = 0
  · have hsp0 : sp = 0 := by omega
    subst hsp0
    rw [Galloping_merge, if_pos h0]
    simp [merge_runs]
  · have hlen2 : 2 ≤ slice.length := by omega
    have hspnz : sp ≠ 0 := fun hz => h0 (Or.inr hz)
    have hsp1 : 1 ≤ sp := by omega
    have htlen : (slice.take sp).length = sp := by
      rw [List.length_take]
      omega
    obtain ⟨r0, rtail, hd⟩ : ∃ a t, slice.drop sp = a :: t := by
      rcases hdn : slice.drop sp with _ | ⟨a, t⟩
      · have := congrArg List.length hdn
        simp only [List.length_drop, List.length_nil] at this
        omega
      · exact ⟨a, t, rfl⟩
    have hget1 : slice.get? sp = some r0 := by
      rw [List.get?_eq_getElem?, ← List.head?_drop, hd]
      rfl
    obtain ⟨key2, hgl⟩ : ∃ z, (slice.take sp).getLast? = some z := by
      rcases ht : slice.take sp with _ | ⟨x, xs⟩
      · rw [ht] at htlen
        simp at htlen
        omega
      · exact ⟨(x :: xs).getLast (by simp), List.getLast?_eq_getLast _ (by simp)⟩
    have hget2 : slice.get? (sp - 1) = some key2 := by
      rw [List.get?_eq_getElem?, ← hgl, List.getLast?_eq_getElem?, htlen,
        List.getElem?_take, if_pos (by omega)]
    have hgal1 := gallop_eq h false r0 (slice.take sp) 0 hsl (by omega)
    have hcmp1 : gallop_cmp le false r0 = (fun x => le x r0) := by
      simp [gallop_cmp]
    rw [hcmp1] at hgal1
    set start := ((slice.take sp).takeWhile (fun x => le x r0)).length with hstdef
    have hstle : start ≤ sp := by
      rw [hstdef]
      exact le_trans (twLen_le_length _ _) (le_of_eq htlen)
    by_cases hstart : start = sp
    · -- the left run is entirely <= the first right element: nothing to merge
      have htweq : (slice.take sp).takeWhile (fun x => le x r0) = slice.take sp :=
        (List.takeWhile_prefix _).eq_of_length (by rw [← hstdef, htlen, hstart])
      have hall : ∀ x ∈ slice.take sp, ∀ y ∈ slice.drop sp, le x y = true := by
        intro x hx y hy
        have hxr0 : le x r0 = true := by
          have := List.mem_takeWhile_imp (p := fun x => le x r0) (htweq ▸ hx)
          simpa using this
        rw [hd] at hy
        rcases List.mem_cons.mp hy with rfl | hy
        · exact hxr0
        · have hr0y : le r0 y = true := by
            have := hd ▸ hsr
            exact (List.pairwise_cons.mp this).1 y hy
          exact h.trans x r0 y hxr0 hr0y
      simp only [Galloping_merge, if_neg h0, hget1, hgal1, if_pos hstart]
      rw [merge_runs_all_le le _ _ hall, List.take_append_drop]
    · have hgal2 := gallop_eq h true key2 (slice.drop sp)
        (slice.length - sp - 1) hsr (by simp only [List.length_drop]; omega)
      have hcmp2 : gallop_cmp le true key2 = (fun y => !(le key2 y)) := by
        simp [gallop_cmp]
      rw [hcmp2] at hgal2
      set end0 := ((slice.drop sp).takeWhile (fun y => !(le key2 y))).length
        with hendef
      have hendle : end0 ≤ slice.length - sp := by
        rw [hendef]
        have := twLen_le_length (fun y => !(le key2 y)) (slice.drop sp)
        simpa using this
      by_cases hend0 : end0 = 0
      · -- the right run is entirely >= the last left element
        have hr0k : le key2 r0 = true := by
          have hlen0 := hend0
          rw [hendef] at hlen0
          have htw := List.length_eq_zero.mp hlen0
          rw [hd] at htw
          by_cases hp : (!(le key2 r0)) = true
          · rw [List.takeWhile_cons_of_pos (p := fun y => !(le key2 y)) hp] at htw
            cases htw
          · simpa using hp
        have hall : ∀ x ∈ slice.take sp, ∀ y ∈ slice.drop sp, le x y = true := by
          intro x hx y hy
          have hxk : le x key2 = true := sorted_le_getLast h hsl hgl x hx
          rw [hd] at hy
          rcases List.mem_cons.mp hy with rfl | hy
          · exact h.trans x key2 y hxk hr0k
          · have hr0y : le r0 y = true := by
              have := hd ▸ hsr
              exact (List.pairwise_cons.mp this).1 y hy
            exact h.trans x key2 y hxk (h.trans key2 r0 y hr0k hr0y)
        simp only [Galloping_merge, if_neg h0, hget1, hgal1, if_neg hstart,
          hget2, hgal2, if_pos hend0]
        rw [merge_runs_all_le le _ _ hall, List.take_append_drop]
      · -- the genuine merge of the trimmed middle part
        have hstlt : start < sp := by
          rcases Nat.lt_or_ge start sp with hlt | hge
          · exact hlt
          · exact absurd (Nat.le_antisymm hstle hge) hstart
        have hsubL : ((slice.drop start).take (end0 + sp - start)).take (sp - start)
            = (slice.take sp).drop start := by
          rw [List.take_take]
          have hmn : min (sp - start) (end0 + sp - start) = sp - start := by omega
          rw [hmn, ← List.drop_take]
        have hdropstart : (slice.drop start).drop (sp - start) = slice.drop sp := by
          rw [List.drop_drop]
          congr 1
          omega
        have hsubR : ((slice.drop start).take (end0 + sp - start)).drop (sp - start)
            = (slice.drop sp).take end0 := by
          rw [List.drop_take, hdropstart]
          congr 1
          omega
        have hsublen : ((slice.drop start).take (end0 + sp - start)).length
            = end0 + sp - start := by
          rw [List.length_take, List.length_drop]
          omega
        have hsubLs : SortedLe le
            (((slice.drop start).take (end0 + sp - start)).take (sp - start)) := by
          rw [hsubL]
          exact sorted_drop hsl start
        have hsubRs : SortedLe le
            (((slice.drop start).take (end0 + sp - start)).drop (sp - start)) := by
          rw [hsubR]
          exact sorted_take hsr end0
        have htake1 : (slice.take sp).takeWhile (fun x => le x r0)
            = (slice.take sp).take start := by
          rw [hstdef]
          exact takeWhile_eq_take _ _
        have hdrop1 : (slice.take sp).dropWhile (fun x => le x r0)
            = (slice.take sp).drop start := by
          rw [hstdef]
          exact dropWhile_eq_drop _ _
        have htake2 : (slice.drop sp).takeWhile (fun y => !(le key2 y))
            = (slice.drop sp).take end0 := by
          rw [hendef]
          exact takeWhile_eq_take _ _
        have hdrop2 : (slice.drop sp).dropWhile (fun y => !(le key2 y))
            = (slice.drop sp).drop end0 := by
          rw [hendef]
          exact dropWhile_eq_drop _ _
        have hheadR : (((slice.drop start).take (end0 + sp - start)).drop
            (sp - start)).head? = some r0 := by
          rw [hsubR, hd]
          rcases Nat.exists_eq_succ_of_ne_zero hend0 with ⟨e, he⟩
          rw [he]
          rfl
        have hfirst : ∀ y ∈ (((slice.drop start).take (end0 + sp - start)).drop
              (sp - start)).head?,
            ∀ x ∈ ((slice.drop start).take (end0 + sp - start)).take (sp - start),
              le x y = false := by
          intro y hy x hx
          rw [Option.mem_def, hheadR] at hy
          injection hy with hy
          subst hy
          refine dropWhile_le_all_false h hsl r0 x ?_
          rw [hdrop1, ← hsubL]
          exact hx
        have hlast : LastGT le
            (((slice.drop start).take (end0 + sp - start)).take (sp - start))
            (((slice.drop start).take (end0 + sp - start)).drop (sp - start)) := by
          intro z hz y hy
          rw [Option.mem_def] at hz
          have hne : ((slice.drop start).take (end0 + sp - start)).take (sp - start)
              ≠ [] := by
            intro hnil
            have := congrArg List.length hnil
            rw [List.length_take, hsublen] at this
            simp only [List.length_nil] at this
            omega
          have hglsub : (((slice.drop start).take (end0 + sp - start)).take
              (sp - start)).getLast? = (slice.take sp).getLast? := by
            rw [hsubL]
            refine getLast?_drop_ne _ _ ?_
            rw [← hsubL]
            exact hne
          rw [hglsub, hgl] at hz
          injection hz with hz
          subst hz
          have hmem : y ∈ (slice.drop sp).takeWhile (fun w => !(le key2 w)) := by
            rw [htake2, ← hsubR]
            exact hy
          have := List.mem_takeWhile_imp hmem
          simpa using this
        have hmlow := merge_low_ok h MG
          ((slice.drop start).take (end0 + sp - start)) (sp - start) buffer_len MG
          (by omega) (by rw [hsublen]; omega) (by rw [hsublen]; omega)
          hsubLs hsubRs hfirst hlast
        have htt : (slice.take sp).take start = slice.take start := by
          rw [List.take_take]
          congr 1
          omega
        have hdd : (slice.drop sp).drop end0 = slice.drop (end0 + sp) := by
          rw [List.drop_drop, Nat.add_comm]
        have hdsplit : slice.drop sp
            = ((slice.drop start).take (end0 + sp - start)).drop (sp - start)
              ++ slice.drop (end0 + sp) := by
          rw [hsubR, ← hdd, List.take_append_drop]
        have hallrest : ∀ x ∈ ((slice.drop start).take (end0 + sp - start)).take
              (sp - start),
            ∀ y ∈ slice.drop (end0 + sp), le x y = true := by
          intro x hx y hy
          have hxk : le x key2 = true := by
            refine sorted_le_getLast h hsl hgl x ?_
            rw [hsubL] at hx
            exact List.mem_of_mem_drop hx
          have hky : le key2 y = true := by
            refine dropWhile_gt_all_true h hsr key2 y ?_
            rw [hdrop2, hdd]
            exact hy
          exact h.trans x key2 y hxk hky
        have hchain : merge_runs le (slice.take sp) (slice.drop sp)
            = slice.take start
              ++ (merge_runs le
                  (((slice.drop start).take (end0 + sp - start)).take (sp - start))
                  (((slice.drop start).take (end0 + sp - start)).drop (sp - start))
                ++ slice.drop (end0 + sp)) := by
          conv_lhs => rw [hd, merge_runs_takeWhile_left le r0 rtail (slice.take sp)]
          rw [htake1, hdrop1, htt, ← hd, ← hsubL, hdsplit,
            merge_runs_append_right le _ _ _ hallrest]
        simp only [Galloping_merge, if_neg h0, hget1, hgal1, if_neg hstart,
          hget2, hgal2, if_neg hend0, hmlow]
        rw [hchain]
        simp [List.append_assoc]

/- ## K-way merging, TournamentTree
(src/src/algorithms/merging/multi_way.rs lines 28-198) -/

/-- Total length of a family of runs. -/
def sumLens {α : Type} (runs : List (List α)) : Nat :=
  (runs.map List.length).sum

/-- The `min_by_key` selection of `tournament_tree_merge` (multi_way.rs lines
184-189): the first run whose head is minimal wins (Rust `min_by_key` keeps
the first minimum, so ties go to the lower run index).  Returns the runs
before the winner, the winner's head and tail, and the runs after it.  The
source reads every run's head unconditionally — on an empty run that read is
undefined behaviour and unreachable (all runs are non-empty at selection
time); the total model skips empty runs. -/
def pick {α : Type} (le : α → α → Bool) :
    List (List α) → Option (List (List α) × α × List α × List (List α))
  | [] => none
  | [] :: rs =>
    match pick le rs with
    | none => none
    | some (pre, x, rest, post) => some ([] :: pre, x, rest, post)
  | (x :: xs) :: rs =>
    match pick le rs with
    | none => some ([], x, xs, rs)
    | some (pre, y, rest, post) =>
      if !(le x y) then some ((x :: xs) :: pre, y, rest, post)
      else some ([], x, xs, rs)

theorem pick_eq {α : Type} (le : α → α → Bool) :
    ∀ {runs pre post : List (List α)} {x : α} {rest : List α},
      pick le runs = some (pre, x, rest, post) →
      runs = pre ++ (x :: rest) :: post
  | [], pre, post, x, rest, h => by simp [pick] at h
  | [] :: rs, pre, post, x, rest, h => by
    rw [pick] at h
    cases hp : pick le rs with
    | none => simp only [hp] at h; cases h
    | some q =>
      obtain ⟨pre', x', rest', post'⟩ := q
      simp only [hp] at h
      injection h with h
      injection h with h1 h
      injection h with h2 h
      injection h with h3 h4
      subst h2 h3 h4
      rw [← h1]
      have := pick_eq le hp
      simp [this]
  | (x0 :: xs) :: rs, pre, post, x, rest, h => by
    rw [pick] at h
    cases hp : pick le rs with
    | none =>
      simp only [hp] at h
      injection h with h
      injection h with h1 h
      injection h with h2 h
      injection h with h3 h4
      subst h2 h3 h4
      simp [← h1]
    | some q =>
      obtain ⟨pre', y', rest', post'⟩ := q
      simp only [hp] at h
      by_cases hle : (!(le x0 y')) = true
      · rw [if_pos hle] at h
        injection h with h
        injection h with h1 h
        injection h with h2 h
        injection h with h3 h4
        subst h2 h3 h4
        rw [← h1]
        have := pick_eq le hp
        simp [this]
      · rw [if_neg hle] at h
        injection h with h
        injection h with h1 h
        injection h with h2 h
        injection h with h3 h4
        subst h2 h3 h4
        simp [← h1]

theorem pick_none_of_all_nil {α : Type} (le : α → α → Bool) :
    ∀ {runs : List (List α)}, (∀ r ∈ runs, r = []) → pick le runs = none
  | [], _ => rfl
  | [] :: rs, h => by
    rw [pick, pick_none_of_all_nil le (fun r hr => h r (by simp [hr]))]
  | (x :: xs) :: rs, h => by
    have := h (x :: xs) (by simp)
    cases this

theorem pick_some_of_ne_nil {α : Type} (le : α → α → Bool) :
    ∀ {runs : List (List α)}, (∃ r ∈ runs, r ≠ []) →
      ∃ pre x rest post, pick le runs = some (pre, x, rest, post)
  | [], h => by simp at h
  | [] :: rs, h => by
    have hrs : ∃ r ∈ rs, r ≠ [] := by
      obtain ⟨r, hr, hne⟩ := h
      rcases List.mem_cons.mp hr with rfl | hr
      · exact absurd rfl hne
      · exact ⟨r, hr, hne⟩
    obtain ⟨pre, x, rest, post, hp⟩ := pick_some_of_ne_nil le hrs
    exact ⟨[] :: pre, x, rest, post, by rw [pick, hp]⟩
  | (x :: xs) :: rs, h => by
    rw [pick]
    cases hp : pick le rs with
    | none => exact ⟨[], x, xs, rs, rfl⟩
    | some q =>
      obtain ⟨pre, y, rest, post⟩ := q
      by_cases hle : (!(le x y)) = true
      · exact ⟨(x :: xs) :: pre, y, rest, post, by simp [hle]⟩
      · exact ⟨[], x, xs, rs, by simp [hle]⟩

/-- The abstract k-way tournament merge: repeatedly emit the head of the
first run with minimal head.  This is the unbatched semantics of
`tournament_tree_merge`; the batching by `min_length` and the
`rotate_left`-removal of exhausted runs are control-flow refinements proved
equal below. -/
def kmerge {α : Type} (le : α → α → Bool) (runs : List (List α)) : List α :=
  match hp : pick le runs with
  | none => []
  | some (pre, x, rest, post) => x :: kmerge le (pre ++ rest :: post)
  termination_by sumLens runs
  decreasing_by
    have := pick_eq le hp
    subst this
    simp only [sumLens, List.map_append, List.map_cons, List.sum_append,
      List.sum_cons, List.length_cons]
    omega

/-- The empty-run scan at the top of the `'merging` loop (multi_way.rs lines
170-181): the first index whose run is exhausted. -/
def firstEmpty {α : Type} : List (List α) → Option Nat
  | [] => none
  | r :: rs => if r.isEmpty then some 0 else (firstEmpty rs).map (· + 1)

theorem firstEmpty_decomp {α : Type} :
    ∀ {runs : List (List α)} {i : Nat}, firstEmpty runs = some i →
      ∃ A B, runs = A ++ [] :: B ∧ A.length = i
  | [], i, h => by simp [firstEmpty] at h
  | r :: rs, i, h => by
    rw [firstEmpty] at h
    by_cases hr : r.isEmpty
    · rw [if_pos hr] at h
      injection h with h
      exact ⟨[], rs, by simp [List.isEmpty_iff.mp hr], by simp [← h]⟩
    · rw [if_neg hr] at h
      cases hfe : firstEmpty rs with
      | none => rw [hfe] at h; cases h
      | some j =>
        rw [hfe] at h
        injection h with h
        obtain ⟨A, B, hAB, hlen⟩ := firstEmpty_decomp hfe
        exact ⟨r :: A, B, by simp [hAB], by simp [hlen, ← h]⟩

theorem firstEmpty_none {α : Type} :
    ∀ {runs : List (List α)}, firstEmpty runs = none → ∀ r ∈ runs, r ≠ []
  | [], _, r, hr => by simp at hr
  | q :: rs, h, r, hr => by
    rw [firstEmpty] at h
    by_cases hq : q.isEmpty
    · rw [if_pos hq] at h
      cases h
    · rw [if_neg hq] at h
      rcases List.mem_cons.mp hr with rfl | hr
      · simpa [List.isEmpty_iff] using hq
      · cases hfe : firstEmpty rs with
        | none => exact firstEmpty_none hfe r hr
        | some j => rw [hfe] at h; cases h

/-- The `min_length` computation (multi_way.rs lines 171-180), folding `min`
over the run lengths starting from `usize::MAX`. -/
def minLen {α : Type} (runs : List (List α)) : Nat :=
  runs.foldl (fun m r => min m r.length) (2 ^ 64 - 1)

/-- One selection of the inner `for` loop (multi_way.rs lines 184-191):
`min_by_key` picks the first run with minimal head, and one element is copied
from it to the output. -/
def ttStep {α : Type} (le : α → α → Bool) (runs : List (List α))
    (out : List α) : List (List α) × List α :=
  match pick le runs with
  | none => (runs, out)
  | some (pre, x, rest, post) => (pre ++ rest :: post, out ++ [x])

/-- The `for _ in 0..min_length` batching loop (multi_way.rs lines 183-191). -/
def ttBatch {α : Type} (le : α → α → Bool) :
    Nat → List (List α) → List α → List (List α) × List α
  | 0, runs, out => (runs, out)
  | n + 1, runs, out => ttBatch le n (ttStep le runs out).1 (ttStep le runs out).2

theorem ttStep_sum_lt {α : Type} (le : α → α → Bool) (runs : List (List α))
    (out : List α) (h : sumLens runs ≠ 0) :
    sumLens (ttStep le runs out).1 < sumLens runs := by
  have hex : ∃ r ∈ runs, r ≠ [] := by
    by_contra hall
    push_neg at hall
    have : ∀ r ∈ runs, r.length = 0 := fun r hr => by rw [hall r hr]; rfl
    have : sumLens runs = 0 := by
      unfold sumLens
      rw [List.sum_eq_zero]
      intro n hn
      obtain ⟨r, hr, hrn⟩ := List.mem_map.mp hn
      rw [← hrn]
      exact this r hr
    exact h this
  obtain ⟨pre, x, rest, post, hp⟩ := pick_some_of_ne_nil le hex
  have heq := pick_eq le hp
  unfold ttStep
  rw [hp]
  subst heq
  simp only [sumLens, List.map_append, List.map_cons, List.sum_append,
    List.sum_cons, List.length_cons]
  omega

theorem ttStep_sum_le {α : Type} (le : α → α → Bool) (runs : List (List α))
    (out : List α) :
    sumLens (ttStep le runs out).1 ≤ sumLens runs := by
  by_cases h : sumLens runs = 0
  · unfold ttStep
    cases hp : pick le runs with
    | none => simp [h]
    | some q =>
      obtain ⟨pre, x, rest, post⟩ := q
      have heq := pick_eq le hp
      subst heq
      simp only [sumLens, List.map_append, List.map_cons, List.sum_append,
        List.sum_cons, List.length_cons]
      omega
  · exact le_of_lt (ttStep_sum_lt le runs out h)

theorem ttBatch_sum_le {α : Type} (le : α → α → Bool) :
    ∀ (n : Nat) (runs : List (List α)) (out : List α),
      sumLens (ttBatch le n runs out).1 ≤ sumLens runs
  | 0, runs, out => le_refl _
  | n + 1, runs, out =>
    le_trans (ttBatch_sum_le le n _ _) (ttStep_sum_le le runs out)

theorem ttBatch_sum_lt {α : Type} (le : α → α → Bool) (n : Nat)
    (runs : List (List α)) (out : List α) (hn : 1 ≤ n)
    (h : sumLens runs ≠ 0) :
    sumLens (ttBatch le n runs out).1 < sumLens runs := by
  rcases Nat.exists_eq_succ_of_ne_zero (by omega : n ≠ 0) with ⟨m, hm⟩
  subst hm
  rw [ttBatch]
  exact lt_of_le_of_lt (ttBatch_sum_le le m _ _) (ttStep_sum_lt le runs out h)

theorem eraseIdx_append_nil {α : Type} :
    ∀ (A B : List (List α)), (A ++ [] :: B).eraseIdx A.length = A ++ B
  | [], B => rfl
  | a :: A, B => by
    simp only [List.cons_append, List.length_cons, List.eraseIdx_cons_succ]
    rw [eraseIdx_append_nil A B]

/-- The `'merging` loop together with the cascade of per-`K` instantiations
(multi_way.rs lines 116-198): while more than one run remains, either drop
the first exhausted run (`rotate_left` of `runs[i..k]` plus `break` to the
`K-1` instantiation keeps the others in order), or run a batch of
`min_length` selections; the base instantiation (`K = 1`) copies the single
remaining run wholesale. -/
def ttMerge {α : Type} (le : α → α → Bool) (runs : List (List α))
    (out : List α) : List α :=
  if h1 : runs.length ≤ 1 then out ++ runs.flatten
  else
    match hfe : firstEmpty runs with
    | some i => ttMerge le (runs.eraseIdx i) out
    | none =>
      ttMerge le (ttBatch le (minLen runs) runs out).1
        (ttBatch le (minLen runs) runs out).2
  termination_by (sumLens runs, runs.length)
  decreasing_by
  · obtain ⟨A, B, hAB, hlen⟩ := firstEmpty_decomp hfe
    subst hAB
    rw [← hlen, eraseIdx_append_nil A B]
    have hsum : sumLens (A ++ B) = sumLens (A ++ [] :: B) := by
      simp [sumLens]
    rw [hsum]
    apply Prod.Lex.right
    simp only [List.length_append, List.length_cons]
    omega
  · apply Prod.Lex.left
    have hne : ∀ r ∈ runs, r ≠ [] := firstEmpty_none hfe
    have hrne : runs ≠ [] := by
      intro hnil
      rw [hnil] at h1
      simp at h1
    have hsum : sumLens runs ≠ 0 := by
      rcases runs with _ | ⟨r, rs⟩
      · exact absurd rfl hrne
      · have := hne r (by simp)
        rcases r with _ | ⟨a, t⟩
        · exact absurd rfl this
        · simp [sumLens]
    have hmin : 1 ≤ minLen runs := by
      unfold minLen
      rcases Nat.eq_zero_or_pos (runs.foldl (fun m r => min m r.length)
          (2 ^ 64 - 1)) with hz | hp
      · exfalso
        have hgen : ∀ (l : List (List α)) (acc : Nat),
            l.foldl (fun m r => min m r.length) acc = 0 →
            acc = 0 ∨ ∃ r ∈ l, r.length = 0 := by
          intro l
          induction l with
          | nil => intro acc hacc; exact Or.inl hacc
          | cons q qs ih =>
            intro acc hacc
            rcases ih _ hacc with hmin0 | ⟨r, hr, hr0⟩
            · rcases Nat.min_eq_zero_iff.mp hmin0 with h | h
              · exact Or.inl h
              · exact Or.inr ⟨q, by simp, h⟩
            · exact Or.inr ⟨r, by simp [hr], hr0⟩
        rcases hgen runs _ hz with hacc | ⟨r, hr, hr0⟩
        · simp at hacc
        · exact hne r hr (List.length_eq_zero.mp hr0)
      · exact hp
    exact ttBatch_sum_lt le (minLen runs) runs out hmin hsum

/-- The run array construction of `TournamentTree::merge` (multi_way.rs lines
78-87): `std::array::from_fn` walks `run_lengths`; indices past its end give
a run reaching to the end of the buffer, so the first such index takes the
remainder and all later ones are empty. -/
def makeRuns {α : Type} : Nat → List α → List Nat → List (List α)
  | 0, _, _ => []
  | K + 1, rem, [] => rem :: makeRuns K [] []
  | K + 1, rem, len :: lens => rem.take len :: makeRuns K (rem.drop len) lens

/-- Embedding of `TournamentTree::merge` (multi_way.rs lines 42-102): the
buffer passes only its length, `none` models a failed assertion.  Elements
past the region covered by the constructed runs are never copied back and
keep their original values (the `debug_assert!(guard.is_empty())` is compiled
out in release builds). -/
def TournamentTree.merge {α : Type} (le : α → α → Bool) (K : Nat)
    (slice : List α) (run_lengths : List Nat) (buffer_len : Nat) :
    Option (List α) :=
  if slice.isEmpty then some slice
  else if buffer_len < slice.length then none
  else if ¬ (run_lengths.sum ≤ slice.length) then none
  else some (ttMerge le (makeRuns K slice run_lengths) []
    ++ slice.drop (sumLens (makeRuns K slice run_lengths)))

/- ### Equivalence of the batched loop with the abstract selection merge -/

theorem kmerge_of_pick_none {α : Type} (le : α → α → Bool)
    (runs : List (List α)) (hp : pick le runs = none) :
    kmerge le runs = [] := by
  rw [kmerge.eq_def]
  split
  · rfl
  · rename_i heq
    rw [hp] at heq
    cases heq

theorem kmerge_of_pick_some {α : Type} (le : α → α → Bool)
    (runs pre post : List (List α)) (x : α) (rest : List α)
    (hp : pick le runs = some (pre, x, rest, post)) :
    kmerge le runs = x :: kmerge le (pre ++ rest :: post) := by
  rw [kmerge.eq_def]
  split
  · rename_i heq
    rw [hp] at heq
    cases heq
  · rename_i pre' x' rest' post' heq
    rw [hp] at heq
    injection heq with heq
    injection heq with h1 heq
    injection heq with h2 heq
    injection heq with h3 h4
    subst h1 h2 h3 h4
    rfl

theorem pick_none_imp {α : Type} (le : α → α → Bool) :
    ∀ {runs : List (List α)}, pick le runs = none → ∀ r ∈ runs, r = []
  | [], _, r, hr => by simp at hr
  | [] :: rs, h, r, hr => by
    rw [pick] at h
    cases hp : pick le rs with
    | none =>
      rcases List.mem_cons.mp hr with rfl | hr
      · rfl
      · exact pick_none_imp le hp r hr
    | some q =>
      obtain ⟨pre, x, rest, post⟩ := q
      rw [hp] at h
      cases h
  | (x :: xs) :: rs, h, r, hr => by
    rw [pick] at h
    cases hp : pick le rs with
    | none => rw [hp] at h; cases h
    | some q =>
      obtain ⟨pre, y, rest, post⟩ := q
      simp only [hp] at h
      by_cases hle : (!(le x y)) = true
      · rw [if_pos hle] at h
        cases h
      · rw [if_neg hle] at h
        cases h

theorem flatten_of_all_nil {α : Type} :
    ∀ {runs : List (List α)}, (∀ r ∈ runs, r = []) → runs.flatten = []
  | [], _ => rfl
  | r :: rs, h => by
    rw [List.flatten_cons, h r (by simp),
      flatten_of_all_nil (fun q hq => h q (by simp [hq]))]
    rfl

theorem kmerge_singleton {α : Type} (le : α → α → Bool) :
    ∀ r : List α, kmerge le [r] = r
  | [] => by
    apply kmerge_of_pick_none
    exact pick_none_of_all_nil le (by simp)
  | x :: xs => by
    have hp : pick le [x :: xs] = some ([], x, xs, []) := by
      rw [pick]
      rfl
    rw [kmerge_of_pick_some le _ _ _ _ _ hp]
    simp only [List.nil_append]
    rw [kmerge_singleton le xs]
  termination_by r => r.length

/-- `pick` only looks at non-empty runs: filtering the empty runs away gives
the same selection, with the bookkeeping components filtered likewise. -/
theorem pick_filter {α : Type} (le : α → α → Bool) :
    ∀ runs : List (List α),
      (pick le runs = none →
        pick le (runs.filter (fun r => !r.isEmpty)) = none) ∧
      (∀ pre x rest post, pick le runs = some (pre, x, rest, post) →
        pick le (runs.filter (fun r => !r.isEmpty))
          = some (pre.filter (fun r => !r.isEmpty), x, rest,
              post.filter (fun r => !r.isEmpty)))
  | [] => by
    constructor
    · intro _
      rfl
    · intro pre x rest post h
      simp [pick] at h
  | [] :: rs => by
    have ih := pick_filter le rs
    constructor
    · intro h
      rw [pick] at h
      cases hp : pick le rs with
      | none =>
        rw [List.filter_cons]
        simp only [List.isEmpty_nil, Bool.not_true, Bool.false_eq_true, if_false]
        exact ih.1 hp
      | some q =>
        obtain ⟨pre, x, rest, post⟩ := q
        rw [hp] at h
        cases h
    · intro pre x rest post h
      rw [pick] at h
      cases hp : pick le rs with
      | none => rw [hp] at h; cases h
      | some q =>
        obtain ⟨pre', x', rest', post'⟩ := q
        rw [hp] at h
        injection h with h
        injection h with h1 h
        injection h with h2 h
        injection h with h3 h4
        subst h2 h3 h4
        rw [List.filter_cons]
        simp only [List.isEmpty_nil, Bool.not_true, Bool.false_eq_true, if_false]
        rw [ih.2 pre' x' rest' post' hp, ← h1]
        rw [List.filter_cons]
        simp
  | (x0 :: xs) :: rs => by
    have ih := pick_filter le rs
    constructor
    · intro h
      rw [pick] at h
      cases hp : pick le rs with
      | none => simp only [hp] at h; cases h
      | some q =>
        obtain ⟨pre', y', rest', post'⟩ := q
        simp only [hp] at h
        by_cases hle : (!(le x0 y')) = true
        · rw [if_pos hle] at h
          cases h
        · rw [if_neg hle] at h
          cases h
    · intro pre x rest post h
      rw [pick] at h
      have hfc : ((x0 :: xs) :: rs).filter (fun r => !r.isEmpty)
          = (x0 :: xs) :: rs.filter (fun r => !r.isEmpty) := by
        rw [List.filter_cons]
        simp
      cases hp : pick le rs with
      | none =>
        simp only [hp] at h
        injection h with h
        injection h with h1 h
        injection h with h2 h
        injection h with h3 h4
        subst h2 h3 h4
        rw [hfc, pick, ih.1 hp, ← h1]
        simp
      | some q =>
        obtain ⟨pre', y', rest', post'⟩ := q
        simp only [hp] at h
        by_cases hle : (!(le x0 y')) = true
        · rw [if_pos hle] at h
          injection h with h
          injection h with h1 h
          injection h with h2 h
          injection h with h3 h4
          subst h2 h3 h4
          rw [hfc, pick, ih.2 pre' y' rest' post' hp]
          simp only [if_pos hle, ← h1, List.filter_cons]
          simp
        · rw [if_neg hle] at h
          injection h with h
          injection h with h1 h
          injection h with h2 h
          injection h with h3 h4
          subst h2 h3 h4
          rw [hfc, pick, ih.2 pre' y' rest' post' hp]
          simp only [if_neg hle, ← h1]
          simp

theorem sumLens_filter_le {α : Type} (p : List α → Bool) :
    ∀ l : List (List α), sumLens (l.filter p) ≤ sumLens l
  | [] => le_refl _
  | r :: rs => by
    rw [List.filter_cons]
    by_cases hp : p r
    · rw [if_pos hp]
      have := sumLens_filter_le p rs
      simp only [sumLens, List.map_cons, List.sum_cons] at this ⊢
      omega
    · rw [if_neg hp]
      have := sumLens_filter_le p rs
      simp only [sumLens, List.map_cons, List.sum_cons] at this ⊢
      omega

/-- `kmerge` ignores empty runs entirely. -/
theorem kmerge_filter {α : Type} (le : α → α → Bool) :
    ∀ runs : List (List α),
      kmerge le runs = kmerge le (runs.filter (fun r => !r.isEmpty))
  | runs => by
    have hidem : ∀ l : List (List α),
        (l.filter (fun r => !r.isEmpty)).filter (fun r => !r.isEmpty)
          = l.filter (fun r => !r.isEmpty) := by
      intro l
      rw [List.filter_filter]
      simp
    cases hp : pick le runs with
    | none =>
      rw [kmerge_of_pick_none le runs hp,
        kmerge_of_pick_none le _ ((pick_filter le runs).1 hp)]
    | some q =>
      obtain ⟨pre, x, rest, post⟩ := q
      have hpf := (pick_filter le runs).2 pre x rest post hp
      rw [kmerge_of_pick_some le runs pre post x rest hp,
        kmerge_of_pick_some le _ _ _ x rest hpf]
      have h1 := kmerge_filter le (pre ++ rest :: post)
      have h2 := kmerge_filter le
        (pre.filter (fun r => !r.isEmpty)
          ++ rest :: post.filter (fun r => !r.isEmpty))
      rw [h1, h2]
      congr 2
      rw [List.filter_append, List.filter_append, hidem, List.filter_cons,
        List.filter_cons, hidem]
  termination_by runs => sumLens runs
  decreasing_by
  · have := pick_eq le hp
    subst this
    simp only [sumLens, List.map_append, List.map_cons, List.sum_append,
      List.sum_cons, List.length_cons]
    omega
  · have := pick_eq le hp
    subst this
    have ha := sumLens_filter_le (fun r : List α => !r.isEmpty) pre
    have hb := sumLens_filter_le (fun r : List α => !r.isEmpty) post
    simp only [sumLens, List.map_append, List.map_cons, List.sum_append,
      List.sum_cons, List.length_cons] at ha hb ⊢
    omega

theorem kmerge_mid_nil {α : Type} (le : α → α → Bool) (A B : List (List α)) :
    kmerge le (A ++ [] :: B) = kmerge le (A ++ B) := by
  rw [kmerge_filter le (A ++ [] :: B), kmerge_filter le (A ++ B)]
  congr 1
  rw [List.filter_append, List.filter_append, List.filter_cons]
  simp

theorem ttBatch_kmerge {α : Type} (le : α → α → Bool) :
    ∀ (n : Nat) (runs : List (List α)) (out : List α),
      (ttBatch le n runs out).2 ++ kmerge le (ttBatch le n runs out).1
        = out ++ kmerge le runs
  | 0, runs, out => rfl
  | n + 1, runs, out => by
    rw [ttBatch, ttBatch_kmerge le n _ _]
    unfold ttStep
    cases hp : pick le runs with
    | none => rfl
    | some q =>
      obtain ⟨pre, x, rest, post⟩ := q
      rw [kmerge_of_pick_some le runs pre post x rest hp]
      simp

theorem ttMerge_base {α : Type} (le : α → α → Bool) (runs : List (List α))
    (out : List α) (h : runs.length ≤ 1) :
    ttMerge le runs out = out ++ runs.flatten := by
  rw [ttMerge.eq_def, dif_pos h]

theorem ttMerge_erase {α : Type} (le : α → α → Bool) (runs : List (List α))
    (out : List α) (i : Nat) (h : ¬ runs.length ≤ 1)
    (hfe : firstEmpty runs = some i) :
    ttMerge le runs out = ttMerge le (runs.eraseIdx i) out := by
  rw [ttMerge.eq_def, dif_neg h]
  split
  · rename_i heq
    rw [hfe] at heq
    injection heq with heq
    subst heq
    rfl
  · rename_i heq
    rw [hfe] at heq
    cases heq

theorem ttMerge_batch {α : Type} (le : α → α → Bool) (runs : List (List α))
    (out : List α) (h : ¬ runs.length ≤ 1) (hfe : firstEmpty runs = none) :
    ttMerge le runs out
      = ttMerge le (ttBatch le (minLen runs) runs out).1
          (ttBatch le (minLen runs) runs out).2 := by
  rw [ttMerge.eq_def, dif_neg h]
  split
  · rename_i heq
    rw [hfe] at heq
    cases heq
  · rfl

theorem minLen_pos {α : Type} {runs : List (List α)}
    (hne : ∀ r ∈ runs, r ≠ []) : 1 ≤ minLen runs := by
  unfold minLen
  rcases Nat.eq_zero_or_pos (runs.foldl (fun m r => min m r.length)
      (2 ^ 64 - 1)) with hz | hp
  · exfalso
    have hgen : ∀ (l : List (List α)) (acc : Nat),
        l.foldl (fun m r => min m r.length) acc = 0 →
        acc = 0 ∨ ∃ r ∈ l, r.length = 0 := by
      intro l
      induction l with
      | nil => intro acc hacc; exact Or.inl hacc
      | cons q qs ih =>
        intro acc hacc
        rcases ih _ hacc with hmin0 | ⟨r, hr, hr0⟩
        · rcases Nat.min_eq_zero_iff.mp hmin0 with h | h
          · exact Or.inl h
          · exact Or.inr ⟨q, by simp, h⟩
        · exact Or.inr ⟨r, by simp [hr], hr0⟩
    rcases hgen runs _ hz with hacc | ⟨r, hr, hr0⟩
    · simp at hacc
    · exact hne r hr (List.length_eq_zero.mp hr0)
  · exact hp

theorem sumLens_pos {α : Type} {runs : List (List α)} (hrne : runs ≠ [])
    (hne : ∀ r ∈ runs, r ≠ []) : sumLens runs ≠ 0 := by
  rcases runs with _ | ⟨r, rs⟩
  · exact absurd rfl hrne
  · have := hne r (by simp)
    rcases r with _ | ⟨a, t⟩
    · exact absurd rfl this
    · simp [sumLens]

/-- The batched/rotating loop of `tournament_tree_merge` computes the
abstract selection merge. -/
theorem ttMerge_eq_kmerge {α : Type} (le : α → α → Bool) :
    ∀ (runs : List (List α)) (out : List α),
      ttMerge le runs out = out ++ kmerge le runs
  | runs, out => by
    by_cases h1 : runs.length ≤ 1
    · rw [ttMerge_base le runs out h1]
      congr 1
      rcases runs with _ | ⟨r, _ | _⟩
      · rw [kmerge_of_pick_none le [] rfl]
        rfl
      · rw [kmerge_singleton]
        simp
      · simp at h1
    · cases hfe : firstEmpty runs with
      | some i =>
        rw [ttMerge_erase le runs out i h1 hfe]
        obtain ⟨A, B, hAB, hlen⟩ := firstEmpty_decomp hfe
        subst hAB
        rw [← hlen, eraseIdx_append_nil A B,
          ttMerge_eq_kmerge le (A ++ B) out, kmerge_mid_nil le A B]
      | none =>
        rw [ttMerge_batch le runs out h1 hfe,
          ttMerge_eq_kmerge le _ _,
          ttBatch_kmerge le (minLen runs) runs out]
  termination_by runs out => (sumLens runs, runs.length)
  decreasing_by
  · apply Prod.Lex.left
    have hne : ∀ r ∈ runs, r ≠ [] := firstEmpty_none hfe
    have hrne : runs ≠ [] := by
      intro hnil
      rw [hnil] at h1
      simp at h1
    exact ttBatch_sum_lt le (minLen runs) runs out (minLen_pos hne)
      (sumLens_pos hrne hne)
  · rw [hAB]
    have hsum : sumLens (A ++ B) = sumLens (A ++ [] :: B) := by
      simp [sumLens]
    rw [hsum]
    apply Prod.Lex.right
    simp only [List.length_append, List.length_cons]
    omega

/- ### Correctness of the abstract selection merge -/

/-- The selected element is a global minimum of all runs. -/
theorem pick_min {α : Type} {le : α → α → Bool} (h : LawfulCmp le) :
    ∀ {runs pre post : List (List α)} {x : α} {rest : List α},
      (∀ r ∈ runs, SortedLe le r) →
      pick le runs = some (pre, x, rest, post) →
      ∀ y ∈ runs.flatten, le x y = true
  | [], pre, post, x, rest, hs, hp, y, hy => by simp [pick] at hp
  | [] :: rs, pre, post, x, rest, hs, hp, y, hy => by
    rw [pick] at hp
    cases hq : pick le rs with
    | none => rw [hq] at hp; cases hp
    | some q =>
      obtain ⟨pre', x', rest', post'⟩ := q
      simp only [hq] at hp
      injection hp with hp
      injection hp with h1 hp
      injection hp with h2 hp
      injection hp with h3 h4
      subst h2 h3 h4
      simp only [List.flatten_cons, List.nil_append] at hy
      exact pick_min h (fun r hr => hs r (by simp [hr])) hq y hy
  | (x0 :: xs) :: rs, pre, post, x, rest, hs, hp, y, hy => by
    rw [pick] at hp
    have hs0 : SortedLe le (x0 :: xs) := hs _ (by simp)
    have hx0 : ∀ z ∈ x0 :: xs, le x0 z = true := by
      intro z hz
      rcases List.mem_cons.mp hz with rfl | hz
      · exact h.refl z
      · exact (List.pairwise_cons.mp hs0).1 z hz
    cases hq : pick le rs with
    | none =>
      rw [hq] at hp
      injection hp with hp
      injection hp with h1 hp
      injection hp with h2 hp
      injection hp with h3 h4
      subst h2 h3 h4
      have hfrs : rs.flatten = [] := flatten_of_all_nil (pick_none_imp le hq)
      simp only [List.flatten_cons, hfrs, List.append_nil] at hy
      exact hx0 y hy
    | some q =>
      obtain ⟨pre', y', rest', post'⟩ := q
      simp only [hq] at hp
      have ihy' : ∀ z ∈ rs.flatten, le y' z = true :=
        pick_min h (fun r hr => hs r (by simp [hr])) hq
      by_cases hle : (!(le x0 y')) = true
      · rw [if_pos hle] at hp
        injection hp with hp
        injection hp with h1 hp
        injection hp with h2 hp
        injection hp with h3 h4
        subst h2 h3 h4
        have hyx0 : le y' x0 = true :=
          h.le_of_not_le (fun hcon => by rw [hcon] at hle; simp at hle)
        simp only [List.flatten_cons] at hy
        rcases List.mem_append.mp hy with hy | hy
        · exact h.trans y' x0 y hyx0 (hx0 y hy)
        · exact ihy' y hy
      · rw [if_neg hle] at hp
        injection hp with hp
        injection hp with h1 hp
        injection hp with h2 hp
        injection hp with h3 h4
        subst h2 h3 h4
        have hx0y' : le x0 y' = true := by
          cases hv : le x0 y'
          · rw [hv] at hle
            simp at hle
          · rfl
        simp only [List.flatten_cons] at hy
        rcases List.mem_append.mp hy with hy | hy
        · exact hx0 y hy
        · exact h.trans x0 y' y hx0y' (ihy' y hy)

/-- Every passed-over run's head compares strictly greater than the selected
element: ties go to the lower run index. -/
theorem pick_pre_heads {α : Type} (le : α → α → Bool) :
    ∀ {runs pre post : List (List α)} {x : α} {rest : List α},
      pick le runs = some (pre, x, rest, post) →
      ∀ r ∈ pre, ∀ h0 hs0, r = h0 :: hs0 → le h0 x = false
  | [], pre, post, x, rest, hp, r, hr, h0, hs0, hr0 => by simp [pick] at hp
  | [] :: rs, pre, post, x, rest, hp, r, hr, h0, hs0, hr0 => by
    rw [pick] at hp
    cases hq : pick le rs with
    | none => rw [hq] at hp; cases hp
    | some q =>
      obtain ⟨pre', x', rest', post'⟩ := q
      simp only [hq] at hp
      injection hp with hp
      injection hp with h1 hp
      injection hp with h2 hp
      injection hp with h3 h4
      subst h2 h3 h4
      rw [← h1] at hr
      rcases List.mem_cons.mp hr with rfl | hr
      · cases hr0
      · exact pick_pre_heads le hq r hr h0 hs0 hr0
  | (x0 :: xs) :: rs, pre, post, x, rest, hp, r, hr, h0, hs0, hr0 => by
    rw [pick] at hp
    cases hq : pick le rs with
    | none =>
      rw [hq] at hp
      injection hp with hp
      injection hp with h1 hp
      injection hp with h2 hp
      injection hp with h3 h4
      subst h2 h3 h4
      rw [← h1] at hr
      simp at hr
    | some q =>
      obtain ⟨pre', y', rest', post'⟩ := q
      simp only [hq] at hp
      by_cases hle : (!(le x0 y')) = true
      · rw [if_pos hle] at hp
        injection hp with hp
        injection hp with h1 hp
        injection hp with h2 hp
        injection hp with h3 h4
        subst h2 h3 h4
        rw [← h1] at hr
        rcases List.mem_cons.mp hr with rfl | hr
        · injection hr0 with he1 he2
          subst he1
          simpa using hle
        · exact pick_pre_heads le hq r hr h0 hs0 hr0
      · rw [if_neg hle] at hp
        injection hp with hp
        injection hp with h1 hp
        injection hp with h2 hp
        injection hp with h3 h4
        subst h2 h3 h4
        rw [← h1] at hr
        simp at hr

theorem pick_popped_sorted {α : Type} {le : α → α → Bool}
    {runs pre post : List (List α)} {x : α} {rest : List α}
    (hs : ∀ r ∈ runs, SortedLe le r)
    (hp : pick le runs = some (pre, x, rest, post)) :
    ∀ r ∈ pre ++ rest :: post, SortedLe le r := by
  have heq := pick_eq le hp
  subst heq
  intro r hr
  rcases List.mem_append.mp hr with hr | hr
  · exact hs r (List.mem_append.mpr (Or.inl hr))
  · rcases List.mem_cons.mp hr with rfl | hr
    · exact SortedLe.tail (hs (x :: r) (by simp))
    · exact hs r (by simp [hr])

theorem kmerge_perm {α : Type} (le : α → α → Bool) :
    ∀ runs : List (List α), (kmerge le runs).Perm runs.flatten
  | runs => by
    cases hp : pick le runs with
    | none =>
      rw [kmerge_of_pick_none le runs hp,
        flatten_of_all_nil (pick_none_imp le hp)]
    | some q =>
      obtain ⟨pre, x, rest, post⟩ := q
      rw [kmerge_of_pick_some le runs pre post x rest hp]
      have heq := pick_eq le hp
      show (x :: kmerge le (pre ++ rest :: post)).Perm runs.flatten
      rw [heq]
      refine ((kmerge_perm le (pre ++ rest :: post)).cons x).trans ?_
      rw [List.flatten_append, List.flatten_append, List.flatten_cons,
        List.flatten_cons]
      exact List.perm_middle.symm
  termination_by runs => sumLens runs
  decreasing_by
    have h3 : sumLens (pre ++ rest :: post) < sumLens (pre ++ (x :: rest) :: post) := by
      simp only [sumLens, List.map_append, List.map_cons, List.sum_append,
        List.sum_cons, List.length_cons]
      omega
    exact lt_of_lt_of_le h3 (le_of_eq (congrArg sumLens (pick_eq le hp).symm))

theorem kmerge_sorted {α : Type} {le : α → α → Bool} (h : LawfulCmp le) :
    ∀ runs : List (List α), (∀ r ∈ runs, SortedLe le r) →
      SortedLe le (kmerge le runs)
  | runs, hs => by
    cases hp : pick le runs with
    | none =>
      rw [kmerge_of_pick_none le runs hp]
      exact List.Pairwise.nil
    | some q =>
      obtain ⟨pre, x, rest, post⟩ := q
      rw [kmerge_of_pick_some le runs pre post x rest hp]
      have hpop := pick_popped_sorted hs hp
      refine List.pairwise_cons.mpr ⟨?_, kmerge_sorted h (pre ++ rest :: post) hpop⟩
      intro z hz
      have hz' : z ∈ (pre ++ rest :: post).flatten :=
        (kmerge_perm le _).mem_iff.mp hz
      have hzr : z ∈ runs.flatten := by
        have heq := pick_eq le hp
        rw [heq]
        obtain ⟨r, hr, hzr⟩ := List.mem_flatten.mp hz'
        refine List.mem_flatten.mpr ?_
        rcases List.mem_append.mp hr with hr | hr
        · exact ⟨r, List.mem_append.mpr (Or.inl hr), hzr⟩
        · rcases List.mem_cons.mp hr with rfl | hr
          · exact ⟨x :: r, by simp, by simp [hzr]⟩
          · exact ⟨r, by simp [hr], hzr⟩
      exact pick_min h hs hp z hzr
  termination_by runs _ => sumLens runs
  decreasing_by
    have h3 : sumLens (pre ++ rest :: post) < sumLens (pre ++ (x :: rest) :: post) := by
      simp only [sumLens, List.map_append, List.map_cons, List.sum_append,
        List.sum_cons, List.length_cons]
      omega
    exact lt_of_lt_of_le h3 (le_of_eq (congrArg sumLens (pick_eq le hp).symm))

/-- Stability of the k-way merge: each tie class appears run by run, in run
order. -/
theorem kmerge_filter_tie {α : Type} {le : α → α → Bool} (h : LawfulCmp le)
    (a : α) :
    ∀ runs : List (List α), (∀ r ∈ runs, SortedLe le r) →
      (kmerge le runs).filter (fun b => le a b && le b a)
        = (runs.map (List.filter (fun b => le a b && le b a))).flatten
  | runs, hs => by
    cases hp : pick le runs with
    | none =>
      rw [kmerge_of_pick_none le runs hp, List.filter_nil]
      symm
      apply flatten_of_all_nil
      intro r' hr'
      obtain ⟨r, hr, hrr⟩ := List.mem_map.mp hr'
      rw [← hrr, pick_none_imp le hp r hr]
      rfl
    | some q =>
      obtain ⟨pre, x, rest, post⟩ := q
      show (kmerge le runs).filter (fun b => le a b && le b a)
        = (runs.map (List.filter (fun b => le a b && le b a))).flatten
      rw [kmerge_of_pick_some le runs pre post x rest hp]
      have heq := pick_eq le hp
      have hpop := pick_popped_sorted hs hp
      have ih := kmerge_filter_tie h a (pre ++ rest :: post) hpop
      rw [List.filter_cons, ih, heq]
      rw [List.map_append, List.map_cons, List.flatten_append,
        List.flatten_cons, List.map_append, List.map_cons,
        List.flatten_append, List.flatten_cons, List.filter_cons]
      by_cases hcx : (le a x && le x a) = true
      · rw [if_pos hcx, if_pos hcx]
        have hpreflat :
            (pre.map (List.filter (fun b => le a b && le b a))).flatten = [] := by
          apply flatten_of_all_nil
          intro r' hr'
          obtain ⟨r, hr, hrr⟩ := List.mem_map.mp hr'
          rw [← hrr, List.filter_eq_nil_iff]
          intro b hb hcb
          rcases hrof : r with _ | ⟨h0, hs0⟩
          · rw [hrof] at hb
            simp at hb
          · have hh0x : le h0 x = false := pick_pre_heads le hp r hr h0 hs0 hrof
            have hh0b : le h0 b = true := by
              rw [hrof] at hb
              rcases List.mem_cons.mp hb with rfl | hb
              · exact h.refl b
              · have hsr : SortedLe le r := hs r
                  (by rw [heq]; exact List.mem_append.mpr (Or.inl hr))
                rw [hrof] at hsr
                exact (List.pairwise_cons.mp hsr).1 b hb
            simp only [Bool.and_eq_true] at hcb hcx
            have hcon : le h0 x = true :=
              h.trans h0 b x hh0b (h.trans b a x hcb.2 hcx.1)
            rw [hh0x] at hcon
            cases hcon
        rw [hpreflat]
        simp
      · rw [if_neg hcx, if_neg hcx]
  termination_by runs _ => sumLens runs
  decreasing_by
    have h3 : sumLens (pre ++ rest :: post) < sumLens (pre ++ (x :: rest) :: post) := by
      simp only [sumLens, List.map_append, List.map_cons, List.sum_append,
        List.sum_cons, List.length_cons]
      omega
    exact lt_of_lt_of_le h3 (le_of_eq (congrArg sumLens (pick_eq le hp).symm))

theorem makeRuns_nil_nil {α : Type} :
    ∀ K : Nat, ∀ r ∈ makeRuns K ([] : List α) [], r = []
  | 0, r, hr => by simp [makeRuns] at hr
  | K + 1, r, hr => by
    rw [makeRuns] at hr
    rcases List.mem_cons.mp hr with rfl | hr
    · rfl
    · exact makeRuns_nil_nil K r hr

/-- With fewer given lengths than `K`, the constructed runs cover the whole
slice. -/
theorem makeRuns_flatten {α : Type} :
    ∀ (K : Nat) (slice : List α) (lens : List Nat), lens.length < K →
      (makeRuns K slice lens).flatten = slice
  | 0, slice, lens, h => by simp at h
  | K + 1, slice, [], _ => by
    rw [makeRuns, List.flatten_cons, flatten_of_all_nil (makeRuns_nil_nil K)]
    simp
  | K + 1, slice, len :: lens, h => by
    rw [makeRuns, List.flatten_cons,
      makeRuns_flatten K (slice.drop len) lens (by simp at h ⊢; omega)]
    exact List.take_append_drop len slice

theorem sumLens_eq_flatten_length {α : Type} :
    ∀ runs : List (List α), sumLens runs = runs.flatten.length
  | [] => rfl
  | r :: rs => by
    rw [List.flatten_cons]
    simp only [sumLens, List.map_cons, List.sum_cons, List.length_append]
    have := sumLens_eq_flatten_length rs
    simp only [sumLens] at this
    omega

/-- C2: under the documented contracts — both halves around `split_point`
sorted for the two-way engines, all constructed runs sorted for the k-way
engine, and a buffer at least as large as the slice — `CopyBoth::merge`,
`Galloping::merge` and `TournamentTree::merge` all hit no assertion and leave
the slice sorted and a permutation of its original contents.  Each engine's
conclusion assumes only its own contract: the two-way conclusions assume a
sorted two-way split, the k-way conclusion assumes only that the up-to-K
constructed runs are each sorted. -/
theorem C2_merge_engines {α : Type} (le : α → α → Bool) (h : LawfulCmp le)
    (slice : List α) (split_point buffer_len MG K : Nat)
    (run_lengths : List Nat)
    (hslice : slice ≠ [])
    (hbuf : slice.length ≤ buffer_len) :
    (split_point < slice.length →
     SortedLe le (slice.take split_point) →
     SortedLe le (slice.drop split_point) →
      (∃ m, CopyBoth.merge le slice split_point buffer_len = some m ∧
          SortedLe le m ∧ m.Perm slice) ∧
      (∃ m, Galloping_merge le MG slice split_point buffer_len = some m ∧
          SortedLe le m ∧ m.Perm slice)) ∧
    (run_lengths.length < K → run_lengths.sum ≤ slice.length →
     (∀ r ∈ makeRuns K slice run_lengths, SortedLe le r) →
      ∃ m, TournamentTree.merge le K slice run_lengths buffer_len = some m ∧
        SortedLe le m ∧ m.Perm slice) := by
  constructor
  · intro hsp hsl hsr
    have hmr_sorted : SortedLe le
        (merge_runs le (slice.take split_point) (slice.drop split_point)) :=
      merge_runs_sorted h _ _ hsl hsr
    have hmr_perm :
        (merge_runs le (slice.take split_point)
          (slice.drop split_point)).Perm slice := by
      refine (merge_runs_perm le _ _).trans ?_
      rw [List.take_append_drop]
    refine ⟨⟨merge_runs le (slice.take split_point)
        (slice.drop split_point), ?_, hmr_sorted, hmr_perm⟩,
      ⟨merge_runs le (slice.take split_point) (slice.drop split_point),
        ?_, hmr_sorted, hmr_perm⟩⟩
    · unfold CopyBoth.merge
      rw [if_neg (by simpa [List.isEmpty_iff] using hslice),
        if_neg (by omega), if_neg (by omega)]
    · exact Galloping_merge_eq h MG slice split_point buffer_len hsp hbuf
        hsl hsr
  · intro hK hsum hruns
    refine ⟨kmerge le (makeRuns K slice run_lengths), ?_,
      kmerge_sorted h _ hruns,
      (kmerge_perm le _).trans
        (by rw [makeRuns_flatten K slice run_lengths hK])⟩
    unfold TournamentTree.merge
    rw [if_neg (by simpa [List.isEmpty_iff] using hslice),
      if_neg (by omega), if_neg (by omega)]
    rw [ttMerge_eq_kmerge le _ []]
    rw [sumLens_eq_flatten_length, makeRuns_flatten K slice run_lengths hK,
      List.drop_length]
    simp

/-- C4: every merge engine is stable.  For each tie class (the elements
comparing equivalent to a fixed `a`), the two-way engines emit the left run's
members before the right run's, and the k-way engine emits each run's members
in run-index order; moreover the k-way selection itself breaks head ties
toward the lower run index (a passed-over run's head is strictly greater
than the winner).  Each engine's conclusion assumes only its own
contract. -/
theorem C4_merge_stability {α : Type} (le : α → α → Bool) (h : LawfulCmp le)
    (slice : List α) (split_point buffer_len MG K : Nat)
    (run_lengths : List Nat) (a : α)
    (hslice : slice ≠ [])
    (hbuf : slice.length ≤ buffer_len) :
    (split_point < slice.length →
     SortedLe le (slice.take split_point) →
     SortedLe le (slice.drop split_point) →
      (∀ m, CopyBoth.merge le slice split_point buffer_len = some m →
        m.filter (fun b => le a b && le b a)
          = (slice.take split_point).filter (fun b => le a b && le b a)
            ++ (slice.drop split_point).filter
                (fun b => le a b && le b a)) ∧
      (∀ m, Galloping_merge le MG slice split_point buffer_len = some m →
        m.filter (fun b => le a b && le b a)
          = (slice.take split_point).filter (fun b => le a b && le b a)
            ++ (slice.drop split_point).filter
                (fun b => le a b && le b a))) ∧
    (run_lengths.length < K → run_lengths.sum ≤ slice.length →
     (∀ r ∈ makeRuns K slice run_lengths, SortedLe le r) →
      ∀ m, TournamentTree.merge le K slice run_lengths buffer_len = some m →
        m.filter (fun b => le a b && le b a)
          = ((makeRuns K slice run_lengths).map
              (List.filter (fun b => le a b && le b a))).flatten) ∧
    (∀ (runs pre post : List (List α)) (x : α) (rest : List α),
      pick le runs = some (pre, x, rest, post) →
      ∀ r ∈ pre, ∀ h0 t, r = h0 :: t → le h0 x = false) := by
  refine ⟨?_, ?_, fun runs pre post x rest hp => pick_pre_heads le hp⟩
  · intro hsp hsl hsr
    constructor
    · intro m hm
      unfold CopyBoth.merge at hm
      rw [if_neg (by simpa [List.isEmpty_iff] using hslice),
        if_neg (by omega), if_neg (by omega)] at hm
      injection hm with hm
      subst hm
      exact merge_runs_filter_tie h a _ _ hsl
    · intro m hm
      rw [Galloping_merge_eq h MG slice split_point buffer_len hsp hbuf hsl
        hsr] at hm
      injection hm with hm
      subst hm
      exact merge_runs_filter_tie h a _ _ hsl
  · intro hK hsum hruns m hm
    unfold TournamentTree.merge at hm
    rw [if_neg (by simpa [List.isEmpty_iff] using hslice),
      if_neg (by omega), if_neg (by omega), ttMerge_eq_kmerge le _ [],
      sumLens_eq_flatten_length, makeRuns_flatten K slice run_lengths hK,
      List.drop_length] at hm
    simp only [List.nil_append, List.append_nil] at hm
    injection hm with hm
    subst hm
    exact kmerge_filter_tie h a _ hruns

/-- Embedding of `DynamicTournamentTree::merge` (multi_way.rs lines 203-217):
the body ignores `run_lengths` and `buffer` entirely and calls `slice.sort()`,
Rust's stable standard-library sort by `Ord`; a stable comparison sort is
modelled by `List.mergeSort`. -/
def DynamicTournamentTree.merge {α : Type} (le : α → α → Bool) (K : Nat)
    (slice : List α) (run_lengths : List Nat) (buffer_len : Nat) : List α :=
  slice.mergeSort le

/-- C10: `DynamicTournamentTree::merge` is extensionally the standard
library's stable sort of the whole slice: it does not depend on `run_lengths`
or the buffer, and its result is sorted, a permutation of the input, and
stable (each tie class keeps its original order), with no sortedness
assumption on the ranges described by `run_lengths`. -/
theorem C10_dynamic_tournament_tree {α : Type} (le : α → α → Bool)
    (h : LawfulCmp le) (K K' : Nat) (slice : List α)
    (run_lengths run_lengths' : List Nat) (buffer_len buffer_len' : Nat)
    (a : α) :
    DynamicTournamentTree.merge le K slice run_lengths buffer_len
        = DynamicTournamentTree.merge le K' slice run_lengths' buffer_len' ∧
    DynamicTournamentTree.merge le K slice run_lengths buffer_len
        = slice.mergeSort le ∧
    SortedLe le (DynamicTournamentTree.merge le K slice run_lengths buffer_len) ∧
    (DynamicTournamentTree.merge le K slice run_lengths buffer_len).Perm slice ∧
    (DynamicTournamentTree.merge le K slice run_lengths
        buffer_len).filter (fun b => le a b && le b a)
      = slice.filter (fun b => le a b && le b a) := by
  refine ⟨rfl, rfl, ?_, ?_, ?_⟩
  · exact List.sorted_mergeSort h.trans h.total slice
  · exact List.mergeSort_perm slice le
  · set c : α → Bool := fun b => le a b && le b a with hc
    have hpw : (slice.filter c).Pairwise (fun u v => le u v = true) := by
      refine List.pairwise_of_forall_mem_list ?_
      intro u hu v hv
      have hu' := (List.mem_filter.mp hu).2
      have hv' := (List.mem_filter.mp hv).2
      rw [hc] at hu' hv'
      simp only [Bool.and_eq_true] at hu' hv'
      exact h.trans u a v hu'.2 hv'.1
    have hsub : List.Sublist (slice.filter c) (slice.mergeSort le) :=
      List.sublist_mergeSort h.trans h.total hpw (List.filter_sublist slice)
    have hsub2 : List.Sublist ((slice.filter c).filter c)
        ((slice.mergeSort le).filter c) :=
      List.Sublist.filter c hsub
    have hidem : (slice.filter c).filter c = slice.filter c := by
      rw [List.filter_filter]
      simp
    rw [hidem] at hsub2
    have hperm : ((slice.mergeSort le).filter c).Perm (slice.filter c) :=
      (List.mergeSort_perm slice le).filter c
    exact ((List.Sublist.eq_of_length hsub2 hperm.length_eq.symm)).symm

section NodePower

/-! ### Node-power calculators (powersort.rs, `mod node_power`, lines 393-530)

`PowerSort` instantiates `node_power::NodePowerMethod<2>` (K = 2 throughout).
A `Run` is a `std::ops::Range<usize>`; a node-power method receives the total
length `n` and two adjacent runs `run_a = sa..ea`, `run_b = sb..eb`.  `usize`
arithmetic is 64-bit and is modelled on `Nat` with an explicit `% U64`
wherever the source can overflow (release-profile wrapping semantics). -/

/-- `2^64`, the modulus of 64-bit `usize` arithmetic. -/
def U64 : Nat := 18446744073709551616

theorem U64_eq : U64 = 2 ^ 64 := by norm_num [U64]

/-- The exact node-power test at depth `p`: the integer parts of
`l2·2^p / n2` and `r2·2^p / n2` differ, i.e. the first `p` binary digits of
the fixed-point fractions `l2/n2` and `r2/n2` are not all equal. -/
def Dp (n2 l2 r2 p : Nat) : Prop := l2 * 2 ^ p / n2 ≠ r2 * 2 ^ p / n2

instance Dp_dec (n2 l2 r2 p : Nat) : Decidable (Dp n2 l2 r2 p) := by
  unfold Dp
  infer_instance

/-- `p` is the node power of the boundary between two runs with doubled
midpoints `l2 = sa + ea` and `r2 = sb + eb` in a sequence of length `n`: the
least depth `p ≥ 1` at which the two midpoints fall into different cells of
the balanced binary tree over `[0, n)` refined to depth `p`. -/
def IsNP (n l2 r2 p : Nat) : Prop :=
  1 ≤ p ∧ Dp (2 * n) l2 r2 p ∧ ∀ r, 1 ≤ r → r < p → ¬Dp (2 * n) l2 r2 r

theorem div_sep {a b n2 : Nat} (hn : 0 < n2) (h : a + n2 ≤ b) :
    a / n2 < b / n2 := by
  have h1 : (a + n2) / n2 ≤ b / n2 := Nat.div_le_div_right h
  rw [Nat.add_div_right a hn] at h1
  omega

theorem Dp_zero {n2 l2 r2 : Nat} (hl : l2 < n2) (hr : r2 < n2) :
    ¬Dp n2 l2 r2 0 := by
  simp [Dp, Nat.div_eq_of_lt, hl, hr]

theorem delta_lt_of_not_Dp {n2 l2 r2 q : Nat} (hn : 0 < n2)
    (h : ¬Dp n2 l2 r2 q) : (r2 - l2) * 2 ^ q < n2 := by
  simp only [Dp, not_not] at h
  rw [Nat.sub_mul]
  have hd := Nat.div_add_mod (r2 * 2 ^ q) n2
  have hm : r2 * 2 ^ q % n2 < n2 := Nat.mod_lt _ hn
  have h4 : n2 * (l2 * 2 ^ q / n2) ≤ l2 * 2 ^ q := by
    rw [Nat.mul_comm]
    exact Nat.div_mul_le_self _ _
  have h3 : r2 * 2 ^ q < l2 * 2 ^ q + n2 := by
    calc r2 * 2 ^ q = n2 * (r2 * 2 ^ q / n2) + r2 * 2 ^ q % n2 := hd.symm
      _ < n2 * (r2 * 2 ^ q / n2) + n2 := Nat.add_lt_add_left hm _
      _ = n2 * (l2 * 2 ^ q / n2) + n2 := by rw [h]
      _ ≤ l2 * 2 ^ q + n2 := Nat.add_le_add_right h4 _
  omega

theorem div_double {n2 : Nat} (hn : 0 < n2) (x q : Nat) :
    x * 2 ^ (q + 1) / n2
      = 2 * (x * 2 ^ q / n2) + 2 * (x * 2 ^ q % n2) / n2 := by
  have hd := Nat.div_add_mod (x * 2 ^ q) n2
  have h1 : x * 2 ^ (q + 1)
      = n2 * (2 * (x * 2 ^ q / n2)) + 2 * (x * 2 ^ q % n2) := by
    calc x * 2 ^ (q + 1) = 2 * (x * 2 ^ q) := by ring
      _ = n2 * (2 * (x * 2 ^ q / n2)) + 2 * (x * 2 ^ q % n2) := by
          conv_lhs => rw [← hd]
          ring
  rw [h1, Nat.mul_add_div hn]

theorem digit_le_one {n2 : Nat} (hn : 0 < n2) (x q : Nat) :
    2 * (x * 2 ^ q % n2) / n2 ≤ 1 := by
  have hm : x * 2 ^ q % n2 < n2 := Nat.mod_lt _ hn
  have : 2 * (x * 2 ^ q % n2) / n2 < 2 :=
    (Nat.div_lt_iff_lt_mul hn).mpr (by omega)
  omega

theorem Dp_succ_of_Dp {n2 l2 r2 q : Nat} (hn : 0 < n2) (hlr : l2 ≤ r2)
    (h : Dp n2 l2 r2 q) : Dp n2 l2 r2 (q + 1) := by
  have hle : l2 * 2 ^ q / n2 ≤ r2 * 2 ^ q / n2 :=
    Nat.div_le_div_right (Nat.mul_le_mul_right _ hlr)
  have hlt : l2 * 2 ^ q / n2 < r2 * 2 ^ q / n2 := lt_of_le_of_ne hle h
  have hdl := digit_le_one hn l2 q
  simp only [Dp]
  apply Nat.ne_of_lt
  rw [div_double hn l2 q, div_double hn r2 q]
  calc 2 * (l2 * 2 ^ q / n2) + 2 * (l2 * 2 ^ q % n2) / n2
      ≤ 2 * (l2 * 2 ^ q / n2) + 1 := Nat.add_le_add_left hdl _
    _ < 2 * (r2 * 2 ^ q / n2) := by omega
    _ ≤ 2 * (r2 * 2 ^ q / n2) + 2 * (r2 * 2 ^ q % n2) / n2 :=
        Nat.le_add_right _ _

theorem Dp_mono {n2 l2 r2 : Nat} (hn : 0 < n2) (hlr : l2 ≤ r2) {q q' : Nat}
    (hq : q ≤ q') (h : Dp n2 l2 r2 q) : Dp n2 l2 r2 q' := by
  induction q', hq using Nat.le_induction with
  | base => exact h
  | succ m hm ih => exact Dp_succ_of_Dp hn hlr ih

theorem IsNP_unique {n l2 r2 p p' : Nat} (h : IsNP n l2 r2 p)
    (h' : IsNP n l2 r2 p') : p = p' := by
  obtain ⟨h1, h2, h3⟩ := h
  obtain ⟨h1', h2', h3'⟩ := h'
  by_contra hne
  rcases Nat.lt_or_ge p p' with hlt | hge
  · exact h3' p h1 hlt h2
  · exact h3 p' h1' (by omega) h2'

theorem IsNP_exists {n l2 r2 : Nat} (hn : 0 < n) (hd : l2 + 2 ≤ r2)
    (hr : r2 < 2 * n) (hmax : n ≤ 2 ^ 63) :
    ∃ p, IsNP n l2 r2 p ∧ p ≤ 64 := by
  have hP : Dp (2 * n) l2 r2 64 := by
    have hsep : l2 * 2 ^ 64 + 2 * n ≤ r2 * 2 ^ 64 := by
      have h1 : (l2 + 2) * 2 ^ 64 ≤ r2 * 2 ^ 64 := Nat.mul_le_mul_right _ hd
      rw [Nat.add_mul] at h1
      have h2 : (2 : Nat) * n ≤ 2 * 2 ^ 63 := by omega
      norm_num at h1 h2 ⊢
      omega
    exact Nat.ne_of_lt (div_sep (by omega) hsep)
  have hex : ∃ q, 1 ≤ q ∧ Dp (2 * n) l2 r2 q := ⟨64, by omega, hP⟩
  have hfs := Nat.find_spec hex
  refine ⟨Nat.find hex, ⟨hfs.1, hfs.2, ?_⟩,
    Nat.find_min' hex ⟨by omega, hP⟩⟩
  intro r h1r hrp hDp
  exact Nat.find_min hex hrp ⟨h1r, hDp⟩

/-- The exact validity precondition shared by the node-power methods: two
nonempty adjacent runs `sa..ea`, `sb..eb` inside a sequence of length `n`. -/
def ValidRuns (n sa ea sb eb : Nat) : Prop :=
  sa < ea ∧ ea = sb ∧ sb < eb ∧ eb ≤ n

theorem ValidRuns.bounds {n sa ea sb eb : Nat} (h : ValidRuns n sa ea sb eb) :
    0 < n ∧ (sa + ea) + 2 ≤ sb + eb ∧ sb + eb < 2 * n := by
  obtain ⟨h1, h2, h3, h4⟩ := h
  omega

/-! #### `DivisionLoop` (powersort.rs lines 432-457)

Release-profile Rust: `b - a` is a wrapping subtraction and `a *= K`,
`b *= K` wrapping multiplications, modelled with explicit `% U64`.  The
unbounded `while` loop is given fuel; `none` models non-termination within
the fuel (never reached under the proved preconditions). -/

def dlGo (n2 : Nat) : Nat → Nat → Nat → Nat → Option Nat
  | 0, _, _, _ => none
  | fuel + 1, a, b, power =>
      if (b + (U64 - a)) % U64 ≤ n2 ∧ a / n2 = b / n2 then
        dlGo n2 fuel (a * 2 % U64) (b * 2 % U64) (power + 1)
      else some power

/-- `DivisionLoop::MAX_N = usize::MAX.isqrt()`. -/
def DivisionLoop_MAX_N : Nat := Nat.sqrt (U64 - 1)

/-- Embedding of `node_power::DivisionLoop::node_power` (K = 2): asserts
`n ≤ MAX_N` (`none` models the panic), sets `n2 = n * 2`,
`a = 2*start_a + len_a`, `b = 2*start_b + len_b`, then doubles and compares
bucket indices until the window test fails. -/
def DivisionLoop.node_power (n sa ea sb eb : Nat) : Option Nat :=
  if n ≤ DivisionLoop_MAX_N then
    dlGo (n * 2) 96 ((2 * sa + (ea - sa)) % U64) ((2 * sb + (eb - sb)) % U64) 0
  else none

theorem DivisionLoop_MAX_N_eq : DivisionLoop_MAX_N = 2 ^ 32 - 1 := by
  have h1 : 2 ^ 32 - 1 ≤ Nat.sqrt (U64 - 1) :=
    Nat.le_sqrt.mpr (by norm_num [U64])
  have h2 : Nat.sqrt (U64 - 1) < 2 ^ 32 :=
    Nat.sqrt_lt.mpr (by norm_num [U64])
  unfold DivisionLoop_MAX_N
  omega

theorem pow_le_n_bound {k n : Nat} (h : 2 ^ k ≤ n) (hn : n < 2 ^ 32) :
    2 ^ k ≤ 2 ^ 31 := by
  have hk : k < 32 := by
    by_contra hcon
    have : (2 : Nat) ^ 32 ≤ 2 ^ k := Nat.pow_le_pow_right (by norm_num) (by omega)
    omega
  exact Nat.pow_le_pow_right (by norm_num) (by omega)

theorem wrap_diff {L R : Nat} (hle : L ≤ R) (hRL : R - L < U64) :
    (R % U64 + (U64 - L % U64)) % U64 = R - L := by
  simp only [U64] at *
  omega

theorem wrap_diff_exact {L R : Nat} (hle : L ≤ R) (hR : R < U64) :
    (R + (U64 - L)) % U64 = R - L := by
  simp only [U64] at *
  omega

theorem dlGo_spec {n l2 r2 p : Nat} (hn : 0 < n) (hmax : n ≤ 2 ^ 32 - 1)
    (hd : l2 + 2 ≤ r2) (hr : r2 < 2 * n) (hp : IsNP n l2 r2 p) :
    ∀ fuel k, k ≤ p → p < k + fuel →
      dlGo (n * 2) fuel (l2 * 2 ^ k % U64) (r2 * 2 ^ k % U64) k = some p
  | 0, k, hk, hf => by omega
  | fuel + 1, k, hk, hf => by
    have hn2 : 0 < 2 * n := by omega
    have hlr : l2 ≤ r2 := by omega
    have h1p : 1 ≤ p := hp.1
    have hle : l2 * 2 ^ k ≤ r2 * 2 ^ k := Nat.mul_le_mul_right _ hlr
    have hsub : (r2 - l2) * 2 ^ k = r2 * 2 ^ k - l2 * 2 ^ k := Nat.sub_mul _ _ _
    have hndk : k < p → ¬Dp (2 * n) l2 r2 k := by
      intro hkp
      rcases Nat.eq_zero_or_pos k with h0 | h1
      · subst h0
        exact Dp_zero (by omega) hr
      · exact hp.2.2 k h1 hkp
    rcases Nat.eq_or_lt_of_le hk with heq | hlt
    · -- exit check: k = p, the condition must evaluate to false
      subst heq
      have hnd1 : ¬Dp (2 * n) l2 r2 (k - 1) := by
        rcases Nat.eq_or_lt_of_le h1p with h1 | h1
        · have hz : k - 1 = 0 := by omega
          rw [hz]
          exact Dp_zero (by omega) hr
        · exact hp.2.2 (k - 1) (by omega) (by omega)
      have hδ1 : (r2 - l2) * 2 ^ (k - 1) < 2 * n :=
        delta_lt_of_not_Dp hn2 hnd1
      have hps : (2 : Nat) ^ k = 2 ^ (k - 1) * 2 := by
        conv_lhs => rw [show k = (k - 1) + 1 by omega]
        rw [pow_succ]
      have hδ2 : r2 * 2 ^ k - l2 * 2 ^ k < 4 * n := by
        rw [← hsub, hps, ← Nat.mul_assoc]
        omega
      simp only [dlGo]
      by_cases hcase : r2 * 2 ^ k - l2 * 2 ^ k ≤ n * 2
      · -- no wrap: values are exact, floors differ by Dp p
        have h2p : 2 ^ k ≤ n := by
          have h1 : 2 * 2 ^ k ≤ (r2 - l2) * 2 ^ k :=
            Nat.mul_le_mul_right _ (by omega)
          omega
        have h2p31 : 2 ^ k ≤ 2 ^ 31 := pow_le_n_bound h2p (by omega)
        have hbound : r2 * 2 ^ k < U64 := by
          calc r2 * 2 ^ k ≤ (2 ^ 33 - 3) * 2 ^ 31 :=
                Nat.mul_le_mul (by omega) h2p31
            _ < U64 := by norm_num [U64]
        have hbl : l2 * 2 ^ k < U64 :=
          lt_of_le_of_lt hle hbound
        rw [Nat.mod_eq_of_lt hbound, Nat.mod_eq_of_lt hbl, if_neg]
        rintro ⟨-, hc2⟩
        rw [Nat.mul_comm n 2] at hc2
        exact hp.2.1 hc2
      · -- the difference test fails (the wrapped difference is exact here)
        rw [if_neg]
        rintro ⟨hc1, -⟩
        have hws : (r2 * 2 ^ k % U64 + (U64 - l2 * 2 ^ k % U64)) % U64
            = r2 * 2 ^ k - l2 * 2 ^ k :=
          wrap_diff hle (by simp only [U64]; omega)
        rw [hws] at hc1
        omega
    · -- k < p: the check passes and the loop advances
      have hnd := hndk hlt
      have hδk : (r2 - l2) * 2 ^ k < 2 * n := delta_lt_of_not_Dp hn2 hnd
      have h2p : 2 ^ k ≤ n := by
        have h1 : 2 * 2 ^ k ≤ (r2 - l2) * 2 ^ k :=
          Nat.mul_le_mul_right _ (by omega)
        omega
      have h2p31 : 2 ^ k ≤ 2 ^ 31 := pow_le_n_bound h2p (by omega)
      have hbound : r2 * 2 ^ k < U64 := by
        calc r2 * 2 ^ k ≤ (2 ^ 33 - 3) * 2 ^ 31 :=
              Nat.mul_le_mul (by omega) h2p31
          _ < U64 := by norm_num [U64]
      have hbl : l2 * 2 ^ k < U64 :=
        lt_of_le_of_lt hle hbound
      simp only [dlGo]
      rw [Nat.mod_eq_of_lt hbound, Nat.mod_eq_of_lt hbl, if_pos]
      · have hstepl : l2 * 2 ^ k * 2 % U64 = l2 * 2 ^ (k + 1) % U64 := by
          rw [pow_succ, Nat.mul_assoc]
        have hstepr : r2 * 2 ^ k * 2 % U64 = r2 * 2 ^ (k + 1) % U64 := by
          rw [pow_succ, Nat.mul_assoc]
        rw [hstepl, hstepr]
        exact dlGo_spec hn hmax hd hr hp fuel (k + 1) (by omega) (by omega)
      · constructor
        · rw [wrap_diff_exact hle hbound]
          omega
        · have heq : l2 * 2 ^ k / (2 * n) = r2 * 2 ^ k / (2 * n) := by
            by_contra hcon
            exact hnd hcon
          rw [Nat.mul_comm n 2]
          exact heq

theorem DivisionLoop_correct {n sa ea sb eb p : Nat}
    (hv : ValidRuns n sa ea sb eb) (hmax : n ≤ DivisionLoop_MAX_N)
    (hp : IsNP n (sa + ea) (sb + eb) p) :
    DivisionLoop.node_power n sa ea sb eb = some p := by
  obtain ⟨hn, hd, hr⟩ := hv.bounds
  obtain ⟨hsa, hea, hsb, heb⟩ := hv
  rw [DivisionLoop_MAX_N_eq] at hmax
  have hp64 : p ≤ 64 := by
    obtain ⟨p', hp', h64⟩ :=
      @IsNP_exists _ (sa + ea) (sb + eb) hn hd hr
        (by norm_num at hmax ⊢; omega)
    rw [IsNP_unique hp hp']
    exact h64
  unfold DivisionLoop.node_power
  rw [DivisionLoop_MAX_N_eq, if_pos hmax]
  have h1 : 2 * sa + (ea - sa) = sa + ea := by omega
  have h2 : 2 * sb + (eb - sb) = sb + eb := by omega
  rw [h1, h2]
  have := dlGo_spec hn hmax hd hr hp 96 0 (by omega) (by omega)
  simpa using this

/-! #### `BitwiseLoop` (powersort.rs lines 459-498)

With K = 2 the step factor `K.trailing_zeros()` is 1.  The loop keeps the
states `l2`, `r2` below `2n`, subtracting `n` from both when the common
digit is 1 and shifting left (a wrapping shift in release Rust, modelled
with `% U64`; it never wraps for `n ≤ MAX_N`). -/

def blGo (n : Nat) : Nat → Nat → Nat → Nat → Option Nat
  | 0, _, _, _ => none
  | fuel + 1, l2, r2, cb =>
      if decide (n ≤ l2) = decide (n ≤ r2) then
        blGo n fuel ((if n ≤ l2 then l2 - n else l2) * 2 % U64)
          ((if n ≤ l2 then r2 - n else r2) * 2 % U64) (cb + 1)
      else some cb

/-- `BitwiseLoop::MAX_N = 1 << (usize::BITS - 1)`. -/
def BitwiseLoop_MAX_N : Nat := 2 ^ (64 - 1)

/-- Embedding of `node_power::BitwiseLoop::node_power` (K = 2): asserts
`n ≤ MAX_N` (`none` models the panic), starts from `l2 = start_a + end_a`,
`r2 = start_b + end_b`, counts common leading digits, and returns
`common_bits / factor + 1` with `factor = 1`. -/
def BitwiseLoop.node_power (n sa ea sb eb : Nat) : Option Nat :=
  if n ≤ BitwiseLoop_MAX_N then
    (blGo n 96 (sa + ea) (sb + eb) 0).map (fun cb => cb / 1 + 1)
  else none

/-- The digit the bitwise loop reads off a state `x < 2n` is the next
quotient bit of the exact fixed-point expansion. -/
theorem digit_div {n : Nat} (hn : 0 < n) {x : Nat} (hx : x < 2 * n) :
    2 * x / (2 * n) = if n ≤ x then 1 else 0 := by
  have h2 : 2 * x / (2 * n) = x / n := Nat.mul_div_mul_left _ _ (by omega)
  rw [h2]
  split
  · exact Nat.div_eq_of_lt_le (by omega) (by omega)
  · exact Nat.div_eq_of_lt (by omega)

/-- One bitwise-loop state step equals the exact modular doubling. -/
theorem bl_step {n : Nat} (hn : 0 < n) (hmax : n ≤ 2 ^ 63) {x : Nat}
    (hx : x < 2 * n) :
    (if n ≤ x then x - n else x) * 2 % U64 = 2 * x % (2 * n) := by
  have hmod : (if n ≤ x then x - n else x) = x % n := by
    split
    · rename_i h
      rw [Nat.mod_eq_sub_mod h, Nat.mod_eq_of_lt (by omega)]
    · rename_i h
      rw [Nat.mod_eq_of_lt (by omega)]
  have hlt : x % n * 2 < U64 := by
    have := Nat.mod_lt x hn
    simp only [U64]
    omega
  rw [hmod, Nat.mod_eq_of_lt hlt, Nat.mul_comm (x % n) 2,
    Nat.mul_mod_mul_left 2 x n]

/-- Variant of `bl_step` for the right state, whose branch in the source is
taken on `digit_a` (the two digits agree whenever the branch runs). -/
theorem bl_step2 {n : Nat} (hn : 0 < n) (hmax : n ≤ 2 ^ 63) {x y : Nat}
    (hx : x < 2 * n) (hcond : (n ≤ x) ↔ (n ≤ y)) :
    (if n ≤ y then x - n else x) * 2 % U64 = 2 * x % (2 * n) := by
  have hii : (if n ≤ y then x - n else x) = (if n ≤ x then x - n else x) :=
    if_congr hcond.symm rfl rfl
  rw [hii]
  exact bl_step hn hmax hx

theorem blGo_spec {n l2 r2 p : Nat} (hn : 0 < n) (hmax : n ≤ 2 ^ 63)
    (hd : l2 + 2 ≤ r2) (hr : r2 < 2 * n) (hp : IsNP n l2 r2 p) :
    ∀ fuel k, k + 1 ≤ p → p ≤ k + fuel →
      blGo n fuel (l2 * 2 ^ k % (2 * n)) (r2 * 2 ^ k % (2 * n)) k
        = some (p - 1)
  | 0, k, hk, hf => by omega
  | fuel + 1, k, hk, hf => by
    have hn2 : 0 < 2 * n := by omega
    have hlr : l2 ≤ r2 := by omega
    have h1p : 1 ≤ p := hp.1
    have hxl : l2 * 2 ^ k % (2 * n) < 2 * n := Nat.mod_lt _ hn2
    have hxr : r2 * 2 ^ k % (2 * n) < 2 * n := Nat.mod_lt _ hn2
    have hndk : ¬Dp (2 * n) l2 r2 k := by
      rcases Nat.eq_zero_or_pos k with h0 | h1
      · subst h0
        exact Dp_zero (by omega) hr
      · exact hp.2.2 k h1 (by omega)
    have hQ : l2 * 2 ^ k / (2 * n) = r2 * 2 ^ k / (2 * n) := by
      by_contra hcon
      exact hndk hcon
    have hstep := div_double hn2 l2 k
    have hstepr := div_double hn2 r2 k
    have hdigl := digit_div hn hxl
    have hdigr := digit_div hn hxr
    -- the two digit expressions read by the loop
    have hdig_iff : (decide (n ≤ l2 * 2 ^ k % (2 * n))
          = decide (n ≤ r2 * 2 ^ k % (2 * n)))
        ↔ ¬Dp (2 * n) l2 r2 (k + 1) := by
      constructor
      · intro hde
        simp only [Dp, not_not]
        rw [hstep, hstepr, hQ, hdigl, hdigr]
        by_cases h1 : n ≤ l2 * 2 ^ k % (2 * n) <;>
          by_cases h2 : n ≤ r2 * 2 ^ k % (2 * n)
        · rw [if_pos h1, if_pos h2]
        · simp [h1, h2] at hde
        · simp [h1, h2] at hde
        · rw [if_neg h1, if_neg h2]
      · intro hnd
        simp only [Dp, not_not] at hnd
        rw [hstep, hstepr, hQ, hdigl, hdigr] at hnd
        by_cases h1 : n ≤ l2 * 2 ^ k % (2 * n) <;>
          by_cases h2 : n ≤ r2 * 2 ^ k % (2 * n)
        · simp [h1, h2]
        · rw [if_pos h1, if_neg h2] at hnd
          omega
        · rw [if_neg h1, if_pos h2] at hnd
          omega
        · simp [h1, h2]
    rcases Nat.eq_or_lt_of_le hk with heq | hlt
    · -- k + 1 = p: the digits differ and the loop stops with cb = k = p - 1
      simp only [blGo]
      rw [if_neg]
      · congr 1
        omega
      · intro hde
        exact (hdig_iff.mp hde) (by rw [heq]; exact hp.2.1)
    · -- k + 1 < p: the digits agree and the loop advances
      have hde := hdig_iff.mpr (fun hDp => hp.2.2 (k + 1) (by omega) hlt hDp)
      have hcond : (n ≤ r2 * 2 ^ k % (2 * n)) ↔ (n ≤ l2 * 2 ^ k % (2 * n)) := by
        constructor <;> intro hh <;> by_contra hcc <;> simp [hh, hcc] at hde
      simp only [blGo]
      rw [if_pos hde]
      have hsl := bl_step hn hmax hxl
      have hsr := bl_step2 hn hmax hxr hcond
      rw [hsl, hsr, Nat.mul_comm 2 (l2 * 2 ^ k % (2 * n)),
        Nat.mul_comm 2 (r2 * 2 ^ k % (2 * n)), Nat.mod_mul_mod,
        Nat.mod_mul_mod, Nat.mul_assoc, ← pow_succ, Nat.mul_assoc, ← pow_succ]
      exact blGo_spec hn hmax hd hr hp fuel (k + 1) (by omega) (by omega)

theorem BitwiseLoop_correct {n sa ea sb eb p : Nat}
    (hv : ValidRuns n sa ea sb eb) (hmax : n ≤ BitwiseLoop_MAX_N)
    (hp : IsNP n (sa + ea) (sb + eb) p) :
    BitwiseLoop.node_power n sa ea sb eb = some p := by
  obtain ⟨hn, hd, hr⟩ := hv.bounds
  have hmax' : n ≤ 2 ^ 63 := by
    simpa [BitwiseLoop_MAX_N] using hmax
  have hp64 : p ≤ 64 := by
    obtain ⟨p', hp', h64⟩ :=
      @IsNP_exists _ (sa + ea) (sb + eb) hn hd hr hmax'
    rw [IsNP_unique hp hp']
    exact h64
  unfold BitwiseLoop.node_power
  rw [if_pos hmax]
  have h1 : 1 ≤ p := hp.1
  have hstart := blGo_spec hn hmax' hd hr hp 96 0 (by omega) (by omega)
  simp only [pow_zero, Nat.mul_one, Nat.mod_eq_of_lt hr,
    Nat.mod_eq_of_lt (show sa + ea < 2 * n by omega)] at hstart
  rw [hstart]
  show some ((p - 1) / 1 + 1) = some p
  congr 1
  simp only [Nat.div_one]
  omega

/-! #### `MostSignificantSetBit` (powersort.rs lines 502-529)

`usize::BITS = 64`; with K = 2 the step factor is 1.  `x.leading_zeros()` is
`64 - bitlen x` where `bitlen` is the binary length, modelled structurally
(with fuel 64, exact for every `x < 2^64`).  The `u32`/`usize` subtractions
in the result expression are modelled with truncated `Nat` subtraction; in
the verified region `leading_zeros ≥ 33`, so no subtraction underflows. -/

def bitlen : Nat → Nat → Nat
  | 0, _ => 0
  | fuel + 1, x => if x = 0 then 0 else bitlen fuel (x / 2) + 1

theorem bitlen_le_iff :
    ∀ fuel x, x < 2 ^ fuel → ∀ m, (bitlen fuel x ≤ m ↔ x < 2 ^ m)
  | 0, x, hx, m => by
    simp only [bitlen]
    have hx0 : x = 0 := by
      simp only [pow_zero] at hx
      omega
    subst hx0
    constructor
    · intro h
      exact pow_pos (by omega : (0 : Nat) < 2) m
    · intro h
      exact Nat.zero_le m
  | fuel + 1, x, hx, m => by
    simp only [bitlen]
    by_cases h0 : x = 0
    · subst h0
      simp
    · rw [if_neg h0]
      have hx2 : x / 2 < 2 ^ fuel := by
        rw [Nat.div_lt_iff_lt_mul (by omega)]
        rw [pow_succ] at hx
        omega
      match m with
      | 0 =>
        simp only [pow_zero]
        constructor
        · intro hcon
          omega
        · intro hcon
          omega
      | Nat.succ m =>
        have ih := bitlen_le_iff fuel (x / 2) hx2 m
        constructor
        · intro hle
          have h1 : x / 2 < 2 ^ m := ih.mp (by omega)
          rw [pow_succ]
          omega
        · intro hlt
          have h1 : x / 2 < 2 ^ m := by
            rw [Nat.div_lt_iff_lt_mul (by omega)]
            rw [pow_succ] at hlt
            omega
          have := ih.mpr h1
          omega

theorem bitlen_pos {fuel x : Nat} (hx : 0 < x) (hfx : x < 2 ^ fuel) :
    1 ≤ bitlen fuel x := by
  by_contra hcon
  have h0 : bitlen fuel x ≤ 0 := by omega
  have := (bitlen_le_iff fuel x hfx 0).mp h0
  simp only [pow_zero] at this
  omega

/-- `u64::leading_zeros`, for arguments below `2^64`. -/
def leading_zeros (x : Nat) : Nat := 64 - bitlen 64 x

theorem xor_div_two (x y : Nat) : (x ^^^ y) / 2 = x / 2 ^^^ y / 2 := by
  apply Nat.eq_of_testBit_eq
  intro i
  simp [Nat.testBit_div_two, Nat.testBit_xor]

theorem xor_lt_two_pow_iff :
    ∀ (m x y : Nat), x ^^^ y < 2 ^ m ↔ x / 2 ^ m = y / 2 ^ m
  | 0, x, y => by
    simp only [pow_zero, Nat.lt_one_iff, Nat.div_one]
    exact Nat.xor_eq_zero
  | m + 1, x, y => by
    have ih := xor_lt_two_pow_iff m (x / 2) (y / 2)
    have h1 : x ^^^ y < 2 ^ (m + 1) ↔ (x ^^^ y) / 2 < 2 ^ m := by
      rw [Nat.div_lt_iff_lt_mul (by omega), pow_succ]
    rw [h1, xor_div_two, ih, Nat.div_div_eq_div_mul, Nat.div_div_eq_div_mul,
      ← pow_succ']

/-- Quotients after a right shift by `m` agree iff the binary length of the
xor is at most `m` (arguments below `2^64`, where `bitlen 64` is exact). -/
theorem div_pow_eq_iff_bitlen {x y : Nat} (hx : x < 2 ^ 64) (hy : y < 2 ^ 64)
    (m : Nat) : x / 2 ^ m = y / 2 ^ m ↔ bitlen 64 (x ^^^ y) ≤ m := by
  have hxor : x ^^^ y < 2 ^ 64 := Nat.xor_lt_two_pow hx hy
  rw [bitlen_le_iff 64 _ hxor m]
  exact (xor_lt_two_pow_iff m x y).symm

/-- Collapsing the node-power quotient at depth `q ≤ 31` onto the 31-bit
fixed-point approximation `l2 * 2^30 / n`. -/
theorem div_collapse {n : Nat} (hn : 0 < n) (l2 : Nat) {q : Nat}
    (hq : q ≤ 31) :
    l2 * 2 ^ q / (2 * n) = l2 * 2 ^ 30 / n / 2 ^ (31 - q) := by
  rw [Nat.div_div_eq_div_mul]
  have h1 : l2 * 2 ^ q / (2 * n)
      = l2 * 2 ^ q * 2 ^ (31 - q) / (2 * n * 2 ^ (31 - q)) :=
    (Nat.mul_div_mul_right _ _ (pow_pos (by omega : (0 : Nat) < 2) _)).symm
  have h2 : l2 * 2 ^ q * 2 ^ (31 - q) = 2 * (l2 * 2 ^ 30) := by
    rw [Nat.mul_assoc, ← pow_add]
    have hqe : q + (31 - q) = 31 := by omega
    rw [hqe]
    ring
  have h3 : 2 * n * 2 ^ (31 - q) = 2 * (n * 2 ^ (31 - q)) := by ring
  rw [h1, h2, h3, Nat.mul_div_mul_left _ _ (by omega : 0 < 2)]

/-- `MostSignificantSetBit::MAX_N = 1 << (usize::BITS / 2 - 1)`. -/
def MostSignificantSetBit_MAX_N : Nat := 2 ^ (64 / 2 - 1)

/-- `HALF_MASK = usize::MAX >> (usize::BITS / 2)` (a right shift is division
by the corresponding power of two). -/
def HALF_MASK : Nat := (U64 - 1) / 2 ^ (64 / 2)

/-- Embedding of `node_power::MostSignificantSetBit::node_power` (K = 2):
asserts `n ≤ MAX_N` (`none` models the panic), computes the 32-bit
fixed-point quotients `a`, `b` and derives the power from the leading-zero
count of `a ^^^ b`. -/
def MostSignificantSetBit.node_power (n sa ea sb eb : Nat) : Option Nat :=
  if n ≤ MostSignificantSetBit_MAX_N then
    some ((leading_zeros (((sa + ea) * 2 ^ 30 % U64 / n) &&& HALF_MASK
        ^^^ ((sb + eb) * 2 ^ 30 % U64 / n) &&& HALF_MASK) - 64 / 2 - 1) / 1
      + 1)
  else none

theorem HALF_MASK_eq : HALF_MASK = 2 ^ 32 - 1 := by norm_num [HALF_MASK, U64]

theorem MostSignificantSetBit_correct {n sa ea sb eb p : Nat}
    (hv : ValidRuns n sa ea sb eb)
    (hmax : n ≤ MostSignificantSetBit_MAX_N)
    (hp : IsNP n (sa + ea) (sb + eb) p) :
    MostSignificantSetBit.node_power n sa ea sb eb = some p := by
  obtain ⟨hn, hd, hr⟩ := hv.bounds
  have hmax' : n ≤ 2 ^ 31 := by
    simpa [MostSignificantSetBit_MAX_N] using hmax
  set l2 := sa + ea with hl2
  set r2 := sb + eb with hr2
  have hnum_l : l2 * 2 ^ 30 < U64 := by
    have h1 : l2 * 2 ^ 30 ≤ 2 ^ 32 * 2 ^ 30 :=
      Nat.mul_le_mul_right _ (by omega)
    simp only [U64]
    norm_num at h1 ⊢
    omega
  have hnum_r : r2 * 2 ^ 30 < U64 := by
    have h1 : r2 * 2 ^ 30 ≤ 2 ^ 32 * 2 ^ 30 :=
      Nat.mul_le_mul_right _ (by omega)
    simp only [U64]
    norm_num at h1 ⊢
    omega
  have hA31 : l2 * 2 ^ 30 / n < 2 ^ 31 := by
    rw [Nat.div_lt_iff_lt_mul hn]
    calc l2 * 2 ^ 30 < 2 * n * 2 ^ 30 :=
          mul_lt_mul_of_pos_right (by omega) (by norm_num)
      _ = 2 ^ 31 * n := by ring
  have hB31 : r2 * 2 ^ 30 / n < 2 ^ 31 := by
    rw [Nat.div_lt_iff_lt_mul hn]
    calc r2 * 2 ^ 30 < 2 * n * 2 ^ 30 :=
          mul_lt_mul_of_pos_right hr (by norm_num)
      _ = 2 ^ 31 * n := by ring
  have hAB : l2 * 2 ^ 30 / n < r2 * 2 ^ 30 / n := by
    apply div_sep hn
    have h1 : (l2 + 2) * 2 ^ 30 ≤ r2 * 2 ^ 30 := Nat.mul_le_mul_right _ hd
    rw [Nat.add_mul] at h1
    have h2 : n ≤ 2 * 2 ^ 30 := by norm_num; omega
    omega
  set A := l2 * 2 ^ 30 / n with hAdef
  set B := r2 * 2 ^ 30 / n with hBdef
  have hA64 : A < 2 ^ 64 := lt_trans hA31 (by norm_num)
  have hB64 : B < 2 ^ 64 := lt_trans hB31 (by norm_num)
  set hb := bitlen 64 (A ^^^ B) with hhb
  have hxorlt : A ^^^ B < 2 ^ 31 := Nat.xor_lt_two_pow hA31 hB31
  have hb31 : hb ≤ 31 :=
    (bitlen_le_iff 64 (A ^^^ B) (lt_trans hxorlt (by norm_num)) 31).mpr hxorlt
  have hxorpos : 0 < A ^^^ B :=
    Nat.pos_of_ne_zero (fun h0 => absurd (Nat.xor_eq_zero.mp h0) (by omega))
  have hb1 : 1 ≤ hb := bitlen_pos hxorpos (Nat.xor_lt_two_pow hA64 hB64)
  -- the exact node power is 32 - hb
  have hNP : IsNP n l2 r2 (32 - hb) := by
    refine ⟨by omega, ?_, ?_⟩
    · simp only [Dp]
      rw [div_collapse hn l2 (by omega), div_collapse hn r2 (by omega)]
      have h1 : 31 - (32 - hb) = hb - 1 := by omega
      rw [h1]
      intro hcon
      have := (div_pow_eq_iff_bitlen hA64 hB64 (hb - 1)).mp hcon
      omega
    · intro r h1r hrlt hDp
      have hcol : l2 * 2 ^ r / (2 * n) = r2 * 2 ^ r / (2 * n) := by
        rw [div_collapse hn l2 (by omega), div_collapse hn r2 (by omega)]
        exact (div_pow_eq_iff_bitlen hA64 hB64 (31 - r)).mpr (by omega)
      exact hDp hcol
  have hpeq : p = 32 - hb := IsNP_unique hp hNP
  unfold MostSignificantSetBit.node_power
  rw [if_pos hmax]
  have hmask_l : (l2 * 2 ^ 30 % U64 / n) &&& HALF_MASK = A := by
    rw [Nat.mod_eq_of_lt hnum_l, HALF_MASK_eq,
      Nat.and_pow_two_sub_one_eq_mod, Nat.mod_eq_of_lt (lt_trans hA31 (by norm_num))]
  have hmask_r : (r2 * 2 ^ 30 % U64 / n) &&& HALF_MASK = B := by
    rw [Nat.mod_eq_of_lt hnum_r, HALF_MASK_eq,
      Nat.and_pow_two_sub_one_eq_mod, Nat.mod_eq_of_lt (lt_trans hB31 (by norm_num))]
  rw [hmask_l, hmask_r]
  congr 1
  unfold leading_zeros
  rw [← hhb]
  simp only [Nat.div_one]
  omega

/-! #### `Trivial` (powersort.rs lines 404-430)

The source computes `a = (run_a.start as f64 + run_a.len() as f64 / 2.0) / n`
in IEEE-754 binary64 and loops comparing `(a * k_to_p).floor()` against
`(b * k_to_p).floor()` with `k_to_p = 2.0.powi(power)`.  For the magnitudes
reached in the claims (below `2^52`) the numerator `start + len/2` is exact
in binary64 and scaling by a power of two and `floor` are exact, so the
single rounding is the division, modelled exactly by `flDiv` (round to
nearest, ties to even).  The source's unbounded `loop` receives fuel;
`none` models non-termination within it. -/

def flK (a b : Nat) : Nat → Nat → Nat
  | 0, k => k
  | fuel + 1, k => if b ≤ a * 2 ^ k then k else flK a b fuel (k + 1)

/-- IEEE-754 binary64 rounding of `a / b` for `0 < a < b`: the result
`(m, sh)` denotes the value `m / 2^sh`, with normalized mantissa
`2^52 ≤ m ≤ 2^53`, rounded to nearest with ties to even. -/
def flDiv (a b : Nat) : Nat × Nat :=
  let k := flK a b 96 0
  let q := a * 2 ^ (52 + k) / b
  let r := a * 2 ^ (52 + k) % b
  let m :=
    if b < 2 * r then q + 1
    else if 2 * r < b then q
    else if q % 2 = 1 then q + 1 else q
  (m, 52 + k)

/-- `floor(x * 2^p)` for the binary64 value `x = m / 2^sh` (exact in
binary64: scaling by `2^p` shifts the exponent and `floor` is exact). -/
def flFloorScale (m sh p : Nat) : Nat := m * 2 ^ p / 2 ^ sh

def trivGo (ma sha mb shb : Nat) : Nat → Nat → Option Nat
  | 0, _ => none
  | fuel + 1, p =>
      if flFloorScale ma sha p < flFloorScale mb shb p then some p
      else trivGo ma sha mb shb fuel (p + 1)

/-- `Trivial::MAX_N = usize::MAX`. -/
def Trivial_MAX_N : Nat := U64 - 1

/-- Embedding of `node_power::Trivial::node_power` (K = 2): asserts
`n ≤ MAX_N` and runs the floating-point floor-comparison loop on the
binary64 roundings of the two midpoint fractions. -/
def Trivial.node_power (n sa ea sb eb : Nat) : Option Nat :=
  if n ≤ Trivial_MAX_N then
    trivGo (flDiv (2 * sa + (ea - sa)) (2 * n)).1
      (flDiv (2 * sa + (ea - sa)) (2 * n)).2
      (flDiv (2 * sb + (eb - sb)) (2 * n)).1
      (flDiv (2 * sb + (eb - sb)) (2 * n)).2 96 1
  else none

/-- C3 (corrected): within the weakest implementation's valid range
(`n ≤ MostSignificantSetBit::MAX_N = 2^31`), the three integer node-power
implementations (`DivisionLoop`, `BitwiseLoop`, `MostSignificantSetBit`)
agree at every valid pair of adjacent runs, and their common value is the
unique exact node power `IsNP` — the depth, at least 1, at which the runs'
midpoint fractions first fall into different cells of the balanced binary
tree.  The claim's fourth implementation, the floating-point `Trivial`, is
not exact: it deviates from the other three at some valid inputs in this
range (see `C3_node_power_counterexample`), so the cross-consistency claim
holds for the three integer implementations but not for all four. -/
theorem C3_node_power {n sa ea sb eb : Nat} (hv : ValidRuns n sa ea sb eb)
    (hmax : n ≤ MostSignificantSetBit_MAX_N) :
    ∃ p, IsNP n (sa + ea) (sb + eb) p ∧
      DivisionLoop.node_power n sa ea sb eb = some p ∧
      BitwiseLoop.node_power n sa ea sb eb = some p ∧
      MostSignificantSetBit.node_power n sa ea sb eb = some p := by
  obtain ⟨hn, hd, hr⟩ := hv.bounds
  have hmax31 : n ≤ 2 ^ 31 := by
    simpa [MostSignificantSetBit_MAX_N] using hmax
  obtain ⟨p, hp, h64⟩ :=
    @IsNP_exists _ (sa + ea) (sb + eb) hn hd hr (by omega)
  refine ⟨p, hp, ?_, ?_, ?_⟩
  · exact DivisionLoop_correct hv (by rw [DivisionLoop_MAX_N_eq]; omega) hp
  · exact BitwiseLoop_correct hv
      (by simp only [BitwiseLoop_MAX_N]; omega) hp
  · exact MostSignificantSetBit_correct hv hmax hp

/-- C3 counterexample: at `n = 1232296477` with the valid adjacent singleton
runs `[780076833, 780076834)` and `[780076834, 780076835)` — well inside the
weakest valid range `n ≤ 2^31` — the floating-point `Trivial` implementation
returns 26 while the three integer implementations return 31: the binary64
rounding of `r2/(2n)` lands exactly on a 26-bit boundary, so the
floating-point floor test breaks 5 levels too early. -/
theorem C3_node_power_counterexample :
    Trivial.node_power 1232296477 780076833 780076834 780076834 780076835
        = some 26 ∧
    DivisionLoop.node_power 1232296477 780076833 780076834 780076834
        780076835 = some 31 ∧
    BitwiseLoop.node_power 1232296477 780076833 780076834 780076834
        780076835 = some 31 ∧
    MostSignificantSetBit.node_power 1232296477 780076833 780076834
        780076834 780076835 = some 31 ∧
    ValidRuns 1232296477 780076833 780076834 780076834 780076835 ∧
    (1232296477 : Nat) ≤ MostSignificantSetBit_MAX_N ∧ (26 : Nat) ≠ 31 := by
  refine ⟨?_, ?_, ?_, ?_, ?_, ?_, by decide⟩
  · decide
  · unfold DivisionLoop.node_power
    rw [if_pos (by rw [DivisionLoop_MAX_N_eq]; norm_num)]
    decide
  · decide
  · decide
  · unfold ValidRuns
    omega
  · norm_num [MostSignificantSetBit_MAX_N]

/-- C9 (corrected): the declared validity ranges.
`DivisionLoop::MAX_N = usize::MAX.isqrt() = 2^32 - 1`, matching the spec's
"roughly `sqrt(usize::MAX)`", and the implementation accepts and answers
exactly on every valid input up to it — even where its wrapping doublings
overflow, every check reached past an overflow fails its difference test,
so the wrap never changes the result.  `BitwiseLoop::MAX_N = 2^63`, half of
the full integer range `2^64`, with exact agreement up to it.
`MostSignificantSetBit::MAX_N = 2^31`, which is NOT a quarter of the full
integer range (`2^62`) nor `2^16` (a quarter of the 64-bit width): the
spec's stated bound for the fastest method does not equal its MAX_N under
either reading, and valid inputs with `2^31 < n ≤ 2^62` are rejected by its
assertion (see `C9_node_power_ranges_counterexample`); within its actual
`MAX_N` it agrees exactly. -/
theorem C9_node_power_ranges {n sa ea sb eb : Nat}
    (hv : ValidRuns n sa ea sb eb) :
    DivisionLoop_MAX_N = 2 ^ 32 - 1 ∧
    BitwiseLoop_MAX_N = U64 / 2 ∧
    MostSignificantSetBit_MAX_N = 2 ^ 31 ∧
    (n ≤ DivisionLoop_MAX_N →
      ∃ p, IsNP n (sa + ea) (sb + eb) p ∧
        DivisionLoop.node_power n sa ea sb eb = some p) ∧
    (n ≤ BitwiseLoop_MAX_N →
      ∃ p, IsNP n (sa + ea) (sb + eb) p ∧
        BitwiseLoop.node_power n sa ea sb eb = some p) ∧
    (n ≤ MostSignificantSetBit_MAX_N →
      ∃ p, IsNP n (sa + ea) (sb + eb) p ∧
        MostSignificantSetBit.node_power n sa ea sb eb = some p) := by
  obtain ⟨hn, hd, hr⟩ := hv.bounds
  refine ⟨DivisionLoop_MAX_N_eq, by norm_num [BitwiseLoop_MAX_N, U64],
    by norm_num [MostSignificantSetBit_MAX_N], ?_, ?_, ?_⟩
  · intro hmax
    rw [DivisionLoop_MAX_N_eq] at hmax
    obtain ⟨p, hp, h64⟩ :=
      @IsNP_exists _ (sa + ea) (sb + eb) hn hd hr (by omega)
    exact ⟨p, hp, DivisionLoop_correct hv (by rw [DivisionLoop_MAX_N_eq]; omega) hp⟩
  · intro hmax
    have hmax' : n ≤ 2 ^ 63 := by
      simpa [BitwiseLoop_MAX_N] using hmax
    obtain ⟨p, hp, h64⟩ :=
      @IsNP_exists _ (sa + ea) (sb + eb) hn hd hr hmax'
    exact ⟨p, hp, BitwiseLoop_correct hv hmax hp⟩
  · intro hmax
    have hmax' : n ≤ 2 ^ 31 := by
      simpa [MostSignificantSetBit_MAX_N] using hmax
    obtain ⟨p, hp, h64⟩ :=
      @IsNP_exists _ (sa + ea) (sb + eb) hn hd hr (by omega)
    exact ⟨p, hp, MostSignificantSetBit_correct hv hmax hp⟩

/-- C9 counterexample: `MostSignificantSetBit::MAX_N = 2^31` equals neither
a quarter of the full integer range (`2^64 / 4 = 2^62`) nor two to a quarter
of the integer width (`2^16`), and the valid input with `n = 2^31 + 1` —
inside the claimed quarter-of-range bound — is rejected (the source's
assertion fails, modelled by `none`). -/
theorem C9_node_power_ranges_counterexample :
    MostSignificantSetBit_MAX_N ≠ U64 / 4 ∧
    MostSignificantSetBit_MAX_N ≠ 2 ^ (64 / 4) ∧
    ValidRuns (2 ^ 31 + 1) 0 (2 ^ 31) (2 ^ 31) (2 ^ 31 + 1) ∧
    (2 ^ 31 + 1 : Nat) ≤ U64 / 4 ∧
    MostSignificantSetBit.node_power (2 ^ 31 + 1) 0 (2 ^ 31) (2 ^ 31)
        (2 ^ 31 + 1) = none := by
  refine ⟨by norm_num [MostSignificantSetBit_MAX_N, U64],
    by norm_num [MostSignificantSetBit_MAX_N],
    by unfold ValidRuns; omega, by norm_num [U64], ?_⟩
  unfold MostSignificantSetBit.node_power
  rw [if_neg (by norm_num [MostSignificantSetBit_MAX_N])]

/-- Witness for C3 at the spec's own example: `n = 17`,
`run_a = [0, 5)`, `run_b = [5, 9)`. -/
theorem C3_node_power_witness :
    ∃ p, IsNP 17 (0 + 5) (5 + 9) p ∧
      DivisionLoop.node_power 17 0 5 5 9 = some p ∧
      BitwiseLoop.node_power 17 0 5 5 9 = some p ∧
      MostSignificantSetBit.node_power 17 0 5 5 9 = some p :=
  C3_node_power (by unfold ValidRuns; omega)
    (by norm_num [MostSignificantSetBit_MAX_N])

/-- Witness for C9 at a concrete valid input: `n = 40`,
`run_a = [3, 20)`, `run_b = [20, 33)`. -/
theorem C9_node_power_ranges_witness :
    DivisionLoop_MAX_N = 2 ^ 32 - 1 ∧
    BitwiseLoop_MAX_N = U64 / 2 ∧
    MostSignificantSetBit_MAX_N = 2 ^ 31 ∧
    ((40 : Nat) ≤ DivisionLoop_MAX_N →
      ∃ p, IsNP 40 (3 + 20) (20 + 33) p ∧
        DivisionLoop.node_power 40 3 20 20 33 = some p) ∧
    ((40 : Nat) ≤ BitwiseLoop_MAX_N →
      ∃ p, IsNP 40 (3 + 20) (20 + 33) p ∧
        BitwiseLoop.node_power 40 3 20 20 33 = some p) ∧
    ((40 : Nat) ≤ MostSignificantSetBit_MAX_N →
      ∃ p, IsNP 40 (3 + 20) (20 + 33) p ∧
        MostSignificantSetBit.node_power 40 3 20 20 33 = some p) :=
  C9_node_power_ranges (by unfold ValidRuns; omega)

end NodePower

section Scheduler

/-! ### The powersort scheduler (powersort.rs lines 91-120 and 321-355)

`Run = std::ops::Range<usize>` is modelled as the pair `(start, end)`.
`Stack` — the default run stack (`USE_POWER_INDEXED_STACK = false`) — is a
boxed slice of `Option<Run>` indexed by power, together with the current
top power `self.1`. -/

structure PSStack where
  slots : List (Option (Nat × Nat))
  top : Nat
  deriving DecidableEq

/-- `Stack::pop_runs` (powersort.rs lines 343-355) yields
`(power..=top_power).rev().filter_map(|i| self.0[i].take() ...)`: the
occupied entries with index between `power` and `top_power`, top down. -/
def popRuns (slots : List (Option (Nat × Nat))) (power top : Nat) :
    List (Nat × (Nat × Nat)) :=
  ((List.range (top + 1 - power)).map (fun j => top - j)).filterMap
    (fun i => (slots.getD i none).map (fun r => (i, r)))

/-- The slots after `pop_runs` has been drained: every index the iterator
visited (the range `power..=top_power`) has been `take`n to `None`. -/
def clearRuns (slots : List (Option (Nat × Nat))) (power top : Nat) :
    List (Option (Nat × Nat)) :=
  (List.range slots.length).map
    (fun i => if power ≤ i ∧ i ≤ top then none else slots.getD i none)

/-- The scheduler's pop-merge loop (powersort.rs lines 105-111): each popped
run left-extends the held accumulator (`run_a.start = run.start`); the slice
merge performed alongside is modelled by the merge engines and does not move
run boundaries. -/
def mergeLoop (run_a : Nat × Nat) (popped : List (Nat × (Nat × Nat))) :
    Nat × Nat :=
  popped.foldl (fun acc pr => (pr.2.1, acc.2)) run_a

/-- `Stack::push` (powersort.rs lines 334-341) with its three assertions;
`none` models an assertion failure. -/
def stackPush (s : PSStack) (run : Nat × Nat) (power : Nat) :
    Option PSStack :=
  if s.top ≤ power ∧ power < s.slots.length ∧ s.slots.getD power none = none
  then some ⟨s.slots.set power (some run), power⟩
  else none

/-- One iteration of the powersort scheduler body (powersort.rs lines
103-116) on discovering `run_b` while holding `run_a`, given the computed
`node_power`: assert adjacency (`run_a.end == run_b.start`) and
`node_power != stack.top_power()`; if `node_power < top_power`, pop every
entry with recorded power `>= node_power` top-down, merging each into the
left-growing accumulator (`pop_runs` also resets the top power); push the
accumulator with `node_power`; the newly discovered `run_b` becomes the held
run.  `none` models a failed assertion. -/
def schedStep (s : PSStack) (run_a run_b : Nat × Nat) (node_power : Nat) :
    Option (PSStack × (Nat × Nat)) :=
  if run_a.2 = run_b.1 ∧ node_power ≠ s.top then
    if node_power < s.top then
      (stackPush ⟨clearRuns s.slots node_power s.top, node_power⟩
          (mergeLoop run_a (popRuns s.slots node_power s.top))
          node_power).map (fun s2 => (s2, run_b))
    else
      (stackPush s run_a node_power).map (fun s2 => (s2, run_b))
  else none

theorem clearRuns_length (slots : List (Option (Nat × Nat)))
    (power top : Nat) : (clearRuns slots power top).length = slots.length := by
  simp [clearRuns]

theorem clearRuns_getD (slots : List (Option (Nat × Nat))) (power top i : Nat)
    (hi : i < slots.length) :
    (clearRuns slots power top).getD i none
      = if power ≤ i ∧ i ≤ top then none else slots.getD i none := by
  unfold clearRuns
  rw [List.getD_eq_getElem?_getD, List.getElem?_map,
    List.getElem?_range hi]
  simp

theorem popRuns_mem (slots : List (Option (Nat × Nat))) (power top i : Nat)
    (r : Nat × Nat) :
    ((i, r) ∈ popRuns slots power top)
      ↔ (power ≤ i ∧ i ≤ top ∧ slots.getD i none = some r) := by
  unfold popRuns
  simp only [List.mem_filterMap, List.mem_map, List.mem_range,
    Option.map_eq_some', Prod.mk.injEq]
  constructor
  · rintro ⟨a, ⟨b, hb, rfl⟩, v, hv, rfl, rfl⟩
    exact ⟨by omega, by omega, hv⟩
  · rintro ⟨h1, h2, h3⟩
    exact ⟨i, ⟨top - i, by omega, by omega⟩, r, h3, rfl, rfl⟩

theorem mergeLoop_snd :
    ∀ (l : List (Nat × (Nat × Nat))) (a : Nat × Nat), (mergeLoop a l).2 = a.2
  | [], a => rfl
  | x :: t, a => by
    unfold mergeLoop
    simp only [List.foldl_cons]
    exact mergeLoop_snd t _

/-- C6 (corrected): when the powersort scheduler discovers run B while
holding run A and the computed `power` is strictly below the current top
power, it pops every stack entry whose recorded power is `>= power`, from
the top down (`popRuns` returns exactly the occupied slots with index
between `power` and the top power, in descending order), merges each into a
left-growing accumulator whose right end stays `run_a.end`, and then pushes
the ACCUMULATOR with `power` recorded as the new top power; after the push,
the recorded power is the unique maximum over the occupied slots.  Contrary
to the claim's wording, run B is NOT pushed in this step: it becomes the
newly held run and is only pushed by a later iteration (see
`C6_scheduler_counterexample`). -/
theorem C6_scheduler {s : PSStack} {run_a run_b : Nat × Nat} {np : Nat}
    (hwf : ∀ i, s.top < i → s.slots.getD i none = none)
    (hcap : s.top < s.slots.length)
    (hlt : np < s.top)
    (hadj : run_a.2 = run_b.1) :
    schedStep s run_a run_b np
        = some (⟨(clearRuns s.slots np s.top).set np
            (some (mergeLoop run_a (popRuns s.slots np s.top))), np⟩,
          run_b) ∧
    (∀ i r, (i, r) ∈ popRuns s.slots np s.top
      ↔ np ≤ i ∧ i ≤ s.top ∧ s.slots.getD i none = some r) ∧
    (mergeLoop run_a (popRuns s.slots np s.top)).2 = run_a.2 ∧
    ((clearRuns s.slots np s.top).set np
        (some (mergeLoop run_a (popRuns s.slots np s.top)))).getD np none
      = some (mergeLoop run_a (popRuns s.slots np s.top)) ∧
    (∀ i, i ≠ np →
      ((clearRuns s.slots np s.top).set np
          (some (mergeLoop run_a (popRuns s.slots np s.top)))).getD i none
        ≠ none → i < np) := by
  have hnplen : np < s.slots.length := by omega
  have hcl : (clearRuns s.slots np s.top).length = s.slots.length :=
    clearRuns_length _ _ _
  have hclnp : (clearRuns s.slots np s.top).getD np none = none := by
    rw [clearRuns_getD _ _ _ _ hnplen, if_pos ⟨le_refl np, by omega⟩]
  have hset : ((clearRuns s.slots np s.top).set np
      (some (mergeLoop run_a (popRuns s.slots np s.top)))).getD np none
      = some (mergeLoop run_a (popRuns s.slots np s.top)) := by
    rw [List.getD_eq_getElem?_getD, List.getElem?_set_self (by omega)]
    rfl
  refine ⟨?_, fun i r => popRuns_mem s.slots np s.top i r,
    mergeLoop_snd _ _, hset, ?_⟩
  · unfold schedStep
    rw [if_pos ⟨hadj, by omega⟩, if_pos hlt]
    unfold stackPush
    rw [if_pos ⟨le_refl np, by rw [hcl]; omega, hclnp⟩]
    rfl
  · intro i hne hocc
    by_contra hcon
    have hige : np < i := by omega
    rw [List.getD_eq_getElem?_getD] at hocc
    rcases Nat.lt_or_ge i s.slots.length with hilen | hilen
    · rw [List.getElem?_set_ne (by omega), ← List.getD_eq_getElem?_getD,
        clearRuns_getD _ _ _ _ hilen] at hocc
      rcases Nat.lt_or_ge s.top i with hit | hit
      · rw [if_neg (by omega)] at hocc
        exact hocc (hwf i hit)
      · exact hocc (if_pos ⟨by omega, hit⟩)
    · rw [List.getElem?_eq_none (by rw [List.length_set, hcl]; omega)] at hocc
      exact hocc rfl

/-- C6 counterexample: a concrete scheduler step refuting the claim's
"pushes B with power recorded as the new top power".  Stack holding runs
`[0,4)` at power 2 and `[4,8)` at power 3, held run A = `[8,10)`, newly
discovered B = `[10,12)`, computed power 1: the step pops both entries,
pushes the accumulator `[0,10)` at power 1, and holds B — the resulting
stack does not contain B anywhere. -/
theorem C6_scheduler_counterexample :
    schedStep ⟨[none, none, some (0, 4), some (4, 8)], 3⟩ (8, 10) (10, 12) 1
      = some (⟨[none, some (0, 10), none, none], 1⟩, (10, 12)) ∧
    (∀ i, (([none, some (0, 10), none, none] :
        List (Option (Nat × Nat))).getD i none) ≠ some (10, 12)) ∧
    (0, 10) ≠ (10, 12) := by
  refine ⟨by decide, ?_, by decide⟩
  intro i
  match i with
  | 0 => decide
  | 1 => decide
  | 2 => decide
  | 3 => decide
  | (j + 4) =>
    rw [List.getD_eq_default _ _ (by simp)]
    decide

/-- Witness for C6 at the counterexample's concrete state. -/
theorem C6_scheduler_witness :
    schedStep ⟨[none, none, some (0, 4), some (4, 8)], 3⟩ (8, 10) (10, 12) 1
        = some (⟨(clearRuns [none, none, some (0, 4), some (4, 8)] 1 3).set 1
            (some (mergeLoop (8, 10)
              (popRuns [none, none, some (0, 4), some (4, 8)] 1 3))), 1⟩,
          (10, 12)) ∧
    (∀ i r, (i, r) ∈ popRuns [none, none, some (0, 4), some (4, 8)] 1 3
      ↔ 1 ≤ i ∧ i ≤ 3 ∧
        ([none, none, some (0, 4), some (4, 8)] :
          List (Option (Nat × Nat))).getD i none = some r) ∧
    (mergeLoop (8, 10)
        (popRuns [none, none, some (0, 4), some (4, 8)] 1 3)).2 = 10 ∧
    ((clearRuns [none, none, some (0, 4), some (4, 8)] 1 3).set 1
        (some (mergeLoop (8, 10)
          (popRuns [none, none, some (0, 4), some (4, 8)] 1 3)))).getD 1 none
      = some (mergeLoop (8, 10)
          (popRuns [none, none, some (0, 4), some (4, 8)] 1 3)) ∧
    (∀ i, i ≠ 1 →
      ((clearRuns [none, none, some (0, 4), some (4, 8)] 1 3).set 1
          (some (mergeLoop (8, 10)
            (popRuns [none, none, some (0, 4), some (4, 8)] 1 3)))).getD i
          none ≠ none → i < 1) :=
  C6_scheduler
    (fun i hi => by
      have hi' : 3 < i := hi
      exact List.getD_eq_default _ _ (by simp; omega))
    (by decide) (by decide) rfl

/-- Every exact node power of a valid boundary is at most `log2 n + 1`:
at depth `log2 n + 1` the two midpoints always fall into different cells. -/
theorem IsNP_le_log2 {n l2 r2 p : Nat} (hn : 0 < n) (hd : l2 + 2 ≤ r2)
    (hr : r2 < 2 * n) (hp : IsNP n l2 r2 p) : p ≤ Nat.log2 n + 1 := by
  by_contra hcon
  have hq : Dp (2 * n) l2 r2 (Nat.log2 n + 1) := by
    have hlog : n < 2 ^ (Nat.log2 n + 1) := Nat.lt_log2_self
    have hsep : l2 * 2 ^ (Nat.log2 n + 1) + 2 * n
        ≤ r2 * 2 ^ (Nat.log2 n + 1) := by
      have h1 : (l2 + 2) * 2 ^ (Nat.log2 n + 1)
          ≤ r2 * 2 ^ (Nat.log2 n + 1) := Nat.mul_le_mul_right _ hd
      rw [Nat.add_mul] at h1
      omega
    exact Nat.ne_of_lt (div_sep (by omega) hsep)
  exact hp.2.2 (Nat.log2 n + 1) (by omega) (by omega) hq

/-- Powers of adjacent boundaries differ: if `p` is the node power of the
boundary between runs with midpoints `l2 < m2` and `p'` that of the boundary
between `m2 < r2`, then `p ≠ p'` — the scheduler's
`assert!(node_power != stack.top_power())` compares exactly such a pair. -/
theorem IsNP_adjacent_ne {n l2 m2 r2 p p' : Nat} (hn : 0 < n)
    (hlm : l2 ≤ m2) (hmr : m2 ≤ r2) (hr : r2 < 2 * n)
    (hp : IsNP n l2 m2 p) (hp' : IsNP n m2 r2 p') : p ≠ p' := by
  intro heq
  subst heq
  have hn2 : 0 < 2 * n := by omega
  have h1p : 1 ≤ p := hp.1
  -- quotients at depth p are strictly increasing across the three midpoints
  have hQlm : l2 * 2 ^ p / (2 * n) < m2 * 2 ^ p / (2 * n) :=
    lt_of_le_of_ne (Nat.div_le_div_right (Nat.mul_le_mul_right _ hlm)) hp.2.1
  have hQmr : m2 * 2 ^ p / (2 * n) < r2 * 2 ^ p / (2 * n) :=
    lt_of_le_of_ne (Nat.div_le_div_right (Nat.mul_le_mul_right _ hmr)) hp'.2.1
  -- halving the depth halves the quotient
  have hhalf : ∀ x : Nat, x * 2 ^ (p - 1) / (2 * n)
      = x * 2 ^ p / (2 * n) / 2 := by
    intro x
    rw [Nat.div_div_eq_div_mul]
    have hx : x * 2 ^ p = x * 2 ^ (p - 1) * 2 := by
      rw [Nat.mul_assoc, ← pow_succ]
      congr 2
      omega
    rw [hx, Nat.mul_div_mul_right _ _ (by omega : 0 < 2)]
  -- at depth p - 1 both pairs are still in the same cell
  have hndl : ¬Dp (2 * n) l2 m2 (p - 1) := by
    rcases Nat.eq_or_lt_of_le h1p with h1 | h1
    · have hz : p - 1 = 0 := by omega
      rw [hz]
      exact Dp_zero (by omega) (by omega)
    · exact hp.2.2 (p - 1) (by omega) (by omega)
  have hndr : ¬Dp (2 * n) m2 r2 (p - 1) := by
    rcases Nat.eq_or_lt_of_le h1p with h1 | h1
    · have hz : p - 1 = 0 := by omega
      rw [hz]
      exact Dp_zero (by omega) (by omega)
    · exact hp'.2.2 (p - 1) (by omega) (by omega)
  simp only [Dp, not_not] at hndl hndr
  rw [hhalf l2, hhalf m2] at hndl
  rw [hhalf m2, hhalf r2] at hndr
  omega

/-- C8: the powersort run stack never trips an assertion.  For a slice of
length `n ≥ 2`: (i) the node power of every valid run boundary satisfies
`1 ≤ p < log2 n + 2`, so it indexes into the `Stack` of
`ilog2(len) + 2` slots allocated by `powersort` (lines 92-94); (ii) the
powers of two consecutive boundaries (sharing the middle run) always
differ, which is what `assert!(node_power != stack.top_power())` checks,
since the top power is the previously pushed boundary's power (or 0 for the
empty stack, also covered since `p ≥ 1`); and (iii) under the scheduler
invariant — occupied slots only at indices `≤ top < capacity` — the
scheduler step succeeds: `Stack::push`'s assertions (power at least the
top power, strictly below the capacity, slot unoccupied) all pass, and the
invariant is preserved with the pushed power as the new top. -/
theorem C8_stack_asserts {n sa ea sb eb p : Nat} (hn : 2 ≤ n)
    (hv : ValidRuns n sa ea sb eb) (hp : IsNP n (sa + ea) (sb + eb) p) :
    (1 ≤ p ∧ p < Nat.log2 n + 2) ∧
    (∀ sc ec p', ValidRuns n sb eb sc ec →
      IsNP n (sb + eb) (sc + ec) p' → p ≠ p') ∧
    (∀ s : PSStack, s.slots.length = Nat.log2 n + 2 →
      s.top < s.slots.length →
      (∀ i, s.top < i → s.slots.getD i none = none) →
      p ≠ s.top →
      ∃ s2, schedStep s (sa, ea) (sb, eb) p = some (s2, (sb, eb)) ∧
        s2.top = p ∧ s2.slots.length = s.slots.length ∧
        s2.top < s2.slots.length ∧
        (∀ i, s2.top < i → s2.slots.getD i none = none)) := by
  obtain ⟨hn0, hd, hr⟩ := hv.bounds
  have hple := IsNP_le_log2 hn0 hd hr hp
  have h1p : 1 ≤ p := hp.1
  refine ⟨⟨h1p, by omega⟩, ?_, ?_⟩
  · intro sc ec p' hv' hp'
    obtain ⟨hn0', hd', hr'⟩ := hv'.bounds
    exact IsNP_adjacent_ne hn0 (by omega) (by omega) hr' hp hp'
  · intro s hlen htoplt hwf hne
    have hadj : ((sa, ea) : Nat × Nat).2 = ((sb, eb) : Nat × Nat).1 := hv.2.1
    rcases Nat.lt_or_ge p s.top with hlt | hge
    · -- pop branch: the slot at p is freshly cleared
      have hplen : p < s.slots.length := by omega
      have hcl : (clearRuns s.slots p s.top).length = s.slots.length :=
        clearRuns_length _ _ _
      have hclnp : (clearRuns s.slots p s.top).getD p none = none := by
        rw [clearRuns_getD _ _ _ _ hplen, if_pos ⟨le_refl p, by omega⟩]
      refine ⟨⟨(clearRuns s.slots p s.top).set p
          (some (mergeLoop (sa, ea) (popRuns s.slots p s.top))), p⟩, ?_,
        rfl, by simp [hcl], by simp [hcl]; omega, ?_⟩
      · unfold schedStep
        rw [if_pos ⟨hadj, hne⟩, if_pos hlt]
        unfold stackPush
        rw [if_pos ⟨le_refl p, by rw [hcl]; omega, hclnp⟩]
        rfl
      · intro i hi
        have hip : p < i := hi
        rw [List.getD_eq_getElem?_getD]
        rcases Nat.lt_or_ge i s.slots.length with hilen | hilen
        · rw [List.getElem?_set_ne (by omega), ← List.getD_eq_getElem?_getD,
            clearRuns_getD _ _ _ _ hilen]
          rcases Nat.lt_or_ge s.top i with hit | hit
          · rw [if_neg (by omega)]
            exact hwf i hit
          · rw [if_pos ⟨by omega, hit⟩]
        · rw [List.getElem?_eq_none (by rw [List.length_set, hcl]; omega)]
          rfl
    · -- push-above branch: the slot at p > top is unoccupied by the invariant
      have hgt : s.top < p := by omega
      have hplen : p < s.slots.length := by omega
      have hempty : s.slots.getD p none = none := hwf p hgt
      refine ⟨⟨s.slots.set p (some (sa, ea)), p⟩, ?_, rfl,
        by simp, by simp; omega, ?_⟩
      · unfold schedStep
        rw [if_pos ⟨hadj, hne⟩, if_neg (by omega)]
        unfold stackPush
        rw [if_pos ⟨by omega, hplen, hempty⟩]
        rfl
      · intro i hi
        have hip : p < i := hi
        rw [List.getD_eq_getElem?_getD]
        rcases Nat.lt_or_ge i s.slots.length with hilen | hilen
        · rw [List.getElem?_set_ne (by omega), ← List.getD_eq_getElem?_getD]
          exact hwf i (by omega)
        · rw [List.getElem?_eq_none (by rw [List.length_set]; omega)]
          rfl

/-- Witness for C8 at `n = 17` with the boundary between `[0, 5)` and
`[5, 9)` (node power 2) and the concrete empty four-slot stack. -/
theorem C8_stack_asserts_witness :
    ((1 ≤ 2 ∧ 2 < Nat.log2 17 + 2) ∧
    (∀ sc ec p', ValidRuns 17 5 9 sc ec →
      IsNP 17 (5 + 9) (sc + ec) p' → 2 ≠ p') ∧
    (∀ s : PSStack, s.slots.length = Nat.log2 17 + 2 →
      s.top < s.slots.length →
      (∀ i, s.top < i → s.slots.getD i none = none) →
      2 ≠ s.top →
      ∃ s2, schedStep s (0, 5) (5, 9) 2 = some (s2, (5, 9)) ∧
        s2.top = 2 ∧ s2.slots.length = s.slots.length ∧
        s2.top < s2.slots.length ∧
        (∀ i, s2.top < i → s2.slots.getD i none = none))) :=
  C8_stack_asserts (by omega) (by unfold ValidRuns; omega)
    ⟨by omega, by decide, by
      intro r h1 h2
      have hr1 : r = 1 := by omega
      subst hr1
      decide⟩

end Scheduler

section DropGuard

/-! ### The ownership guard under a failing comparator
(two_way.rs lines 55-103, multi_way.rs lines 83-101)

`CopyBoth::merge` copies the slice into the buffer, wraps the two buffered
runs and the output range in a `MergingDropGuard`, and repeatedly moves the
smaller head into the output.  A user-supplied comparator may fail (panic)
at any comparison, modelled by `le` returning `none`; moves that already
happened are irrevocable. -/

/-- Modelled from the spec: `MergingDropGuard`'s definition is referenced as
`super::MergingDropGuard` by two_way.rs and multi_way.rs but is not present
under src/.  Per the spec, if the guard is dropped while still armed, "its
cleanup copies every remaining byte range from each non-empty source, in
turn, to the destination": the destination ends with what was already
merged followed by each remaining source range in order. -/
def MergingDropGuard.cleanup {α : Type} (runs : List (List α))
    (out : List α) : List α :=
  out ++ runs.flatten

/-- The copy-merge loop of `CopyBoth::merge` (two_way.rs lines 84-98) with a
failable comparator: while both runs are nonempty, move the smaller head
(ties to the left) to the output; a comparator failure (`none`) aborts the
loop with the panic flag set and the guard state as it stood; on normal
exhaustion the trailing copies flush the remainders. -/
def cbLoopF {α : Type} (le : α → α → Option Bool) :
    List α → List α → List α → (List α × List α × List α) × Bool
  | x :: l, y :: r, out =>
      match le x y with
      | none => ((x :: l, y :: r, out), true)
      | some true => cbLoopF le l (y :: r) (out ++ [x])
      | some false => cbLoopF le (x :: l) r (out ++ [y])
  | l, r, out => ((l, r, out), false)
termination_by l r => l.length + r.length

/-- `CopyBoth::merge` under a failable comparator, with the guard protocol:
on a comparator failure the armed guard's drop flushes the remaining source
ranges to the destination; on normal completion the trailing copies empty
both runs and the guard is disarmed (a no-op). -/
def CopyBoth.mergeWithGuard {α : Type} (le : α → α → Option Bool)
    (slice : List α) (run_length : Nat) : List α :=
  match cbLoopF le (slice.take run_length) (slice.drop run_length) [] with
  | ((l, r, out), true) => MergingDropGuard.cleanup [l, r] out
  | ((l, r, out), false) => out ++ l ++ r

theorem cbLoopF_perm {α : Type} (le : α → α → Option Bool) :
    ∀ (l r out l' r' out' : List α) (b : Bool),
      cbLoopF le l r out = ((l', r', out'), b) →
      (out' ++ l' ++ r').Perm (out ++ l ++ r)
  | x :: l, y :: r, out, l', r', out', b => by
    intro h
    simp only [cbLoopF] at h
    rcases hc : le x y with - | hb
    · simp only [hc, Prod.mk.injEq] at h
      obtain ⟨⟨h1, h2, h3⟩, h4⟩ := h
      subst h1
      subst h2
      subst h3
      exact List.Perm.refl _
    · rcases hb with - | -
      · simp only [hc] at h
        have ih := cbLoopF_perm le (x :: l) r (out ++ [y]) l' r' out' b h
        refine ih.trans ?_
        have hcore : (([y] ++ (x :: l)) ++ r).Perm (((x :: l) ++ [y]) ++ r) :=
          List.Perm.append_right r List.perm_append_comm
        have he1 : (out ++ [y]) ++ (x :: l) ++ r
            = out ++ (([y] ++ (x :: l)) ++ r) := by simp
        have he2 : out ++ (x :: l) ++ (y :: r)
            = out ++ (((x :: l) ++ [y]) ++ r) := by simp
        rw [he1, he2]
        exact List.Perm.append_left out hcore
      · simp only [hc] at h
        have ih := cbLoopF_perm le l (y :: r) (out ++ [x]) l' r' out' b h
        refine ih.trans (List.Perm.of_eq ?_)
        simp
  | [], r, out, l', r', out', b => by
    intro h
    simp only [cbLoopF, Prod.mk.injEq] at h
    obtain ⟨⟨h1, h2, h3⟩, h4⟩ := h
    subst h1
    subst h2
    subst h3
    exact List.Perm.refl _
  | x :: l, [], out, l', r', out', b => by
    intro h
    simp only [cbLoopF, Prod.mk.injEq] at h
    obtain ⟨⟨h1, h2, h3⟩, h4⟩ := h
    subst h1
    subst h2
    subst h3
    exact List.Perm.refl _
termination_by l r => l.length + r.length

/-- The k-way head selection of `tournament_tree_merge` (multi_way.rs lines
185-188) with a failable comparator: the comparator runs inside the
`min_by_key` scan over the run heads, so a panic (`none`) can abort the
scan before any element moves.  `some none` means every run is exhausted;
`some (some ...)` returns the runs before the winner, the winner's head
and tail, and the runs after it, ties broken toward the lower run index. -/
def pickF {α : Type} (le : α → α → Option Bool) :
    List (List α) →
      Option (Option (List (List α) × α × List α × List (List α)))
  | [] => some none
  | [] :: rs =>
    match pickF le rs with
    | none => none
    | some none => some none
    | some (some (pre, x, rest, post)) =>
      some (some ([] :: pre, x, rest, post))
  | (x :: xs) :: rs =>
    match pickF le rs with
    | none => none
    | some none => some (some ([], x, xs, rs))
    | some (some (pre, y, rest, post)) =>
      match le x y with
      | none => none
      | some b =>
        if !b then some (some ((x :: xs) :: pre, y, rest, post))
        else some (some ([], x, xs, rs))

theorem pickF_eq {α : Type} (le : α → α → Option Bool) :
    ∀ {runs pre post : List (List α)} {x : α} {rest : List α},
      pickF le runs = some (some (pre, x, rest, post)) →
      runs = pre ++ (x :: rest) :: post
  | [], pre, post, x, rest, h => by simp [pickF] at h
  | [] :: rs, pre, post, x, rest, h => by
    rw [pickF] at h
    cases hp : pickF le rs with
    | none => simp only [hp] at h; cases h
    | some q =>
      cases q with
      | none => simp only [hp] at h; cases h
      | some q2 =>
        obtain ⟨pre', x', rest', post'⟩ := q2
        simp only [hp] at h
        injection h with h
        injection h with h
        injection h with h1 h
        injection h with h2 h
        injection h with h3 h4
        subst h2 h3 h4
        rw [← h1]
        have := pickF_eq le hp
        simp [this]
  | (x0 :: xs) :: rs, pre, post, x, rest, h => by
    rw [pickF] at h
    cases hp : pickF le rs with
    | none => simp only [hp] at h; cases h
    | some q =>
      cases q with
      | none =>
        simp only [hp] at h
        injection h with h
        injection h with h
        injection h with h1 h
        injection h with h2 h
        injection h with h3 h4
        subst h2 h3 h4
        simp [← h1]
      | some q2 =>
        obtain ⟨pre', y', rest', post'⟩ := q2
        simp only [hp] at h
        cases hc : le x0 y' with
        | none => simp only [hc] at h; cases h
        | some b =>
          simp only [hc] at h
          by_cases hb : (!b) = true
          · rw [if_pos hb] at h
            injection h with h
            injection h with h
            injection h with h1 h
            injection h with h2 h
            injection h with h3 h4
            subst h2 h3 h4
            rw [← h1]
            have := pickF_eq le hp
            simp [this]
          · rw [if_neg hb] at h
            injection h with h
            injection h with h
            injection h with h1 h
            injection h with h2 h
            injection h with h3 h4
            subst h2 h3 h4
            simp [← h1]

theorem pickF_some_none_imp {α : Type} (le : α → α → Option Bool) :
    ∀ {runs : List (List α)}, pickF le runs = some none →
      ∀ r ∈ runs, r = []
  | [], _, r, hr => by simp at hr
  | [] :: rs, h, r, hr => by
    rw [pickF] at h
    cases hp : pickF le rs with
    | none => simp only [hp] at h; cases h
    | some q =>
      cases q with
      | none =>
        rcases List.mem_cons.mp hr with rfl | hr'
        · rfl
        · exact pickF_some_none_imp le hp r hr'
      | some q2 =>
        obtain ⟨pre', x', rest', post'⟩ := q2
        simp only [hp] at h
        simp at h
  | (x0 :: xs) :: rs, h, r, hr => by
    rw [pickF] at h
    cases hp : pickF le rs with
    | none => simp only [hp] at h; cases h
    | some q =>
      cases q with
      | none =>
        simp only [hp] at h
        simp at h
      | some q2 =>
        obtain ⟨pre', y', rest', post'⟩ := q2
        simp only [hp] at h
        cases hc : le x0 y' with
        | none => simp only [hc] at h; cases h
        | some b =>
          simp only [hc] at h
          by_cases hb : (!b) = true
          · rw [if_pos hb] at h
            simp at h
          · rw [if_neg hb] at h
            simp at h

/-- The k-way selection loop of `tournament_tree_merge` with a failable
comparator: while some run is nonempty, move the selected winner's head to
the output; a comparator failure aborts the loop with the panic flag set
and the guard state as it stood. -/
def ttLoopF {α : Type} (le : α → α → Option Bool) (runs : List (List α))
    (out : List α) : (List (List α) × List α) × Bool :=
  match hp : pickF le runs with
  | none => ((runs, out), true)
  | some none => ((runs, out), false)
  | some (some (pre, x, rest, post)) =>
    ttLoopF le (pre ++ rest :: post) (out ++ [x])
  termination_by sumLens runs
  decreasing_by
    have h3 : sumLens (pre ++ rest :: post)
        < sumLens (pre ++ (x :: rest) :: post) := by
      simp only [sumLens, List.map_append, List.map_cons, List.sum_append,
        List.sum_cons, List.length_cons]
      omega
    exact lt_of_lt_of_le h3 (le_of_eq (congrArg sumLens (pickF_eq le hp).symm))

theorem ttLoopF_of_none {α : Type} (le : α → α → Option Bool)
    (runs : List (List α)) (out : List α) (hp : pickF le runs = none) :
    ttLoopF le runs out = ((runs, out), true) := by
  rw [ttLoopF.eq_def]
  split
  · rfl
  · rename_i heq
    rw [hp] at heq
    cases heq
  · rename_i pre x rest post heq
    rw [hp] at heq
    cases heq

theorem ttLoopF_of_some_none {α : Type} (le : α → α → Option Bool)
    (runs : List (List α)) (out : List α)
    (hp : pickF le runs = some none) :
    ttLoopF le runs out = ((runs, out), false) := by
  rw [ttLoopF.eq_def]
  split
  · rename_i heq
    rw [hp] at heq
    cases heq
  · rfl
  · rename_i pre x rest post heq
    rw [hp] at heq
    simp at heq

theorem ttLoopF_of_pick {α : Type} (le : α → α → Option Bool)
    (runs pre post : List (List α)) (x : α) (rest out : List α)
    (hp : pickF le runs = some (some (pre, x, rest, post))) :
    ttLoopF le runs out = ttLoopF le (pre ++ rest :: post) (out ++ [x]) := by
  rw [ttLoopF.eq_def]
  split
  · rename_i heq
    rw [hp] at heq
    cases heq
  · rename_i heq
    rw [hp] at heq
    simp at heq
  · rename_i pre' x' rest' post' heq
    rw [hp] at heq
    injection heq with heq
    injection heq with heq
    injection heq with h1 heq
    injection heq with h2 heq
    injection heq with h3 h4
    subst h1 h2 h3 h4
    rfl

theorem ttLoopF_perm {α : Type} (le : α → α → Option Bool) :
    ∀ (runs : List (List α)) (out : List α) (runs2 : List (List α))
      (out2 : List α) (b : Bool),
      ttLoopF le runs out = ((runs2, out2), b) →
      (out2 ++ runs2.flatten).Perm (out ++ runs.flatten)
  | runs, out, runs2, out2, b => by
    intro heq
    cases hp : pickF le runs with
    | none =>
      rw [ttLoopF_of_none le runs out hp] at heq
      injection heq with h1 h2
      injection h1 with h3 h4
      subst h3 h4
      exact List.Perm.refl _
    | some q =>
      cases q with
      | none =>
        rw [ttLoopF_of_some_none le runs out hp] at heq
        injection heq with h1 h2
        injection h1 with h3 h4
        subst h3 h4
        exact List.Perm.refl _
      | some q2 =>
        obtain ⟨pre, x, rest, post⟩ := q2
        rw [ttLoopF_of_pick le runs pre post x rest out hp] at heq
        have ih := ttLoopF_perm le (pre ++ rest :: post) (out ++ [x])
          runs2 out2 b heq
        refine ih.trans ?_
        rw [pickF_eq le hp]
        rw [List.flatten_append, List.flatten_append, List.flatten_cons,
          List.flatten_cons]
        have hmid : (x :: (pre.flatten ++ (rest ++ post.flatten))).Perm
            (pre.flatten ++ (x :: (rest ++ post.flatten))) :=
          List.perm_middle.symm
        have he1 : (out ++ [x]) ++ (pre.flatten ++ (rest ++ post.flatten))
            = out ++ (x :: (pre.flatten ++ (rest ++ post.flatten))) := by
          simp
        have he2 : out ++ (pre.flatten ++ ((x :: rest) ++ post.flatten))
            = out ++ (pre.flatten ++ (x :: (rest ++ post.flatten))) := by
          simp
        rw [he1, he2]
        exact List.Perm.append_left out hmid
  termination_by runs => sumLens runs
  decreasing_by
    have h3 : sumLens (pre ++ rest :: post)
        < sumLens (pre ++ (x :: rest) :: post) := by
      simp only [sumLens, List.map_append, List.map_cons, List.sum_append,
        List.sum_cons, List.length_cons]
      omega
    exact lt_of_lt_of_le h3 (le_of_eq (congrArg sumLens (pickF_eq le hp).symm))

theorem ttLoopF_false_nil {α : Type} (le : α → α → Option Bool) :
    ∀ (runs : List (List α)) (out : List α) (runs2 : List (List α))
      (out2 : List α),
      ttLoopF le runs out = ((runs2, out2), false) → ∀ r ∈ runs2, r = []
  | runs, out, runs2, out2 => by
    intro heq
    cases hp : pickF le runs with
    | none =>
      rw [ttLoopF_of_none le runs out hp] at heq
      injection heq with h1 h2
      cases h2
    | some q =>
      cases q with
      | none =>
        rw [ttLoopF_of_some_none le runs out hp] at heq
        injection heq with h1 h2
        injection h1 with h3 h4
        subst h3
        exact pickF_some_none_imp le hp
      | some q2 =>
        obtain ⟨pre, x, rest, post⟩ := q2
        rw [ttLoopF_of_pick le runs pre post x rest out hp] at heq
        exact ttLoopF_false_nil le (pre ++ rest :: post) (out ++ [x])
          runs2 out2 heq
  termination_by runs => sumLens runs
  decreasing_by
    have h3 : sumLens (pre ++ rest :: post)
        < sumLens (pre ++ (x :: rest) :: post) := by
      simp only [sumLens, List.map_append, List.map_cons, List.sum_append,
        List.sum_cons, List.length_cons]
      omega
    exact lt_of_lt_of_le h3 (le_of_eq (congrArg sumLens (pickF_eq le hp).symm))

/-- `TournamentTree::merge` under a failable comparator, with the guard
protocol (multi_way.rs lines 92-101): the runs built over the buffer and
the output range are wrapped in a `MergingDropGuard` before
`tournament_tree_merge` runs; on a comparator failure the armed guard's
drop flushes the remaining source runs, in turn, to the destination; on
normal completion every run is exhausted and the guard is disarmed (a
no-op). -/
def TournamentTree.mergeWithGuard {α : Type} (le : α → α → Option Bool)
    (K : Nat) (slice : List α) (run_lengths : List Nat) : List α :=
  match ttLoopF le (makeRuns K slice run_lengths) [] with
  | ((runs, out), true) => MergingDropGuard.cleanup runs out
  | ((_, out), false) => out

/-- C5: if the comparator fails (returns `none`, modelling a panic) partway
through a merge, the armed guard's cleanup flushes every remaining source
element, in order, to the destination, and the result is a permutation of
the original slice — every element is present exactly once, though not
necessarily sorted; on normal completion the result is likewise a
permutation.  This covers both guard uses: the two-way copy-merge loop of
`CopyBoth::merge` (two_way.rs lines 77-103) and the k-way selection loop
of `TournamentTree::merge` (multi_way.rs lines 92-101), where the
comparator runs inside the head scan and the constructed runs cover the
slice whenever `run_lengths` has fewer than `K` entries.  The exactly-once
inventory is the shallow-embedding rendering of "no freed or uninitialized
memory is ever read": the destination is rebuilt from precisely the
elements still owned by the sources plus those already moved. -/
theorem C5_drop_guard {α : Type} (le : α → α → Option Bool)
    (slice : List α) (run_length K : Nat) (run_lengths : List Nat) :
    ((CopyBoth.mergeWithGuard le slice run_length).Perm slice ∧
    (∀ l r out,
      cbLoopF le (slice.take run_length) (slice.drop run_length) []
          = ((l, r, out), true) →
      (MergingDropGuard.cleanup [l, r] out).Perm slice)) ∧
    (run_lengths.length < K →
      (TournamentTree.mergeWithGuard le K slice run_lengths).Perm slice ∧
      ∀ runs out, ttLoopF le (makeRuns K slice run_lengths) []
          = ((runs, out), true) →
        (MergingDropGuard.cleanup runs out).Perm slice) := by
  have hbase : ∀ (l r out : List α) (b : Bool),
      cbLoopF le (slice.take run_length) (slice.drop run_length) []
          = ((l, r, out), b) →
      (out ++ l ++ r).Perm slice := by
    intro l r out b h
    have hperm := cbLoopF_perm le _ _ _ _ _ _ _ h
    refine hperm.trans (List.Perm.of_eq ?_)
    simp [List.take_append_drop]
  refine ⟨⟨?_, ?_⟩, ?_⟩
  · unfold CopyBoth.mergeWithGuard
    match hm : cbLoopF le (slice.take run_length) (slice.drop run_length) []
      with
    | ((l, r, out), true) =>
      refine (List.Perm.of_eq ?_).trans (hbase l r out true hm)
      simp [MergingDropGuard.cleanup]
    | ((l, r, out), false) => exact hbase l r out false hm
  · intro l r out h
    refine (List.Perm.of_eq ?_).trans (hbase l r out true h)
    simp [MergingDropGuard.cleanup]
  · intro hK
    have hbase2 : ∀ (runs : List (List α)) (out : List α) (b : Bool),
        ttLoopF le (makeRuns K slice run_lengths) [] = ((runs, out), b) →
        (out ++ runs.flatten).Perm slice := by
      intro runs out b heq
      have h1 := ttLoopF_perm le _ [] runs out b heq
      rw [List.nil_append,
        makeRuns_flatten K slice run_lengths hK] at h1
      exact h1
    constructor
    · unfold TournamentTree.mergeWithGuard
      match hm : ttLoopF le (makeRuns K slice run_lengths) [] with
      | ((runs, out), true) =>
        refine (List.Perm.of_eq ?_).trans (hbase2 runs out true hm)
        simp [MergingDropGuard.cleanup]
      | ((runs, out), false) =>
        have hnil := ttLoopF_false_nil le _ [] runs out hm
        have h2 := hbase2 runs out false hm
        rw [flatten_of_all_nil hnil, List.append_nil] at h2
        exact h2
    · intro runs out hm
      refine (List.Perm.of_eq ?_).trans (hbase2 runs out true hm)
      simp [MergingDropGuard.cleanup]

end DropGuard

section InsertionSorts

/-! ### Insertion sorts (src/src/algorithms/insertionsort.rs)

`InsertionSort<BINARY>::sort` checks the length, then dispatches: note the
source's branches are swapped relative to the names — `BINARY = true` runs
`insertion_sort_with_partition` (the swap loop) and `BINARY = false` runs
`binary_insertion_sort_with_partition` (the `partition_point` one). -/

/-- The inner swap loop of `insertion_sort_with_partition` (insertionsort.rs
lines 37-45), expressed on the reversed prefix: walking `j` down from `i`,
the element moves left past each neighbour `z` with `slice[j+1] < slice[j]`
(that is, `!(le z x)`) and stops at the first neighbour not above it. -/
def swapInsertRev {α : Type} (le : α → α → Bool) : List α → α → List α
  | [], x => [x]
  | z :: zs, x => if !(le z x) then z :: swapInsertRev le zs x else x :: z :: zs

/-- The outer loop of `insertion_sort_with_partition`: each element after the
partition point is swap-inserted into the (growing) prefix. -/
def ispGo {α : Type} (le : α → α → Bool) : List α → List α → List α
  | pre, [] => pre
  | pre, x :: rest => ispGo le ((swapInsertRev le pre.reverse x).reverse) rest

/-- Embedding of `InsertionSort::insertion_sort_with_partition`
(insertionsort.rs lines 29-47), minus the bounds assertion, which the
dispatching `sort` below models. -/
def insertion_sort_with_partition {α : Type} (le : α → α → Bool)
    (slice : List α) (partition_point_arg : Nat) : List α :=
  ispGo le (slice.take partition_point_arg) (slice.drop partition_point_arg)

/-- The outer loop of `binary_insertion_sort_with_partition` (insertionsort.rs
lines 57-63): `j = slice[..i].partition_point(|z| z <= &slice[i])`, then the
backward swaps rotate `slice[j..=i]` one step right, placing `slice[i]` at
`j`. -/
def bispGo {α : Type} (le : α → α → Bool) : List α → List α → List α
  | pre, [] => pre
  | pre, x :: rest =>
      bispGo le
        (pre.take (partition_point (fun z => le z x) pre) ++ [x]
          ++ pre.drop (partition_point (fun z => le z x) pre)) rest

/-- Embedding of `InsertionSort::binary_insertion_sort_with_partition`
(insertionsort.rs lines 50-64), minus the bounds assertion. -/
def binary_insertion_sort_with_partition {α : Type} (le : α → α → Bool)
    (slice : List α) (partition_point_arg : Nat) : List α :=
  bispGo le (slice.take partition_point_arg) (slice.drop partition_point_arg)

/-- Embedding of `InsertionSort::<BINARY>::sort` (insertionsort.rs lines
12-25): the length guard, then the (swapped) dispatch; `none` models the
failed partition-point bounds assertion of the callee. -/
def InsertionSort.sort {α : Type} (BINARY : Bool) (le : α → α → Bool)
    (slice : List α) (split_point : Nat) : Option (List α) :=
  if slice.length < 2 then some slice
  else if split_point ≤ slice.length then
    if BINARY then some (insertion_sort_with_partition le slice split_point)
    else some (binary_insertion_sort_with_partition le slice split_point)
  else none

end InsertionSorts

section RunDetection

/-! ### Run detection for the powersort variants
(powersort.rs lines 120-145 and 271-292) -/

/-- Modelled from the spec: `weakly_increasing_or_strictly_decreasing_index`
is called by powersort.rs (lines 126 and 275) but is not defined under
src/.  Per the spec's run-scanner contract, it returns the end index of the
longest weakly-increasing prefix, or, when the first two elements strictly
decrease, the end index of the longest strictly-decreasing prefix together
with the flag telling the caller to reverse it. -/
def weakly_increasing_or_strictly_decreasing_index {α : Type}
    (le : α → α → Bool) (slice : List α) : Nat × Bool :=
  match slice with
  | x :: y :: _ =>
      if !(le x y) then (strictly_decreasing_prefix_index le slice, true)
      else (weakly_increasing_prefix_index le slice, false)
  | _ => (weakly_increasing_prefix_index le slice, false)

/-- Embedding of `PowerSort::extend_run` / `MultiwayPowerSort::extend_run`
(powersort.rs lines 120-133, 271-284): scans the prefix and reverses it in
place when it is strictly decreasing; returns the new contents and the
index. -/
def extend_run {α : Type} (le : α → α → Bool) (ONLY_INCREASING : Bool)
    (slice : List α) : List α × Nat :=
  if ONLY_INCREASING then (slice, weakly_increasing_prefix_index le slice)
  else
    match weakly_increasing_or_strictly_decreasing_index le slice with
    | (index, false) => (slice, index)
    | (index, true) => ((slice.take index).reverse ++ slice.drop index, index)

/-- Embedding of `PowerSort::next_run` / `MultiwayPowerSort::next_run`
(powersort.rs lines 135-148, 286-299).  `run = start..extend_run(&mut
slice[start..])` keeps the source's quirk that the run end is the index
into the subslice; short runs are extended by the insertion sort.  Returns
the updated slice with the run's start and end. -/
def next_run {α : Type} (le : α → α → Bool) (BINARY ONLY_INCREASING : Bool)
    (MIN_RUN_LENGTH : Nat) (slice : List α) (start : Nat) :
    Option (List α × Nat × Nat) :=
  let er := extend_run le ONLY_INCREASING (slice.drop start)
  let slice1 := slice.take start ++ er.1
  if er.2 - start < MIN_RUN_LENGTH then
    let e := min slice.length (start + MIN_RUN_LENGTH)
    (InsertionSort.sort BINARY le ((slice1.drop start).take (e - start))
        (er.2 - start)).map
      (fun seg => (slice1.take start ++ (seg ++ slice1.drop e), start, e))
  else some (slice1, start, er.2)

end RunDetection

section SliceSurgery

/-! ### Slice segments and in-place merge surgery

The sorts mutate contiguous segments `slice[s..e]` in place; on the list
model a mutation of the segment is the splice
`slice.take s ++ (m ++ slice.drop e)`. -/

/-- The segment `slice[s..e]` of a modelled slice. -/
def segOf {α : Type} (slice : List α) (s e : Nat) : List α :=
  (slice.drop s).take (e - s)

end SliceSurgery

section RunChains

/-! ### Run chains

The run stacks of powersort and timsort hold contiguous adjacent runs.
`DChain` reads a popped (top-down) run list as a partition of `[lo, hi)`
whose head is the rightmost run; `BUChain` reads a bottom-up stack. -/

end RunChains

section PopMerge

/-- The scheduler's pop-merge loop (powersort.rs lines 105-111) acting on
the modelled slice: each popped `run` left-extends the held accumulator
(`run_a.start = run.start`, the right end `a_end` staying fixed) and
`M::merge` (`CopyBoth`) re-sorts `slice[run_a]` with split point
`run.len()`.  The final collapse (lines 117-119) is the same fold with
`a_end = slice.len()`, since `slice[run.start..]` is exactly that segment.
Returns the new slice and the final accumulator start; `none` models a
failed assertion inside the merge. -/
def popMergeFold {α : Type} (le : α → α → Bool) (buf a_end : Nat) :
    List α → Nat → List (Nat × (Nat × Nat)) → Option (List α × Nat)
  | slice, a_start, [] => some (slice, a_start)
  | slice, _, (_, r) :: rest =>
    match CopyBoth.merge le (segOf slice r.1 a_end) (r.2 - r.1) buf with
    | none => none
    | some m =>
      popMergeFold le buf a_end
        (slice.take r.1 ++ (m ++ slice.drop a_end)) r.1 rest

end PopMerge

section PowerSortDriver

/-! ### The full `PowerSort::sort` driver (powersort.rs lines 64-120) -/

/-- Fuel-driven structural version of Rust `usize::ilog` (floor logarithm
in a given base); the fuel always suffices because the argument shrinks at
every step. -/
def ilogGo (b : Nat) : Nat → Nat → Nat
  | 0, _ => 0
  | fuel + 1, n => if b ≤ 1 ∨ n < b then 0 else ilogGo b fuel (n / b) + 1

/-- Rust `usize::ilog(b)` of `n` (floor logarithm base `b`). -/
def usize_ilog (b n : Nat) : Nat := ilogGo b n n

/-- The fueled main loop of `PowerSort::powersort` (powersort.rs lines
95-119), carrying the modelled slice, the run `Stack` and the held run
`run_a`; when `run_a.end == slice.len()` it performs the final collapse
(lines 117-119).  One step discovers `run_b` via `next_run`, asserts
adjacency, computes the node power, asserts it differs from the top power,
pops-and-merges when it is smaller (with `pop_runs` resetting the recorded
top power to `node_power`), pushes the held accumulator and holds `run_b`.
`none` models a failed assertion (or fuel exhaustion, which the
correctness theorem shows cannot happen). -/
def psLoop {α : Type} (le : α → α → Bool)
    (npf : Nat → Nat × Nat → Nat × Nat → Option Nat)
    (BINARY ONLY_INCREASING : Bool) (MIN_RUN_LENGTH buf : Nat) :
    Nat → List α → PSStack → Nat × Nat → Option (List α)
  | 0, _, _, _ => none
  | fuel + 1, slice, s, a =>
    if a.2 = slice.length then
      (popMergeFold le buf slice.length slice a.1
        (popRuns s.slots 0 s.top)).map (fun pr => pr.1)
    else
      match next_run le BINARY ONLY_INCREASING MIN_RUN_LENGTH slice a.2 with
      | none => none
      | some (slice1, bs, be) =>
        if a.2 = bs then
          match npf slice1.length a (bs, be) with
          | none => none
          | some np =>
            if np ≠ s.top then
              if np < s.top then
                match popMergeFold le buf a.2 slice1 a.1
                    (popRuns s.slots np s.top) with
                | none => none
                | some (slice2, st2) =>
                  match stackPush ⟨clearRuns s.slots np s.top, np⟩
                      (st2, a.2) np with
                  | none => none
                  | some s2 =>
                    psLoop le npf BINARY ONLY_INCREASING MIN_RUN_LENGTH buf
                      fuel slice2 s2 (bs, be)
              else
                match stackPush s a np with
                | none => none
                | some s2 =>
                  psLoop le npf BINARY ONLY_INCREASING MIN_RUN_LENGTH buf
                    fuel slice1 s2 (bs, be)
            else none
        else none

/-- Embedding of `PowerSort::sort` (powersort.rs lines 64-78) with the
default `Stack` (`USE_POWER_INDEXED_STACK = false`) and the default merging
method `CopyBoth` (whose required buffer capacity is the slice length); the
node-power method is the abstract parameter `npf`. -/
def PowerSort.sort {α : Type} (le : α → α → Bool)
    (npf : Nat → Nat × Nat → Nat × Nat → Option Nat)
    (BINARY ONLY_INCREASING : Bool) (MIN_RUN_LENGTH : Nat)
    (slice : List α) : Option (List α) :=
  if slice.length < 2 then some slice
  else
    match next_run le BINARY ONLY_INCREASING MIN_RUN_LENGTH slice 0 with
    | none => none
    | some (slice1, s0, e0) =>
      psLoop le npf BINARY ONLY_INCREASING MIN_RUN_LENGTH slice.length
        (slice.length + 1) slice1
        ⟨List.replicate (usize_ilog 2 slice.length + 2) none, 0⟩ (s0, e0)

end PowerSortDriver

section TimSortDriver

/-! ### The full `TimSort::timsort` driver (timsort.rs lines 40-203) -/

end TimSortDriver

section TimSortDriverTwo

end TimSortDriverTwo

section TimSortDriverThree

end TimSortDriverThree

section MultiwayDriverDefs

/-! ### The full `MultiwayPowerSort::sort` driver (powersort.rs lines
180-298), with the k-way merging method `TournamentTree` (multi_way.rs)
and the `PowerIndexedStack` run stack (powersort.rs lines 357-391). -/

/-- Decidable sortedness test: Rust `<[T]>::is_sorted`, used by the plain
`assert!` statements of `multiway_powersort` (lines 211 and 215). -/
def isSortedLe {α : Type} (le : α → α → Bool) : List α → Bool
  | [] => true
  | [_] => true
  | x :: y :: t => le x y && isSortedLe le (y :: t)

/-- `PowerIndexedStack` (powersort.rs lines 357-391): a vector of
`(power, run)` pairs with a fixed capacity, pushed and popped at the
end. -/
structure PIStack where
  entries : List (Nat × (Nat × Nat))
  cap : Nat

/-- `PowerIndexedStack::top_power`: the last entry's power, or 0. -/
def PItop (s : PIStack) : Nat := ((s.entries.getLast?).map (fun pr => pr.1)).getD 0

/-- `PowerIndexedStack::push` with its assertions (power at least the top
power, spare capacity nonempty); `none` models a failed assertion. -/
def PIpush (s : PIStack) (run : Nat × Nat) (power : Nat) : Option PIStack :=
  if PItop s ≤ power ∧ s.entries.length < s.cap
  then some ⟨s.entries ++ [(power, run)], s.cap⟩ else none

/-- The full pop sequence of `PowerIndexedStack::pop_runs(power)`
(lines 377-391): the `from_fn` iterator pops entries from the top while
the top power is at least `power`, so it yields exactly the maximal
top-down prefix with power `>= power`. -/
def PIpopped (entries : List (Nat × (Nat × Nat))) (power : Nat) :
    List (Nat × (Nat × Nat)) :=
  entries.reverse.takeWhile (fun pr => power ≤ pr.1)

/-- The entries remaining on the stack after `pop_runs(power)` has been
drained. -/
def PIrest (entries : List (Nat × (Nat × Nat))) (power : Nat) :
    List (Nat × (Nat × Nat)) :=
  (entries.reverse.dropWhile (fun pr => power ≤ pr.1)).reverse

theorem makeRuns_two {α : Type} (slice : List α) (v : Nat) :
    makeRuns 2 slice [v] = [slice.take v, slice.drop v] := rfl

/-- The grouped pop-merge loop of `multiway_powersort` (powersort.rs lines
221-235): popped runs of equal power are collected into `split_points`
(index decremented before each write; `none` models the underflow panic),
and a flush merges the collected group into the left-growing accumulator
whenever the power changes. -/
def mwGroup {α : Type} (le : α → α → Bool) (K buf a_end : Nat) :
    List (Nat × (Nat × Nat)) → List α → Nat → List Nat → Nat → Nat →
    Option (List α × Nat × List Nat × Nat)
  | [], slice, a_start, sp, idx, _ => some (slice, a_start, sp, idx)
  | (power, r) :: rest, slice, a_start, sp, idx, tp =>
    if tp ≠ power then
      match TournamentTree.merge le K (segOf slice a_start a_end)
          (sp.drop idx) buf with
      | none => none
      | some m =>
        if K = 0 then none
        else
          mwGroup le K buf a_end rest
            (slice.take a_start ++ (m ++ slice.drop a_end)) r.1
            (sp.set (K - 1) (r.2 - r.1)) (K - 1) power
    else
      if idx = 0 then none
      else
        mwGroup le K buf a_end rest slice r.1
          (sp.set (idx - 1) (r.2 - r.1)) (idx - 1) tp

/-- The grab step of the final loop (powersort.rs lines 252-260): take up
to `K - 1` remaining runs, recording their lengths in `split_points` and
left-extending the accumulator. -/
def mwGrab : List (Nat × (Nat × Nat)) → Nat → List Nat → Nat →
    Option (Nat × List Nat × Nat)
  | [], a_start, sp, idx => some (a_start, sp, idx)
  | (_, r) :: rest, _, sp, idx =>
    if idx = 0 then none
    else mwGrab rest r.1 (sp.set (idx - 1) (r.2 - r.1)) (idx - 1)

/-- The final collapse loop of `multiway_powersort` (powersort.rs lines
250-268), fuel-structural: while the accumulator does not reach the front,
grab up to `K - 1` runs from the drained stack and merge them with the
accumulator. -/
def mwFinal {α : Type} (le : α → α → Bool) (K buf a_end : Nat) :
    Nat → List α → Nat → List (Nat × (Nat × Nat)) → List Nat → Nat →
    Option (List α)
  | 0, _, _, _, _, _ => none
  | fuel + 1, slice, a_start, remaining, sp, idx =>
    if a_start ≠ 0 then
      match mwGrab (remaining.take (K - 1)) a_start sp idx with
      | none => none
      | some (a1, sp1, idx1) =>
        match TournamentTree.merge le K (segOf slice a1 a_end)
            (sp1.drop idx1) buf with
        | none => none
        | some m =>
          mwFinal le K buf a_end fuel
            (slice.take a1 ++ (m ++ slice.drop a_end)) a1
            (remaining.drop (K - 1)) sp1 K
    else some slice

/-- The fueled main loop of `multiway_powersort` (powersort.rs lines
213-248): discover `run_b`, assert it is sorted, compute the node power;
when it is below the top power, pop-merge the grouped runs (with the final
group flush and the `!split_points.is_empty()` assert) before pushing the
accumulator; hold `run_b`. -/
def mwLoop {α : Type} (le : α → α → Bool)
    (npf : Nat → Nat × Nat → Nat × Nat → Option Nat)
    (BINARY ONLY_INCREASING : Bool) (K MIN_RUN_LENGTH buf : Nat) :
    Nat → List α → PIStack → List Nat → Nat → Nat × Nat →
    Option (List α × PIStack × List Nat × Nat × (Nat × Nat))
  | 0, _, _, _, _, _ => none
  | fuel + 1, slice, s, sp, idx, a =>
    if a.2 ≠ slice.length then
      match next_run le BINARY ONLY_INCREASING MIN_RUN_LENGTH slice a.2 with
      | none => none
      | some (slice1, bs, be) =>
        if isSortedLe le (segOf slice1 bs be) then
          match npf slice1.length a (bs, be) with
          | none => none
          | some np =>
            if np < PItop s then
              match mwGroup le K buf a.2 (PIpopped s.entries np) slice1 a.1
                  sp idx (PItop s) with
              | none => none
              | some (slice2, a1, sp1, idx1) =>
                if sp1.isEmpty then none
                else
                  match TournamentTree.merge le K (segOf slice2 a1 a.2)
                      (sp1.drop idx1) buf with
                  | none => none
                  | some m =>
                    match PIpush ⟨PIrest s.entries np, s.cap⟩ (a1, a.2)
                        np with
                    | none => none
                    | some s2 =>
                      mwLoop le npf BINARY ONLY_INCREASING K MIN_RUN_LENGTH
                        buf fuel
                        (slice2.take a1 ++ (m ++ slice2.drop a.2)) s2 sp1 K
                        (bs, be)
            else
              match PIpush s a np with
              | none => none
              | some s2 =>
                mwLoop le npf BINARY ONLY_INCREASING K MIN_RUN_LENGTH buf
                  fuel slice1 s2 sp idx (bs, be)
        else none
    else some (slice, s, sp, idx, a)

/-- Embedding of `MultiwayPowerSort::sort` (powersort.rs lines 180-269)
with the k-way merging method `TournamentTree` (whose required buffer
capacity is the slice length) and the node-power method abstracted as
`npf`.  The stack capacity is
`(MERGE_K_RUNS - 1) * (slice.len().ilog(MERGE_K_RUNS) + 2)` (line 205). -/
def MultiwayPowerSort.sort {α : Type} (le : α → α → Bool)
    (npf : Nat → Nat × Nat → Nat × Nat → Option Nat)
    (BINARY ONLY_INCREASING : Bool) (K MIN_RUN_LENGTH : Nat)
    (slice : List α) : Option (List α) :=
  if slice.length < 2 then some slice
  else
    match next_run le BINARY ONLY_INCREASING MIN_RUN_LENGTH slice 0 with
    | none => none
    | some (slice1, s0, e0) =>
      if isSortedLe le (segOf slice1 s0 e0) then
        match mwLoop le npf BINARY ONLY_INCREASING K MIN_RUN_LENGTH
            slice.length (slice.length + 1) slice1
            ⟨[], (K - 1) * (usize_ilog K slice.length + 2)⟩
            (List.replicate K 0) K (s0, e0) with
        | none => none
        | some (slice2, s2, sp2, idx2, a2) =>
          mwFinal le K slice.length a2.2 (slice2.length + 1) slice2 a2.1
            (PIpopped s2.entries 0) sp2 idx2
      else none

end MultiwayDriverDefs

section MultiwayDriverLemmas

/-! ### General-`K` groundwork for the `multiway_powersort` driver -/

end MultiwayDriverLemmas

section MultiwayDriverInvariant

end MultiwayDriverInvariant

section ClaimOne

end ClaimOne

end MPE

namespace MPE

/-- Concrete comparator on naturals used by the witnesses. -/
def natLeCmp : Nat → Nat → Bool := fun a b => decide (a ≤ b)

theorem natLeCmp_lawful : LawfulCmp natLeCmp := by
  constructor
  · intro a b c hab hbc
    simp [natLeCmp] at hab hbc ⊢
    omega
  · intro a b
    simp [natLeCmp]
    omega

/-- Witness for C7 at a concrete input. -/
theorem C7_run_scanner_witness :
    LawfulCmp natLeCmp ∧
    (((count_run_and_make_ascending natLeCmp [3, 2, 1, 5]).1).Perm [3, 2, 1, 5] ∧
      (count_run_and_make_ascending natLeCmp [3, 2, 1, 5]).2 ≤ ([3, 2, 1, 5] : List Nat).length ∧
      SortedLe natLeCmp ((count_run_and_make_ascending natLeCmp [3, 2, 1, 5]).1.take
        (count_run_and_make_ascending natLeCmp [3, 2, 1, 5]).2) ∧
      (([3, 2, 1, 5] : List Nat).length < 2 →
        count_run_and_make_ascending natLeCmp [3, 2, 1, 5]
          = ([3, 2, 1, 5], ([3, 2, 1, 5] : List Nat).length)) ∧
      (∀ x y t, ([3, 2, 1, 5] : List Nat) = x :: y :: t → natLeCmp x y = true →
        count_run_and_make_ascending natLeCmp [3, 2, 1, 5]
            = ([3, 2, 1, 5], weakly_increasing_prefix_index natLeCmp [3, 2, 1, 5]) ∧
        (∀ j, j ≤ ([3, 2, 1, 5] : List Nat).length →
          List.Chain' (fun a b => natLeCmp a b = true) (([3, 2, 1, 5] : List Nat).take j) →
          j ≤ weakly_increasing_prefix_index natLeCmp [3, 2, 1, 5])) ∧
      (∀ x y t, ([3, 2, 1, 5] : List Nat) = x :: y :: t → natLeCmp x y = false →
        count_run_and_make_ascending natLeCmp [3, 2, 1, 5]
            = ((([3, 2, 1, 5] : List Nat).take
                  (strictly_decreasing_prefix_index natLeCmp [3, 2, 1, 5])).reverse
                 ++ ([3, 2, 1, 5] : List Nat).drop
                  (strictly_decreasing_prefix_index natLeCmp [3, 2, 1, 5]),
               strictly_decreasing_prefix_index natLeCmp [3, 2, 1, 5]) ∧
        List.Chain' (fun a b => (!(natLeCmp a b)) = true)
          (([3, 2, 1, 5] : List Nat).take
            (strictly_decreasing_prefix_index natLeCmp [3, 2, 1, 5])) ∧
        (∀ j, j ≤ ([3, 2, 1, 5] : List Nat).length →
          List.Chain' (fun a b => (!(natLeCmp a b)) = true)
            (([3, 2, 1, 5] : List Nat).take j) →
          j ≤ strictly_decreasing_prefix_index natLeCmp [3, 2, 1, 5]))) :=
  ⟨natLeCmp_lawful, C7_run_scanner natLeCmp natLeCmp_lawful [3, 2, 1, 5]⟩

/-- Witness for C2 at two concrete instances: a sorted two-way split of
`[1, 3, 2, 4]`, and the three sorted runs `[2]`, `[1, 3]`, `[2, 4]` of
`[2, 1, 3, 2, 4]` at `K = 4` (which admit no sorted two-way split). -/
theorem C2_merge_engines_witness :
    ((∃ m, CopyBoth.merge natLeCmp [1, 3, 2, 4] 2 4 = some m ∧
        SortedLe natLeCmp m ∧ m.Perm [1, 3, 2, 4]) ∧
     (∃ m, Galloping_merge natLeCmp 7 [1, 3, 2, 4] 2 4 = some m ∧
        SortedLe natLeCmp m ∧ m.Perm [1, 3, 2, 4])) ∧
    (∃ m, TournamentTree.merge natLeCmp 4 [2, 1, 3, 2, 4] [1, 2] 5 = some m ∧
        SortedLe natLeCmp m ∧ m.Perm [2, 1, 3, 2, 4]) :=
  ⟨(C2_merge_engines natLeCmp natLeCmp_lawful [1, 3, 2, 4] 2 4 7 2 [2]
      (by decide) (by decide)).1 (by decide)
      (by simp only [SortedLe]; decide) (by simp only [SortedLe]; decide),
   (C2_merge_engines natLeCmp natLeCmp_lawful [2, 1, 3, 2, 4] 0 5 7 4 [1, 2]
      (by decide) (by decide)).2 (by decide) (by decide)
      (by simp only [SortedLe]; decide)⟩

/-- Witness for C4 at two concrete instances: the two-way split of
`[1, 3, 2, 4]` with tie class `3`, and the three runs `[2]`, `[1, 3]`,
`[2, 4]` of `[2, 1, 3, 2, 4]` at `K = 4` with the cross-run tie class
`2`. -/
theorem C4_merge_stability_witness :
    ((∀ m, CopyBoth.merge natLeCmp [1, 3, 2, 4] 2 4 = some m →
      m.filter (fun b => natLeCmp 3 b && natLeCmp b 3)
        = ([1, 3, 2, 4].take 2).filter (fun b => natLeCmp 3 b && natLeCmp b 3)
          ++ ([1, 3, 2, 4].drop 2).filter
              (fun b => natLeCmp 3 b && natLeCmp b 3)) ∧
     (∀ m, Galloping_merge natLeCmp 7 [1, 3, 2, 4] 2 4 = some m →
      m.filter (fun b => natLeCmp 3 b && natLeCmp b 3)
        = ([1, 3, 2, 4].take 2).filter (fun b => natLeCmp 3 b && natLeCmp b 3)
          ++ ([1, 3, 2, 4].drop 2).filter
              (fun b => natLeCmp 3 b && natLeCmp b 3))) ∧
    (∀ m, TournamentTree.merge natLeCmp 4 [2, 1, 3, 2, 4] [1, 2] 5 = some m →
      m.filter (fun b => natLeCmp 2 b && natLeCmp b 2)
        = ((makeRuns 4 [2, 1, 3, 2, 4] [1, 2]).map
            (List.filter (fun b => natLeCmp 2 b && natLeCmp b 2))).flatten) ∧
    (∀ (runs pre post : List (List Nat)) (x : Nat) (rest : List Nat),
      pick natLeCmp runs = some (pre, x, rest, post) →
      ∀ r ∈ pre, ∀ h0 t, r = h0 :: t → natLeCmp h0 x = false) :=
  ⟨(C4_merge_stability natLeCmp natLeCmp_lawful [1, 3, 2, 4] 2 4 7 2 [2] 3
      (by decide) (by decide)).1 (by decide)
      (by simp only [SortedLe]; decide) (by simp only [SortedLe]; decide),
   (C4_merge_stability natLeCmp natLeCmp_lawful [2, 1, 3, 2, 4] 0 5 7 4
      [1, 2] 2 (by decide) (by decide)).2.1 (by decide) (by decide)
      (by simp only [SortedLe]; decide),
   (C4_merge_stability natLeCmp natLeCmp_lawful [1, 3, 2, 4] 2 4 7 2 [2] 3
      (by decide) (by decide)).2.2⟩

/-- Witness for C10 at a concrete instance. -/
theorem C10_dynamic_tournament_tree_witness :
    DynamicTournamentTree.merge natLeCmp 2 [3, 1, 2] [1] 0
        = DynamicTournamentTree.merge natLeCmp 5 [3, 1, 2] [9, 9] 7 ∧
    DynamicTournamentTree.merge natLeCmp 2 [3, 1, 2] [1] 0
        = [3, 1, 2].mergeSort natLeCmp ∧
    SortedLe natLeCmp (DynamicTournamentTree.merge natLeCmp 2 [3, 1, 2] [1] 0) ∧
    (DynamicTournamentTree.merge natLeCmp 2 [3, 1, 2] [1] 0).Perm [3, 1, 2] ∧
    (DynamicTournamentTree.merge natLeCmp 2 [3, 1, 2] [1]
        0).filter (fun b => natLeCmp 2 b && natLeCmp b 2)
      = [3, 1, 2].filter (fun b => natLeCmp 2 b && natLeCmp b 2) :=
  C10_dynamic_tournament_tree natLeCmp natLeCmp_lawful 2 5 [3, 1, 2]
    [1] [9, 9] 0 7 2


end MPE
